import Mathlib

/-!
# codeat-train: the per-set adaptive training loop

A shallow embedding of `main` of `src/kaldi_v3119/nnetbin/codeat-train.cc`
(option validation, discovery of the `<codeat>` layers, cache configuration,
the loop over sets, the fill / randomize / drain loop over the utterances of a
set, aggregation of the code gradients and persistence of the codes), and of
`GRbm::PropagateFnc`, `GRbm::WriteAsNnet` and `GRbm::RbmUpdate` of
`src/nnet/nnet-grbm.h`, followed by the properties established for them.

Conventions of the embedding:

* `BaseFloat` values are exact rationals; a vector is a list of rationals and a
  matrix is a list of rows.
* `KALDI_ERR` and the two undefined operations of `main` (the integer division
  by `bunchsize` and `layers_codeat[0]` on an empty vector) end the run with a
  `Fault`; the state reached at that point is kept in `Result.fatal`.
* The loop over the utterances of a set may fail to terminate; it takes a fuel
  argument and `Result.diverge` is the answer when the fuel is used up. The
  drain loop inside it is bounded by the number of buffered entries, which is
  enough whenever a bunch removes at least one entry, and answers
  `Result.diverge` otherwise.
* Calls into the collaborators are recorded, in order, in `State.log`.
* The counters are natural numbers (they start at zero and are only
  incremented; the wrap of `int32` after `2^31` increments is not modelled).
-/

namespace CodeatTrain

/-! ## Data -/

/-- A vector of `BaseFloat` values (a feature row, a code, a code gradient). -/
abbrev Vec := List ℚ

/-- A matrix of `BaseFloat` values, as the list of its rows. -/
abbrev Mat := List Vec

/-- One buffered training example: a feature row and its target. -/
abbrev Entry := Vec × Int

/-- The value `Matrix::NumRows()`. -/
def NumRows (mat : Mat) : Int := (mat.length : Int)

/-- The value of the conversion `(int32) n`: `n` reduced into `[-2^31, 2^31)`. -/
def toInt32 (n : Int) : Int := (n + 2147483648) % 4294967296 - 2147483648

/-- The command-line options of `main` (lines 42-79) with their defaults. -/
structure Options where
  binary : Bool := true
  crossvalidate : Bool := false
  randomize : Bool := true
  shuffle : Bool := true
  bunchsize : Int := 512
  cachesize : Int := 32768
  seed : Int := 777
  max_frames : Int := 6000
  update_weight : Bool := false
  update_code_xform : Bool := false
  update_code_vec : Bool := false
  out_adapt_filename : String := ""
  code_vec_wspecifier : String := ""

/-- The ways in which a run of `main` is aborted. -/
inductive Fault
  | allUpdatesDisabled
  | noOutputAdaptNnet
  | noOutputCodeArchive
  | inconsistentCodeDim
  | noCodeForSet (setkey : String)
  | noSuchKey (utt : String)
  | divideByZero
  | cacheInit
  | cacheFull
  | indexOutOfRange
  deriving DecidableEq, Repr

/-- The outcome of a (part of a) run: normal completion, an abort with the state
reached when the fault was raised, or no answer within the given fuel. -/
inductive Result (σ : Type)
  | done (st : σ)
  | fatal (f : Fault) (st : σ)
  | diverge
  deriving DecidableEq, Repr

/-! ## The `<codeat>` layer -/

/-- Modelled from the spec: the `CodeAT` layer of `nnet/nnet-codeat.h`, which is
not among the sources. Per the AdaptiveLayer interface of the spec it holds a
mirror of the code of the current set, a gradient accumulator of the same
dimension, the code gradient left by the last backward pass, and the three
update switches. -/
structure CodeAT where
  code_dim : Int
  code : Vec
  code_corr : Vec
  code_diff : Vec
  update_weight : Bool
  update_code_xform : Bool
  update_code_vec : Bool
  deriving DecidableEq, Repr

/-- Modelled from the spec: `configureUpdates(updateWeights, updateTransform,
updateCode)` of the AdaptiveLayer interface (`CodeAT::ConfigureUpdate`). -/
def CodeAT.ConfigureUpdate (l : CodeAT) (w x v : Bool) : CodeAT :=
  { l with update_weight := w, update_code_xform := x, update_code_vec := v }

/-- Modelled from the spec: `codeDim` of an AdaptiveLayer (`CodeAT::GetCodeDim`). -/
def CodeAT.GetCodeDim (l : CodeAT) : Int := l.code_dim

/-- Modelled from the spec: `setCode(vector)` (`CodeAT::SetCode`). -/
def CodeAT.SetCode (l : CodeAT) (code : Vec) : CodeAT := { l with code := code }

/-- Modelled from the spec: `getCode()` (`CodeAT::GetCode`). -/
def CodeAT.GetCode (l : CodeAT) : Vec := l.code

/-- Modelled from the spec: `zeroGradientAccumulator()` (`CodeAT::ZeroCodeCorr`);
the accumulator has the dimension of the code. -/
def CodeAT.ZeroCodeCorr (l : CodeAT) : CodeAT :=
  { l with code_corr := List.replicate l.code_dim.toNat 0 }

/-- Modelled from the spec: `getCodeGradient()` (`CodeAT::GetCodeDiff`). -/
def CodeAT.GetCodeDiff (l : CodeAT) : Vec := l.code_diff

/-- Modelled from the spec: `updateCode(aggregatedGradient)` (`CodeAT::UpdateCode`).
The update formula is not given; `rule` maps the code, the accumulator and the
gradient passed in to the new code and the new accumulator. All `<codeat>`
layers run the same formula under the same training options. -/
def CodeAT.UpdateCode (rule : Vec → Vec → Vec → Vec × Vec) (l : CodeAT) (diff : Vec) : CodeAT :=
  { l with code := (rule l.code l.code_corr diff).1,
           code_corr := (rule l.code l.code_corr diff).2 }

/-- A component of the adaptation network, by `Component::GetType()`. -/
inductive Component
  | kCodeAT (layer : CodeAT)
  | kOther
  deriving DecidableEq, Repr

/-! ## The cache -/

/-- Modelled from the spec: the `Cache` of `nnet/nnet-cache.h`, which is not
among the sources (ShuffleCache of the spec): the configured capacity and bunch
size and the buffered entries in their current order. -/
structure Cache where
  cachesize : Int
  bunchsize : Int
  data : List Entry
  randomized : Bool
  deriving DecidableEq, Repr

/-- Modelled from the spec: `configure(capacity, bunchSize)` (`Cache::Init`),
which fails fast if `bunchSize ≤ 0`. -/
def Cache.Init (cachesize bunchsize : Int) : Except Fault Cache :=
  if bunchsize ≤ 0 then .error .cacheInit
  else .ok { cachesize := cachesize, bunchsize := bunchsize, data := [], randomized := false }

/-- Modelled from the spec: `isFull()`, true when the buffered-frame count is at
least the capacity (`Cache::Full`). -/
def Cache.Full (c : Cache) : Bool := decide (c.cachesize ≤ (c.data.length : Int))

/-- Modelled from the spec: `isEmpty()`, true when the buffered-frame count is
zero (`Cache::Empty`). -/
def Cache.Empty (c : Cache) : Bool := c.data.isEmpty

/-- Modelled from the spec: `addUtterance(features, labels)` (`Cache::AddData`),
which appends every frame of the utterance as one entry each and fails if
called while full. -/
def Cache.AddData (c : Cache) (features : Mat) (targets : List Int) : Except Fault Cache :=
  if c.Full then .error .cacheFull
  else .ok { c with data := c.data ++ features.zip targets }

/-- Modelled from the spec: `randomize(generator)` (`Cache::Randomize`); `perm`
is the reordering drawn from the generator. -/
def Cache.Randomize (c : Cache) (perm : List Entry → List Entry) : Cache :=
  { c with data := perm c.data, randomized := true }

/-- Modelled from the spec: `takeBunch()` (`Cache::GetBunch`), which removes and
returns the next `bunchSize` entries in current order, or the remaining ones if
fewer are left. -/
def Cache.GetBunch (c : Cache) : List Entry × Cache :=
  (c.data.take c.bunchsize.toNat, { c with data := c.data.drop c.bunchsize.toNat })

/-! ## Inputs, collaborators, state -/

/-- What `main` reads: the adaptation network and the four tables. A table read
with random access is a partial map from keys to values. -/
structure Inputs where
  nnet : List Component
  set2utt : List (String × List String)
  code_vec : String → Option Vec
  features : String → Option Mat
  alignments : String → Option (List Int)

/-- The numeric collaborators of `main`, over an abstract type `ω` for what they
keep between calls (network parameters, loss statistics).

* `Feedforward` is `nnet_transf.Feedforward`;
* `Propagate` stands for lines 278-281 (both forward passes and `xent.EvalVec`);
* `Backpropagate` stands for lines 283-284 and yields, for the layer with index
  `c`, the gradient that `GetCodeDiff` returns afterwards;
* `UpdateCode` is the update formula of the `<codeat>` layers;
* `random_shuffle` and `Randomize` reorder a list from the state of the `rand`
  generator and return the next state of the generator. -/
structure Collab (ω : Type) where
  Feedforward : Mat → Mat
  Propagate : ω → List CodeAT → List Entry → ω
  Backpropagate : ω → List CodeAT → List Entry → ω × (Nat → Vec)
  UpdateCode : Vec → Vec → Vec → Vec × Vec
  random_shuffle : Int → List String → List String × Int
  Randomize : Int → List Entry → List Entry × Int

/-- The calls that `main` makes on its collaborators. -/
inductive Event
  | setCode (c : Nat) (code : Vec)
  | zeroCodeCorr (c : Nat)
  | readFeatures (utt : String)
  | addData (utt : String) (frames : List Entry)
  | randomizeCache
  | getBunch (bunch : List Entry)
  | propagate
  | backpropagate
  | updateCode (c : Nat) (diff : Vec)
  | writeCode (setkey : String) (code : Vec)
  | writeNnet
  deriving DecidableEq, Repr

/-- The variables of `main` that change while the sets are processed. -/
structure State (ω : Type) where
  net : ω
  layers_codeat : List CodeAT
  cache : Cache
  rng : Int
  total_frames : Nat
  num_done : Nat
  num_no_alignments : Nat
  num_other_error : Nat
  num_set : Nat
  code_vec_writer : List (String × Vec)
  log : List Event

/-! ## Startup -/

/-- Lines 97-105: the three checks on the update switches and the output names. -/
def checkOptions (o : Options) : Except Fault Unit :=
  if !o.crossvalidate && !o.update_weight && !o.update_code_xform && !o.update_code_vec then
    .error .allUpdatesDisabled
  else if !o.crossvalidate && (o.update_weight || o.update_code_xform)
      && o.out_adapt_filename == "" then
    .error .noOutputAdaptNnet
  else if !o.crossvalidate && o.update_code_vec && o.code_vec_wspecifier == "" then
    .error .noOutputCodeArchive
  else .ok ()

/-- Lines 141-155: the scan of the components for `<codeat>` layers, from the
values of `code_dim` and `layers_codeat` reached so far (`num_codeat` is the
length of `layers_codeat`). -/
def findCodeAT (o : Options) : List Component → Int → List CodeAT → Except Fault (List CodeAT × Int)
  | [], code_dim, layers_codeat => .ok (layers_codeat, code_dim)
  | .kOther :: cs, code_dim, layers_codeat => findCodeAT o cs code_dim layers_codeat
  | .kCodeAT layer :: cs, code_dim, layers_codeat =>
    let l := layer.ConfigureUpdate o.update_weight o.update_code_xform o.update_code_vec
    if code_dim = 0 then findCodeAT o cs l.GetCodeDim (layers_codeat ++ [l])
    else if code_dim ≠ l.GetCodeDim then .error .inconsistentCodeDim
    else findCodeAT o cs code_dim (layers_codeat ++ [l])

/-- The code dimensions reported by the `<codeat>` layers of a network, in order. -/
def codeDims : List Component → List Int
  | [] => []
  | .kOther :: cs => codeDims cs
  | .kCodeAT layer :: cs => layer.GetCodeDim :: codeDims cs

/-- Line 169: `(cachesize / bunchsize) * bunchsize` on `int32` operands. The
division truncates towards zero and is undefined for `bunchsize = 0`; for
operands in range the product is between zero and `cachesize`, so it does not
wrap. -/
def roundCachesize (cachesize bunchsize : Int) : Except Fault Int :=
  if bunchsize = 0 then .error .divideByZero
  else .ok ((cachesize.tdiv bunchsize) * bunchsize)

/-- Lines 168-170: rounding of `cachesize` and `cache.Init`. -/
def configureCache (cachesize bunchsize : Int) : Except Fault Cache :=
  match roundCachesize cachesize bunchsize with
  | .error f => .error f
  | .ok rounded => Cache.Init rounded bunchsize

/-! ## One set -/

/-- Lines 195-200, from layer index `c` on: `SetCode(code)` and `ZeroCodeCorr()`
on each `<codeat>` layer in turn; the layers after the loop and the calls made. -/
def setCodeLoop (code : Vec) : Nat → List CodeAT → List CodeAT × List Event
  | _, [] => ([], [])
  | c, l :: ls =>
    ((l.SetCode code).ZeroCodeCorr :: (setCodeLoop code (c + 1) ls).1,
      .setCode c code :: .zeroCodeCorr c :: (setCodeLoop code (c + 1) ls).2)

/-- Lines 212-262, the body of the fill loop for the utterance `utt`. -/
def fillStep {ω : Type} (P : Collab ω) (o : Options) (inp : Inputs) (st : State ω)
    (utt : String) : Result (State ω) :=
  match inp.alignments utt with
  | none => .done { st with num_no_alignments := st.num_no_alignments + 1 }
  | some alignment =>
    match inp.features utt with
    | none => .fatal (.noSuchKey utt) st
    | some mat =>
      if NumRows mat > o.max_frames then
        .done { st with num_other_error := st.num_other_error + 1,
                        log := st.log ++ [.readFeatures utt] }
      else if toInt32 (alignment.length : Int) ≠ NumRows mat then
        .done { st with num_other_error := st.num_other_error + 1,
                        log := st.log ++ [.readFeatures utt] }
      else
        match st.cache.AddData (P.Feedforward mat) alignment with
        | .error f => .fatal f { st with log := st.log ++ [.readFeatures utt] }
        | .ok cache =>
          .done { st with cache := cache, num_done := st.num_done + 1,
                          log := st.log ++ [.readFeatures utt,
                            .addData utt ((P.Feedforward mat).zip alignment)] }

/-- Lines 211-263, the fill loop `while (!cache.Full() && uid < uttlst.size())`.
The second argument is the part of `uttlst` from index `uid` on; the loop
returns the state and the part of `uttlst` that is left. -/
def fillLoop {ω : Type} (P : Collab ω) (o : Options) (inp : Inputs) :
    State ω → List String → Result (State ω × List String)
  | st, [] => .done (st, [])
  | st, utt :: rest =>
    if st.cache.Full then .done (st, utt :: rest)
    else
      match fillStep P o inp st utt with
      | .done st1 => fillLoop P o inp st1 rest
      | .fatal f st1 => .fatal f (st1, utt :: rest)
      | .diverge => .diverge

/-- Modelled from the spec: `CuMatrix::AddMat(alpha, A, beta)` of the matrix
library, `this := alpha * A + beta * this` element by element (the sum of the
retrieved code gradients). -/
def AddMat (alpha : ℚ) (A : Vec) (beta : ℚ) (this : Vec) : Vec :=
  List.zipWith (fun t a => alpha * a + beta * t) this A

/-- Modelled from the spec: `CuMatrix::Scale(alpha)` of the matrix library,
`this := alpha * this` element by element. -/
def Scale (alpha : ℚ) (this : Vec) : Vec := this.map (fun t => alpha * t)

/-- Lines 288-290: `code_vec_diff.AddMat(1.0, layers_codeat[c]->GetCodeDiff(), 1.0)`
for the layers after the first. -/
def sumCodeDiff : Vec → List CodeAT → Vec
  | code_vec_diff, [] => code_vec_diff
  | code_vec_diff, l :: ls => sumCodeDiff (AddMat 1 l.GetCodeDiff 1 code_vec_diff) ls

/-- Lines 287-291: the aggregated code gradient; `layers_codeat[0]` is out of
range when the network has no `<codeat>` layer. -/
def codeVecDiff (layers_codeat : List CodeAT) : Except Fault Vec :=
  match layers_codeat with
  | [] => .error .indexOutOfRange
  | l0 :: ls =>
    .ok (Scale (1 / (layers_codeat.length : ℚ)) (sumCodeDiff l0.GetCodeDiff ls))

/-- Lines 293-295, from layer index `c` on: `UpdateCode(code_vec_diff)` on each
`<codeat>` layer in turn; the layers after the loop and the calls made. -/
def updateCodeLoop (rule : Vec → Vec → Vec → Vec × Vec) (code_vec_diff : Vec) :
    Nat → List CodeAT → List CodeAT × List Event
  | _, [] => ([], [])
  | c, l :: ls =>
    (l.UpdateCode rule code_vec_diff :: (updateCodeLoop rule code_vec_diff (c + 1) ls).1,
      .updateCode c code_vec_diff :: (updateCodeLoop rule code_vec_diff (c + 1) ls).2)

/-- The effect of the backward pass on the `<codeat>` layers, from layer index
`c` on: each layer holds its new code gradient. -/
def setCodeDiff (diffs : Nat → Vec) : Nat → List CodeAT → List CodeAT
  | _, [] => []
  | c, l :: ls => { l with code_diff := diffs c } :: setCodeDiff diffs (c + 1) ls

/-- Lines 275-297, the body of the drain loop: one bunch. -/
def trainBunch {ω : Type} (P : Collab ω) (o : Options) (st : State ω) : Result (State ω) :=
  let bunch := st.cache.GetBunch.1
  let net1 := P.Propagate st.net st.layers_codeat bunch
  if o.crossvalidate then
    .done { st with cache := st.cache.GetBunch.2, net := net1,
                    total_frames := st.total_frames + bunch.length,
                    log := st.log ++ [.getBunch bunch, .propagate] }
  else
    let back := P.Backpropagate net1 st.layers_codeat bunch
    let layers1 := setCodeDiff back.2 0 st.layers_codeat
    match codeVecDiff layers1 with
    | .error f =>
      .fatal f { st with cache := st.cache.GetBunch.2, net := back.1, layers_codeat := layers1,
                         log := st.log ++ [.getBunch bunch, .propagate, .backpropagate] }
    | .ok code_vec_diff =>
      .done { st with cache := st.cache.GetBunch.2, net := back.1,
                      layers_codeat := (updateCodeLoop P.UpdateCode code_vec_diff 0 layers1).1,
                      total_frames := st.total_frames + bunch.length,
                      log := st.log ++ [.getBunch bunch, .propagate, .backpropagate]
                        ++ (updateCodeLoop P.UpdateCode code_vec_diff 0 layers1).2 }

/-- Lines 274-298, the drain loop `while (!cache.Empty())`, for at most the given
number of bunches. -/
def drainLoop {ω : Type} (P : Collab ω) (o : Options) : Nat → State ω → Result (State ω)
  | 0, st => if st.cache.Empty then .done st else .diverge
  | n + 1, st =>
    if st.cache.Empty then .done st
    else
      match trainBunch P o st with
      | .done st1 => drainLoop P o n st1
      | .fatal f st1 => .fatal f st1
      | .diverge => .diverge

/-- Lines 265-267: `cache.Randomize()` in training mode with `randomize` set. -/
def randomizeStep {ω : Type} (P : Collab ω) (o : Options) (st : State ω) : State ω :=
  if !o.crossvalidate && o.randomize then
    { st with cache := st.cache.Randomize (fun d => (P.Randomize st.rng d).1),
              rng := (P.Randomize st.rng st.cache.data).2,
              log := st.log ++ [.randomizeCache] }
  else st

/-- Lines 208-300, the loop `for (uid = 0; uid < uttlst.size();)` over the part
of `uttlst` that is left: fill, randomize, drain. Each pass uses one unit of
fuel. The drain loop is given as many bunches as the cache holds entries, which
is enough whenever a bunch removes at least one entry. -/
def uttLoop {ω : Type} (P : Collab ω) (o : Options) (inp : Inputs) :
    Nat → State ω → List String → Result (State ω)
  | _, st, [] => .done st
  | 0, _, _ :: _ => .diverge
  | fuel + 1, st, utt :: rest =>
    match fillLoop P o inp st (utt :: rest) with
    | .fatal f s => .fatal f s.1
    | .diverge => .diverge
    | .done s =>
      match drainLoop P o (randomizeStep P o s.1).cache.data.length (randomizeStep P o s.1) with
      | .done st3 => uttLoop P o inp fuel st3 s.2
      | .fatal f st3 => .fatal f st3
      | .diverge => .diverge

/-- Lines 187-305, the body of the loop over the sets, for the set with key
`set.1` and utterance list `set.2`. -/
def processSet {ω : Type} (P : Collab ω) (o : Options) (inp : Inputs) (fuel : Nat)
    (st : State ω) (set : String × List String) : Result (State ω) :=
  match inp.code_vec set.1 with
  | none => .fatal (.noCodeForSet set.1) st
  | some code =>
    let uttlst := if o.shuffle then P.random_shuffle st.rng set.2 else (set.2, st.rng)
    match uttLoop P o inp fuel
        { st with num_set := st.num_set + 1,
                  layers_codeat := (setCodeLoop code 0 st.layers_codeat).1,
                  rng := uttlst.2,
                  log := st.log ++ (setCodeLoop code 0 st.layers_codeat).2 } uttlst.1 with
    | .done st2 =>
      if !o.crossvalidate && o.update_code_vec then
        match st2.layers_codeat with
        | [] => .fatal .indexOutOfRange st2
        | l0 :: _ =>
          .done { st2 with code_vec_writer := st2.code_vec_writer ++ [(set.1, l0.GetCode)],
                           log := st2.log ++ [.writeCode set.1 l0.GetCode] }
      else .done st2
    | .fatal f st2 => .fatal f st2
    | .diverge => .diverge

/-- Lines 186-307, the loop over the sets read from `set2utt_reader`. -/
def setsLoop {ω : Type} (P : Collab ω) (o : Options) (inp : Inputs) (fuel : Nat) :
    State ω → List (String × List String) → Result (State ω)
  | st, [] => .done st
  | st, set :: sets =>
    match processSet P o inp fuel st set with
    | .done st1 => setsLoop P o inp fuel st1 sets
    | .fatal f st1 => .fatal f st1
    | .diverge => .diverge

/-! ## The run -/

/-- The state of `main` before the sets are processed: counters at zero, the
generator seeded by `srand(seed)`, nothing written. -/
def initState {ω : Type} (o : Options) (net : ω) (layers_codeat : List CodeAT) (cache : Cache) :
    State ω :=
  { net := net, layers_codeat := layers_codeat, cache := cache, rng := o.seed,
    total_frames := 0, num_done := 0, num_no_alignments := 0, num_other_error := 0,
    num_set := 0, code_vec_writer := [], log := [] }

/-- A `Cache` on which `Init` has not been called. -/
def Cache.fresh : Cache := { cachesize := 0, bunchsize := 0, data := [], randomized := false }

/-- The function `main` from the option checks on (lines 97-311); `fuel` bounds
the passes of the loop over the utterances of each set. -/
def main {ω : Type} (P : Collab ω) (o : Options) (inp : Inputs) (net : ω) (fuel : Nat) :
    Result (State ω) :=
  match checkOptions o with
  | .error f => .fatal f (initState o net [] Cache.fresh)
  | .ok _ =>
    match findCodeAT o inp.nnet 0 [] with
    | .error f => .fatal f (initState o net [] Cache.fresh)
    | .ok found =>
      match configureCache o.cachesize o.bunchsize with
      | .error f => .fatal f (initState o net found.1 Cache.fresh)
      | .ok cache =>
        match setsLoop P o inp fuel (initState o net found.1 cache) inp.set2utt with
        | .done st =>
          if !o.crossvalidate && (o.update_weight || o.update_code_xform) then
            .done { st with log := st.log ++ [.writeNnet] }
          else .done st
        | .fatal f st => .fatal f st
        | .diverge => .diverge

/-- The utterance `utt`, with feature matrix `mat`, passes the three checks of
the fill step: it has labels, at most `max_frames` frames, and as many labels as
frames. -/
def Accepted (o : Options) (inp : Inputs) (utt : String) (mat : Mat) : Prop :=
  ∃ alignment, inp.alignments utt = some alignment ∧ NumRows mat ≤ o.max_frames
    ∧ alignment.length = mat.length

/-- The code gradients that `GetCodeDiff` returns, by layer index, after the
forward and backward pass on the next bunch of the cache from the state `st`. -/
def bunchCodeDiffs {ω : Type} (P : Collab ω) (st : State ω) : Nat → Vec :=
  (P.Backpropagate (P.Propagate st.net st.layers_codeat st.cache.GetBunch.1)
    st.layers_codeat st.cache.GetBunch.1).2

/-- The state in which a part of a run ended, normally or by a fault, has the
property `I`. -/
def Result.Holds {σ : Type} (I : σ → Prop) : Result σ → Prop
  | .done st => I st
  | .fatal _ st => I st
  | .diverge => True

/-- All `<codeat>` layers hold the same code and the same accumulator. -/
def Mirrored (layers : List CodeAT) : Prop :=
  ∀ l ∈ layers, ∀ m ∈ layers, l.code = m.code ∧ l.code_corr = m.code_corr

/-- Every entry of `xs` is a frame passed to the cache by an `AddData` call
recorded in `evs`, for an utterance that has labels. -/
def Traced (inp : Inputs) (evs : List Event) (xs : List Entry) : Prop :=
  ∀ x ∈ xs, ∃ u fr, Event.addData u fr ∈ evs ∧ x ∈ fr ∧ inp.alignments u ≠ none

/-- No event of `evs` reads the features of, or adds to the cache the frames of,
an utterance without labels. -/
def LabelledOnly (inp : Inputs) (evs : List Event) : Prop :=
  ∀ u, inp.alignments u = none →
    Event.readFeatures u ∉ evs ∧ ∀ fr, Event.addData u fr ∉ evs

/-- Since the log was `log0`, the run has only touched utterances with labels,
and every entry of every bunch taken, and of the cache, is a frame of one of
them. -/
def FramesTraced {ω : Type} (inp : Inputs) (log0 : List Event) (s : State ω) : Prop :=
  ∃ evs, s.log = log0 ++ evs ∧ LabelledOnly inp evs
    ∧ (∀ b, Event.getBunch b ∈ evs → Traced inp evs b) ∧ Traced inp evs s.cache.data

/-- The counters of the utterances, the configuration of the cache and the number
of `<codeat>` layers as they are in `s` and in `s1`: `s1` has `k` more utterances
without labels and `n` more utterances examined. -/
def Counted {ω : Type} (s s1 : State ω) (k n : Nat) : Prop :=
  s1.num_no_alignments = s.num_no_alignments + k
    ∧ s1.num_done + s1.num_no_alignments + s1.num_other_error
        = s.num_done + s.num_no_alignments + s.num_other_error + n
    ∧ s1.cache.cachesize = s.cache.cachesize ∧ s1.cache.bunchsize = s.cache.bunchsize
    ∧ s1.layers_codeat.length = s.layers_codeat.length

/-- The utterance `u` has no labels. -/
def noAlignment (inp : Inputs) (u : String) : Bool := (inp.alignments u).isNone

/-! ## Events, frames and validity -/

/-- The events that the loop over the utterances of a set (lines 208-300) may
record under the options `o`: the reads and `AddData` calls of the fill loop,
`Randomize` in training mode with `randomize` set, the bunches and forward
passes, and in training mode the backward passes and `UpdateCode` calls. -/
def Event.inLoop (o : Options) : Event → Bool
  | .readFeatures _ => true
  | .addData _ _ => true
  | .randomizeCache => !o.crossvalidate && o.randomize
  | .getBunch _ => true
  | .propagate => true
  | .backpropagate => !o.crossvalidate
  | .updateCode _ _ => !o.crossvalidate
  | _ => false

/-- The events that the body of the loop over the sets (lines 187-305) may record
under the options `o`: those of the loop over the utterances, `SetCode` and
`ZeroCodeCorr`, and in training mode with `update_code_vec` set the write of the
code. -/
def Event.inSet (o : Options) : Event → Bool
  | .setCode _ _ => true
  | .zeroCodeCorr _ => true
  | .writeCode _ _ => !o.crossvalidate && o.update_code_vec
  | .writeNnet => false
  | e => e.inLoop o

/-- Since the log was `log0` only events with the property `K` were recorded. -/
def LogExt {ω : Type} (K : Event → Prop) (log0 : List Event) (s : State ω) : Prop :=
  ∃ evs, s.log = log0 ++ evs ∧ ∀ e ∈ evs, K e

/-- Lines 318-320, the summary of the utterances at the end of the run: the files
done, those with no alignments and those with other errors. -/
def summaryReport {ω : Type} (st : State ω) : Nat × Nat × Nat :=
  (st.num_done, st.num_no_alignments, st.num_other_error)

/-- The collaborators `P` with the reorderings `rs` and `rz` in place of the two
that draw on the `rand` generator. -/
def Collab.withRandom {ω : Type} (P : Collab ω)
    (rs : Int → List String → List String × Int)
    (rz : Int → List Entry → List Entry × Int) : Collab ω :=
  { P with random_shuffle := rs, Randomize := rz }

/-- The utterance `utt` passes the checks of the fill step (lines 215-238): it has
labels and features, at most `max_frames` frames, and a label count that equals,
as an `int32`, its frame count. -/
def validUtt (o : Options) (inp : Inputs) (utt : String) : Bool :=
  match inp.alignments utt, inp.features utt with
  | some alignment, some mat =>
    decide (NumRows mat ≤ o.max_frames)
      && decide (toInt32 (alignment.length : Int) = NumRows mat)
  | _, _ => false

/-- Since the state `st`, nothing was added to the cache and nothing taken from it:
the cache is empty, no frame was counted, the `<codeat>` layers are as they were,
and only reads of features and (empty) randomizations were recorded. -/
def Idle {ω : Type} (st s : State ω) : Prop :=
  s.cache.data = [] ∧ s.total_frames = st.total_frames
    ∧ s.layers_codeat = st.layers_codeat
    ∧ ∃ evs, s.log = st.log ++ evs
      ∧ ∀ e ∈ evs, (∃ u, e = Event.readFeatures u) ∨ e = Event.randomizeCache

/-- The frames passed to the cache by the `AddData` calls recorded in a log, in
order. -/
def addedFrames : List Event → List Entry
  | [] => []
  | .addData _ frames :: es => frames ++ addedFrames es
  | _ :: es => addedFrames es

/-- The entries returned by the `GetBunch` calls recorded in a log, in order. -/
def takenFrames : List Event → List Entry
  | [] => []
  | .getBunch bunch :: es => bunch ++ takenFrames es
  | _ :: es => takenFrames es

/-- The numbers of rows of the bunches returned by the `GetBunch` calls recorded
in a log, in order. -/
def bunchRows : List Event → List Nat
  | [] => []
  | .getBunch bunch :: es => bunch.length :: bunchRows es
  | _ :: es => bunchRows es

/-- The frames that the fill step adds to the cache for the utterance `utt`: its
transformed feature rows paired with its labels if it passes the checks of lines
215-238, none otherwise. -/
def acceptedEntries {ω : Type} (P : Collab ω) (o : Options) (inp : Inputs) (utt : String) :
    List Entry :=
  match inp.alignments utt, inp.features utt with
  | some alignment, some mat =>
    if validUtt o inp utt then (P.Feedforward mat).zip alignment else []
  | _, _ => []

/-- The frame count of the utterance `utt` if it passes the checks of the fill
step, zero otherwise. -/
def acceptedFrames (o : Options) (inp : Inputs) (utt : String) : Nat :=
  match inp.features utt with
  | some mat => if validUtt o inp utt then mat.length else 0
  | none => 0

/-- What a step or loop of the processing of a set did between the states `st` and
`s1`: it recorded the events `evs`, counted the frames of the bunches it took,
and left the capacity and bunch size of the cache as they were. -/
def Flow {ω : Type} (st s1 : State ω) (evs : List Event) : Prop :=
  s1.log = st.log ++ evs
    ∧ s1.total_frames = st.total_frames + (takenFrames evs).length
    ∧ s1.cache.bunchsize = st.cache.bunchsize ∧ s1.cache.cachesize = st.cache.cachesize
    ∧ ∀ b, Event.getBunch b ∈ evs → b.length ≤ st.cache.bunchsize.toNat

/-- Since the log was `log0`, every entry of every bunch taken, and every entry
still in the cache, is a frame accepted for one of the utterances `U`. -/
def FromSet {ω : Type} (P : Collab ω) (o : Options) (inp : Inputs) (U : List String)
    (log0 : List Event) (s : State ω) : Prop :=
  ∃ evs, s.log = log0 ++ evs
    ∧ (∀ b, Event.getBunch b ∈ evs → ∀ x ∈ b, ∃ u ∈ U, x ∈ acceptedEntries P o inp u)
    ∧ ∀ x ∈ s.cache.data, ∃ u ∈ U, x ∈ acceptedEntries P o inp u

/-- The number of `UpdateCode` calls on the `<codeat>` layer `c` recorded in a
log. -/
def updateCalls (c : Nat) : List Event → Nat
  | [] => 0
  | .updateCode c' _ :: es => (if c' = c then 1 else 0) + updateCalls c es
  | _ :: es => updateCalls c es

/-- Since the log was `log0` the number `n` of `<codeat>` layers has not changed,
and each of them has had as many `UpdateCode` calls as bunches were taken. -/
def UpdatedPerBunch {ω : Type} (n : Nat) (log0 : List Event) (s : State ω) : Prop :=
  s.layers_codeat.length = n
    ∧ ∃ evs, s.log = log0 ++ evs ∧ ∀ c < n, updateCalls c evs = (bunchRows evs).length

/-! ## The Gaussian-Bernoulli RBM of `nnet/nnet-grbm.h` -/

/-- The argument `MatrixTransposeType` of the matrix library. -/
inductive MatrixTransposeType
  | kNoTrans
  | kTrans
  deriving DecidableEq, Repr

/-- The inner product of two rows. -/
def dot (a b : Vec) : ℚ := (List.zipWith (fun x y => x * y) a b).sum

/-- The transpose of a matrix given by its rows. -/
def Transpose (m : Mat) : Mat :=
  (List.range (m.headD []).length).map (fun j => m.map (fun row => row.getD j 0))

/-- Modelled from the spec: `CuMatrix::DivColsVec(v)` of the matrix library, which
is not among the sources: column `j` of the matrix is divided by `v[j]`. -/
def DivColsVec (this : Mat) (v : Vec) : Mat :=
  this.map (fun row => List.zipWith (fun x d => x / d) row v)

/-- Modelled from the spec: `CuMatrix::MulColsVec(v)` of the matrix library, which
is not among the sources: column `j` of the matrix is multiplied by `v[j]`. -/
def MulColsVec (this : Mat) (v : Vec) : Mat :=
  this.map (fun row => List.zipWith (fun x d => x * d) row v)

/-- Modelled from the spec: `CuMatrix::AddVecToRows(alpha, v, beta)` of the matrix
library: every row becomes `alpha * v + beta * row`. -/
def AddVecToRows (alpha : ℚ) (v : Vec) (beta : ℚ) (this : Mat) : Mat :=
  this.map (fun row => List.zipWith (fun t b => alpha * b + beta * t) row v)

/-- Modelled from the spec: `CuMatrix::AddMatMat(alpha, A, transA, B, transB, beta)`
of the matrix library: `this := alpha * op(A) * op(B) + beta * this`. -/
def AddMatMat (alpha : ℚ) (A : Mat) (transA : MatrixTransposeType) (B : Mat)
    (transB : MatrixTransposeType) (beta : ℚ) (this : Mat) : Mat :=
  let rowsA := match transA with
    | .kNoTrans => A
    | .kTrans => Transpose A
  let colsB := match transB with
    | .kNoTrans => Transpose B
    | .kTrans => B
  List.zipWith
    (fun trow arow => List.zipWith (fun t b => alpha * dot arow b + beta * t) trow colsB)
    this rowsA

/-- Modelled from the spec: `CuMatrix::AddMat(alpha, A, beta)` on matrices, row by
row. -/
def AddMatRows (alpha : ℚ) (A : Mat) (beta : ℚ) (this : Mat) : Mat :=
  List.zipWith (fun t a => AddMat alpha a beta t) this A

/-- Modelled from the spec: `cu::Sigmoid(in, out)`, the logistic function applied
to every element; the function itself (`sigmoid`) is a parameter, its values not
being rational. -/
def Sigmoid (sigmoid : ℚ → ℚ) (y : Mat) : Mat := y.map (fun row => row.map sigmoid)

/-- Modelled from the spec: `Resize(rows, cols)` of the matrix library, which sets
the matrix to zeros of the given shape. -/
def CuMatrix.Resize (rows cols : Nat) : Mat := List.replicate rows (List.replicate cols 0)

/-- Modelled from the spec: `Resize(dim)` of the matrix library on a vector, which
sets it to `dim` zeros. -/
def CuVector.Resize (dim : Nat) : Vec := List.replicate dim 0

/-- Modelled from the spec: `CuMatrix::Set(value)`: every element becomes `value`. -/
def CuMatrix.Set (value : ℚ) (this : Mat) : Mat := this.map (fun row => row.map (fun _ => value))

/-- Modelled from the spec: `CuVector::Set(value)`: every element becomes `value`. -/
def CuVector.Set (value : ℚ) (this : Vec) : Vec := this.map (fun _ => value)

/-- Modelled from the spec: `CuVector::AddRowSumMat(alpha, mat, beta)`: element `j`
becomes `alpha` times the sum of column `j` of `mat` plus `beta` times itself. -/
def CuVector.AddRowSumMat (alpha : ℚ) (mat : Mat) (beta : ℚ) (this : Vec) : Vec :=
  List.zipWith (fun t j => alpha * (mat.map (fun row => row.getD j 0)).sum + beta * t)
    this (List.range this.length)

/-- Modelled from the spec: `CuVector::AddVec(alpha, vec, beta)`:
`this := alpha * vec + beta * this`. -/
def CuVector.AddVec (alpha : ℚ) (vec : Vec) (beta : ℚ) (this : Vec) : Vec :=
  List.zipWith (fun t a => alpha * a + beta * t) this vec

/-- Modelled from the spec: `CuVector::DivElements(v)`: element by element division. -/
def CuVector.DivElements (this v : Vec) : Vec := List.zipWith (fun t d => t / d) this v

/-- Modelled from the spec: `CuVector::MulElements(v)`: element by element product. -/
def CuVector.MulElements (this v : Vec) : Vec := List.zipWith (fun t d => t * d) this v

/-- Modelled from the spec: `CuMatrix::MulElements(A)`: element by element product. -/
def CuMatrix.MulElements (this A : Mat) : Mat :=
  List.zipWith (fun row a => List.zipWith (fun t d => t * d) row a) this A

/-- Modelled from the spec: `CuMatrix::MulRowsVec(scale)`: row `i` is multiplied by
`scale[i]`. -/
def CuMatrix.MulRowsVec (this : Mat) (scale : Vec) : Mat :=
  List.zipWith (fun row c => row.map (fun t => t * c)) this scale

/-- Modelled from the spec: `CuMatrix::Power(pow)` for a whole exponent: every
element is raised to the power `pow`. -/
def CuMatrix.Power (this : Mat) (pow : Nat) : Mat := this.map (fun row => row.map (fun t => t ^ pow))

/-- Modelled from the spec: `CuVector::Power(pow)` for a whole exponent. -/
def CuVector.Power (this : Vec) (pow : Nat) : Vec := this.map (fun t => t ^ pow)

/-- Modelled from the spec: `CuVector::ApplyTruncate(low, high)`: every element is
brought into the range from `low` to `high`. -/
def CuVector.ApplyTruncate (low high : ℚ) (this : Vec) : Vec :=
  this.map (fun t => max low (min high t))

/-- Modelled from the spec: `CuVector::ApplyFloor(floor)`: every element below
`floor` becomes `floor`. -/
def CuVector.ApplyFloor (floor : ℚ) (this : Vec) : Vec := this.map (fun t => max floor t)

/-- Modelled from the spec: `CuVector::ApplyExp()`; the exponential function (`exp`)
is a parameter, its values not being rational. -/
def CuVector.ApplyExp (exp : ℚ → ℚ) (this : Vec) : Vec := this.map exp

/-- The number of columns of a matrix given by its rows. -/
def NumCols (mat : Mat) : Int := ((mat.headD []).length : Int)

/-- The fields of `GRbm` (lines 338-367) that persist from one call to the next,
with the dimensions and the training options of the base classes. The buffers
`tmp_*`, which every use sets before it reads them, are local values here. -/
structure GRbm where
  input_dim : Nat
  output_dim : Nat
  vis_hid : Mat
  vis_bias : Vec
  hid_bias : Vec
  fstd : Vec
  vis_hid_corr : Mat
  data : Mat
  learn_rate : ℚ
  momentum : ℚ
  l2_penalty : ℚ
  fvar : Vec
  vis_bias_corr : Vec
  hid_bias_corr : Vec
  log_fstd_corr : Vec
  vis_hid_grad : Mat
  hid_bias_grad : Vec
  log_fstd_grad : Vec
  std_learn_rate : ℚ
  apply_sparsity : Bool
  sparsity_lambda : ℚ
  sparsity_p : ℚ
  deriving DecidableEq, Repr

/-- Lines 84-90 of `GRbm::PropagateFnc`, the output before the sigmoid: the bias is
copied into every row of the buffer `out`, the input is copied to `data_` and its
columns divided by `fstd_`, and `data_ * vis_hid_^T` is added. -/
def GRbm.PropagateAffine (g : GRbm) (input out : Mat) : GRbm × Mat :=
  let out1 := AddVecToRows 1 g.hid_bias 0 out
  let data := DivColsVec input g.fstd
  ({ g with data := data }, AddMatMat 1 data .kNoTrans g.vis_hid .kTrans 1 out1)

/-- Lines 81-93, `GRbm::PropagateFnc(in, out)`: the hidden probabilities for the
visible states `input`, written over the buffer `out`. -/
def GRbm.PropagateFnc (sigmoid : ℚ → ℚ) (g : GRbm) (input out : Mat) : GRbm × Mat :=
  ((g.PropagateAffine input out).1, Sigmoid sigmoid (g.PropagateAffine input out).2)

/-- Lines 136-273, `GRbm::RbmUpdate(pos_vis, pos_hid, neg_vis, neg_hid,
avg_hid_probs, first_bunch)`: the component after the update and the new value of
`avg_hid_probs`, or nothing if the assertion of lines 141-147 on the dimensions
fails. The statements are taken in the order of the source; `data_` holds the
visible data after `MulColsVec(fstd_)`. -/
def GRbm.RbmUpdate (exp : ℚ → ℚ) (g : GRbm) (pos_vis pos_hid neg_vis neg_hid : Mat)
    (avg_hid_probs : Vec) (first_bunch : Bool) : Option (GRbm × Vec) :=
  if NumRows pos_vis = NumRows pos_hid ∧ NumRows pos_vis = NumRows neg_vis
      ∧ NumRows pos_vis = NumRows neg_hid ∧ NumCols pos_vis = NumCols neg_vis
      ∧ NumCols pos_hid = NumCols neg_hid ∧ NumCols pos_vis = (g.input_dim : Int)
      ∧ NumCols pos_hid = (g.output_dim : Int) then
    -- lines 150-159: the buffers of the corrections and gradients
    let vis_hid_corr :=
      if first_bunch then CuMatrix.Resize g.output_dim g.input_dim else g.vis_hid_corr
    let vis_bias_corr := if first_bunch then CuVector.Resize g.input_dim else g.vis_bias_corr
    let hid_bias_corr := if first_bunch then CuVector.Resize g.output_dim else g.hid_bias_corr
    let log_fstd_corr := if first_bunch then CuVector.Resize g.input_dim else g.log_fstd_corr
    let vis_hid_grad :=
      if first_bunch then CuMatrix.Resize g.output_dim g.input_dim else g.vis_hid_grad
    let hid_bias_grad := if first_bunch then CuVector.Resize g.output_dim else g.hid_bias_grad
    let log_fstd_grad := if first_bunch then CuVector.Resize g.input_dim else g.log_fstd_grad
    -- lines 170-177: the weights
    let N : ℚ := (pos_vis.length : ℚ)
    let data := MulColsVec neg_vis g.fstd
    let vis_hid_corr :=
      AddMatMat (-g.learn_rate / N) neg_hid .kTrans data .kNoTrans g.momentum vis_hid_corr
    let data := MulColsVec pos_vis g.fstd
    let vis_hid_corr :=
      AddMatMat (g.learn_rate / N) pos_hid .kTrans data .kNoTrans 1 vis_hid_corr
    let vis_hid_corr := AddMatRows (-g.learn_rate * g.l2_penalty) g.vis_hid 1 vis_hid_corr
    -- lines 183-187: the visible bias
    let tmp_vec_vis := CuVector.Resize (NumCols pos_vis).toNat
    let tmp_vec_vis := CuVector.AddRowSumMat (-1) neg_vis 0 tmp_vec_vis
    let tmp_vec_vis := CuVector.AddRowSumMat 1 pos_vis 1 tmp_vec_vis
    let tmp_vec_vis := CuVector.DivElements tmp_vec_vis g.fvar
    let vis_bias_corr := CuVector.AddVec (g.learn_rate / N) tmp_vec_vis g.momentum vis_bias_corr
    -- lines 193-194: the hidden bias
    let hid_bias_corr := CuVector.AddRowSumMat (-g.learn_rate / N) neg_hid g.momentum hid_bias_corr
    let hid_bias_corr := CuVector.AddRowSumMat (g.learn_rate / N) pos_hid 1 hid_bias_corr
    -- lines 200-221: the visible variance
    let tmp_mat_n_vis := pos_vis
    let tmp_mat_n_vis := AddVecToRows (-1) g.vis_bias 1 tmp_mat_n_vis
    let tmp_mat_n_vis := CuMatrix.Power tmp_mat_n_vis 2
    let tmp_mat_n_vis := DivColsVec tmp_mat_n_vis g.fvar
    let log_fstd_grad := CuVector.AddRowSumMat 1 tmp_mat_n_vis 0 log_fstd_grad
    let tmp_mat_n_vis := AddMatMat 1 pos_hid .kNoTrans g.vis_hid .kNoTrans 0 tmp_mat_n_vis
    let tmp_mat_n_vis := CuMatrix.MulElements tmp_mat_n_vis pos_vis
    let tmp_mat_n_vis := DivColsVec tmp_mat_n_vis g.fstd
    let log_fstd_grad := CuVector.AddRowSumMat (-1) tmp_mat_n_vis 1 log_fstd_grad
    let tmp_mat_n_vis := neg_vis
    let tmp_mat_n_vis := AddVecToRows (-1) g.vis_bias 1 tmp_mat_n_vis
    let tmp_mat_n_vis := CuMatrix.Power tmp_mat_n_vis 2
    let tmp_mat_n_vis := DivColsVec tmp_mat_n_vis g.fvar
    let log_fstd_grad := CuVector.AddRowSumMat (-1) tmp_mat_n_vis 1 log_fstd_grad
    let tmp_mat_n_vis := AddMatMat 1 neg_hid .kNoTrans g.vis_hid .kNoTrans 0 tmp_mat_n_vis
    let tmp_mat_n_vis := CuMatrix.MulElements tmp_mat_n_vis neg_vis
    let tmp_mat_n_vis := DivColsVec tmp_mat_n_vis g.fstd
    let log_fstd_grad := CuVector.AddRowSumMat 1 tmp_mat_n_vis 1 log_fstd_grad
    let log_fstd_corr :=
      CuVector.AddVec (-g.std_learn_rate / N) log_fstd_grad g.momentum log_fstd_corr
    let log_fstd_corr := CuVector.ApplyTruncate (-1) 1 log_fstd_corr
    -- lines 223-258: the sparsity of the hidden units
    let sparse : Vec × Vec × Mat × Vec × Mat :=
      if g.apply_sparsity then
        let avg :=
          if first_bunch then
            CuVector.AddRowSumMat (1 / N) pos_hid 0 (CuVector.Resize g.output_dim)
          else CuVector.AddRowSumMat ((1 / 10) / N) pos_hid (9 / 10) avg_hid_probs
        let tmp_mat_n_hid := CuMatrix.Resize pos_hid.length g.output_dim
        let tmp_mat_n_hid := CuMatrix.Set 1 tmp_mat_n_hid
        let tmp_mat_n_hid := AddMatRows (-1) pos_hid 1 tmp_mat_n_hid
        let tmp_mat_n_hid := CuMatrix.MulElements tmp_mat_n_hid pos_hid
        let tmp_vec_hid := CuVector.Resize g.output_dim
        let tmp_vec_hid := CuVector.Set 1 tmp_vec_hid
        let tmp_vec_hid := CuVector.AddVec (-1) avg 1 tmp_vec_hid
        let tmp_vec_hid := CuVector.MulElements tmp_vec_hid avg
        let tmp_vec_hid_2 := CuVector.Resize g.output_dim
        let tmp_vec_hid_2 := CuVector.Set g.sparsity_p tmp_vec_hid_2
        let tmp_vec_hid_2 := CuVector.AddVec (-1) avg 1 tmp_vec_hid_2
        let tmp_vec_hid_2 := CuVector.DivElements tmp_vec_hid_2 tmp_vec_hid
        let hid_bias_grad :=
          CuVector.AddRowSumMat ((1 / 10) * g.sparsity_lambda / N) tmp_mat_n_hid 0 hid_bias_grad
        let hid_bias_grad := CuVector.MulElements hid_bias_grad tmp_vec_hid_2
        let vis_hid_grad :=
          AddMatMat ((1 / 10) * g.sparsity_lambda / N) tmp_mat_n_hid .kTrans data .kNoTrans 0
            vis_hid_grad
        let vis_hid_grad := CuMatrix.MulRowsVec vis_hid_grad tmp_vec_hid_2
        (avg, hid_bias_grad, vis_hid_grad,
          CuVector.AddVec g.learn_rate hid_bias_grad 1 hid_bias_corr,
          AddMatRows g.learn_rate vis_hid_grad 1 vis_hid_corr)
      else (avg_hid_probs, hid_bias_grad, vis_hid_grad, hid_bias_corr, vis_hid_corr)
    -- lines 261-272: the update
    let fstd :=
      CuVector.ApplyFloor (1 / 10)
        (CuVector.MulElements g.fstd (CuVector.ApplyExp exp log_fstd_corr))
    some
      ({ g with
          vis_hid := AddMatRows 1 sparse.2.2.2.2 1 g.vis_hid,
          vis_bias := CuVector.AddVec 1 vis_bias_corr 1 g.vis_bias,
          hid_bias := CuVector.AddVec 1 sparse.2.2.2.1 1 g.hid_bias,
          fstd := fstd,
          fvar := CuVector.Power fstd 2,
          vis_hid_corr := sparse.2.2.2.2,
          vis_bias_corr := vis_bias_corr,
          hid_bias_corr := sparse.2.2.2.1,
          log_fstd_corr := log_fstd_corr,
          vis_hid_grad := sparse.2.2.1,
          hid_bias_grad := sparse.2.1,
          log_fstd_grad := log_fstd_grad,
          data := data },
        sparse.1)
  else none

/-- A component as `GRbm::WriteAsNnet` writes it: the marker, the two dimensions
and, for `<biasedlinearity>`, the weight matrix and the bias. -/
inductive WrittenComponent
  | kBiasedLinearity (dim_out dim_in : Nat) (linearity : Mat) (bias : Vec)
  | kSigmoid (dim_out dim_in : Nat)
  deriving DecidableEq, Repr

/-- Lines 300-321, `GRbm::WriteAsNnet`: a `<biasedlinearity>` component with the
weights `vis_hid_` after `DivColsVec(fstd_)` and the bias `hid_bias_`, then a
`<sigmoid>` component. -/
def GRbm.WriteAsNnet (g : GRbm) : List WrittenComponent :=
  [.kBiasedLinearity g.output_dim g.input_dim (DivColsVec g.vis_hid g.fstd) g.hid_bias,
    .kSigmoid g.output_dim g.output_dim]

/-- Modelled from the spec: the forward pass of a written component, which is not
among the sources. An affine layer with weights `linearity` and bias `bias`
computes `bias + in * linearity^T` into the buffer `out`; a sigmoid layer applies
the logistic function to every element. -/
def WrittenComponent.Propagate (sigmoid : ℚ → ℚ) (input out : Mat) : WrittenComponent → Mat
  | .kBiasedLinearity _ _ linearity bias =>
    AddMatMat 1 input .kNoTrans linearity .kTrans 1 (AddVecToRows 1 bias 0 out)
  | .kSigmoid _ _ => Sigmoid sigmoid input

/-- Modelled from the spec: the forward pass through written components in turn,
each into a buffer of the shape of `out`. -/
def writtenForward (sigmoid : ℚ → ℚ) (out : Mat) : List WrittenComponent → Mat → Mat
  | [], input => input
  | c :: cs, input => writtenForward sigmoid out cs (c.Propagate sigmoid input out)

/-! ## Example inputs -/

/-- A `<codeat>` layer of code dimension `d` as read from a model file. -/
def exLayer (d : Int) : CodeAT :=
  { code_dim := d, code := [], code_corr := [], code_diff := [],
    update_weight := false, update_code_xform := false, update_code_vec := false }

/-- A network whose two `<codeat>` layers report the code dimensions 0 and 5. -/
def exNnetZeroFive : List Component := [.kCodeAT (exLayer 0), .kOther, .kCodeAT (exLayer 5)]

/-- A network whose two `<codeat>` layers report the code dimensions 3 and 4. -/
def exNnetThreeFour : List Component := [.kCodeAT (exLayer 3), .kOther, .kCodeAT (exLayer 4)]

/-- Collaborators for the examples: the feature transform is the identity, the
backward pass leaves the gradient `[c + 1, rows of the bunch]` in layer `c`, a
code update subtracts the gradient from the code, and both shuffles reverse. -/
def exCollab : Collab Unit :=
  { Feedforward := fun mat => mat,
    Propagate := fun _ _ _ => (),
    Backpropagate := fun _ _ bunch => ((), fun c => [(c : ℚ) + 1, (bunch.length : ℚ)]),
    UpdateCode := fun code corr diff => (List.zipWith (fun x y => x - y) code diff, corr),
    random_shuffle := fun r l => (l.reverse, r + 1),
    Randomize := fun r l => (l.reverse, r + 1) }

/-- Options for the examples: training of the code only, bunches of 4 frames, a
cache of 8 frames, no shuffling. -/
def exOptions : Options :=
  { bunchsize := 4, cachesize := 8, shuffle := false, randomize := false,
    update_code_vec := true, code_vec_wspecifier := "ark:code_out.ark" }

/-- The options of `exOptions` with `max_frames` set to 5. -/
def exOptionsFive : Options := { exOptions with max_frames := 5 }

/-- The options of `exOptions` with `bunchsize` set to 0. -/
def exOptionsZero : Options := { exOptions with bunchsize := 0 }

/-- Inputs for the examples: a network with two `<codeat>` layers of code
dimension 2; the set `A` with a code and the utterances `u1` (5 frames, 5
labels), `u2` (3 frames, 3 labels) and `u3` (no labels); the set `B` without a
code. -/
def exInputs : Inputs :=
  { nnet := [.kCodeAT (exLayer 2), .kOther, .kCodeAT (exLayer 2)],
    set2utt := [("A", ["u1", "u2", "u3"]), ("B", ["u4"])],
    code_vec := fun k => if k = "A" then some [1, 2] else none,
    features := fun u =>
      if u = "u1" then some (List.replicate 5 [1])
      else if u = "u2" then some (List.replicate 3 [2]) else none,
    alignments := fun u =>
      if u = "u1" then some [0, 1, 2, 3, 4]
      else if u = "u2" then some [0, 1, 2] else none }

/-- The cache that `configureCache 8 4` yields. -/
def exCache : Cache := { cachesize := 8, bunchsize := 4, data := [], randomized := false }

/-- The `<codeat>` layers of the example network after `ConfigureUpdate`. -/
def exLayers : List CodeAT :=
  [(exLayer 2).ConfigureUpdate false false true, (exLayer 2).ConfigureUpdate false false true]

/-- The state of `main` on the example inputs when the loop over the sets starts. -/
def exState : State Unit := initState exOptions () exLayers exCache

/-- The state `exState` with two frames in the cache. -/
def exStateBunch : State Unit :=
  { exState with cache := { exCache with data := [([1], 0), ([2], 1)] } }

/-- The inputs of `exInputs` with the set `A` only. -/
def exInputsA : Inputs := { exInputs with set2utt := [("A", ["u1", "u2", "u3"])] }

/-- The options of `exOptions` for a cross-validation run; the update switches
and the output names stay as they are. -/
def exOptionsCV : Options := { exOptions with crossvalidate := true }

/-- The options of `exOptions` with the weight update enabled as well. -/
def exOptionsWeight : Options :=
  { exOptions with update_weight := true, out_adapt_filename := "adapt_iter1.nnet" }

/-- Inputs for the examples in which the key `A` occurs twice in the stream of
sets. -/
def exInputsTwice : Inputs := { exInputs with set2utt := [("A", ["u1"]), ("A", ["u2"])] }

/-- Inputs for the examples with two utterances that are skipped: `u6` has 6
frames and 6 labels, `u7` has 2 frames and 3 labels. -/
def exInputsSkip : Inputs :=
  { exInputs with
    features := fun u =>
      if u = "u6" then some (List.replicate 6 [1])
      else if u = "u7" then some (List.replicate 2 [2]) else none,
    alignments := fun u =>
      if u = "u6" then some [0, 1, 2, 3, 4, 5]
      else if u = "u7" then some [0, 1, 2] else none }

/-- Inputs for the examples in which the only utterance of the set `A`, `x`, has
one label and no entry in the feature table. -/
def exInputsUnread : Inputs :=
  { exInputs with
    set2utt := [("A", ["x"])],
    features := fun _ => none,
    alignments := fun u => if u = "x" then some [0] else none }

/-- The state `exState` in which the writer already holds a record under `A`. -/
def exStateWritten : State Unit := { exState with code_vec_writer := [("A", [0, 0])] }

/-- The options of `exOptions` with a cache of 3 frames, less than one bunch. -/
def exOptionsSmall : Options := { exOptions with cachesize := 3 }

/-- A network of two components neither of which is a `<codeat>` layer. -/
def exNnetPlain : List Component := [.kOther, .kOther]

/-- The inputs of `exInputsA` with the network `exNnetPlain`. -/
def exInputsPlain : Inputs := { exInputsA with nnet := exNnetPlain }

/-- A `GRbm` with one visible and one hidden unit, visible standard deviation 2,
weight 3 and hidden bias 1, learning rate 1, no momentum and no penalty, and the
settings of the constructor (lines 27-30) for the variance and the sparsity. -/
def exGRbm : GRbm :=
  { input_dim := 1, output_dim := 1, vis_hid := [[3]], vis_bias := [0], hid_bias := [1],
    fstd := [2], vis_hid_corr := [[0]], data := [], learn_rate := 1, momentum := 0,
    l2_penalty := 0, fvar := [4], vis_bias_corr := [0], hid_bias_corr := [0],
    log_fstd_corr := [0], vis_hid_grad := [[0]], hid_bias_grad := [0], log_fstd_grad := [0],
    std_learn_rate := 1 / 1000, apply_sparsity := true, sparsity_lambda := 1 / 100,
    sparsity_p := 1 / 5 }

end CodeatTrain

/-! # Properties -/

namespace CodeatTrain

/-! ## Startup: option checks -/

/-- Claim C6: the option checks of lines 97-105 raise a fatal error exactly when
the run is in training mode and all three updates are disabled, or the weight or
the transform update is enabled with an empty output network name, or the code
update is enabled with an empty output code archive; in cross-validation mode
they accept every combination. -/
theorem checkOptions_fatal_iff (o : Options) :
    ((∃ f, checkOptions o = .error f) ↔
      (o.crossvalidate = false ∧
        ((o.update_weight = false ∧ o.update_code_xform = false ∧ o.update_code_vec = false)
          ∨ ((o.update_weight = true ∨ o.update_code_xform = true) ∧ o.out_adapt_filename = "")
          ∨ (o.update_code_vec = true ∧ o.code_vec_wspecifier = ""))))
    ∧ (o.crossvalidate = true → checkOptions o = .ok ()) := by
  rcases o with ⟨bin, cv, rnd, shf, bs, cs, seed, mf, uw, ux, uv, outn, outc⟩
  constructor
  · by_cases h1 : outn = "" <;> by_cases h2 : outc = "" <;>
      cases cv <;> cases uw <;> cases ux <;> cases uv <;> simp [checkOptions, h1, h2]
  · intro h
    simp only at h
    subst h
    simp [checkOptions]

/-! ## Startup: the scan for `<codeat>` layers -/

theorem findCodeAT_agree (o : Options) (cs : List Component) (d : Int)
    (acc : List CodeAT) (hd : d ≠ 0) (h : ∀ x ∈ codeDims cs, x = d) :
    ∃ r, findCodeAT o cs d acc = .ok r := by
  induction cs generalizing acc with
  | nil => exact ⟨_, rfl⟩
  | cons c cs ih =>
    cases c with
    | kOther => exact ih acc (by simpa [codeDims] using h)
    | kCodeAT layer =>
      have hx : layer.code_dim = d := h _ (by simp [codeDims, CodeAT.GetCodeDim])
      have hr : ∀ x ∈ codeDims cs, x = d := fun x hx => h x (by simp [codeDims, hx])
      simp only [findCodeAT, CodeAT.ConfigureUpdate, CodeAT.GetCodeDim, if_neg hd, hx, ne_eq,
        not_true_eq_false, if_false]
      exact ih _ hr

theorem findCodeAT_differ (o : Options) (cs : List Component) (d : Int)
    (acc : List CodeAT) (hd : d ≠ 0) (h : ∃ x ∈ codeDims cs, x ≠ d) :
    findCodeAT o cs d acc = .error .inconsistentCodeDim := by
  induction cs generalizing acc with
  | nil => simp [codeDims] at h
  | cons c cs ih =>
    cases c with
    | kOther => exact ih acc (by simpa [codeDims] using h)
    | kCodeAT layer =>
      by_cases hx : layer.code_dim = d
      · have hr : ∃ x ∈ codeDims cs, x ≠ d := by
          obtain ⟨x, hx1, hx2⟩ := h
          simp only [codeDims, CodeAT.GetCodeDim, List.mem_cons] at hx1
          rcases hx1 with rfl | hx1
          · exact absurd hx hx2
          · exact ⟨x, hx1, hx2⟩
        simp only [findCodeAT, CodeAT.ConfigureUpdate, CodeAT.GetCodeDim, if_neg hd, hx, ne_eq,
          not_true_eq_false, if_false]
        exact ih _ hr
      · have hx' : ¬ d = layer.code_dim := fun e => hx e.symm
        simp [findCodeAT, CodeAT.ConfigureUpdate, CodeAT.GetCodeDim, hd, hx']

theorem findCodeAT_agree_zero (o : Options) (cs : List Component) (acc : List CodeAT)
    (h : ∀ a ∈ codeDims cs, ∀ b ∈ codeDims cs, a = b) :
    ∃ r, findCodeAT o cs 0 acc = .ok r := by
  induction cs generalizing acc with
  | nil => exact ⟨_, rfl⟩
  | cons c cs ih =>
    cases c with
    | kOther => exact ih acc (by simpa [codeDims] using h)
    | kCodeAT layer =>
      have hr : ∀ x ∈ codeDims cs, x = layer.code_dim := fun x hx =>
        h x (by simp [codeDims, hx]) _ (by simp [codeDims, CodeAT.GetCodeDim])
      simp only [findCodeAT, CodeAT.ConfigureUpdate, CodeAT.GetCodeDim, if_true]
      by_cases hz : layer.code_dim = 0
      · rw [hz]
        exact ih _ (fun a ha b hb => (hr a ha).trans (hr b hb).symm)
      · exact findCodeAT_agree o cs _ _ hz hr

theorem findCodeAT_differ_zero (o : Options) (cs : List Component) (acc : List CodeAT)
    (h0 : (codeDims cs).head? ≠ some 0)
    (h : ∃ a ∈ codeDims cs, ∃ b ∈ codeDims cs, a ≠ b) :
    findCodeAT o cs 0 acc = .error .inconsistentCodeDim := by
  induction cs generalizing acc with
  | nil => simp [codeDims] at h
  | cons c cs ih =>
    cases c with
    | kOther => exact ih acc (by simpa [codeDims] using h0) (by simpa [codeDims] using h)
    | kCodeAT layer =>
      have hz : layer.code_dim ≠ 0 := by
        simpa [codeDims, CodeAT.GetCodeDim] using h0
      have hr : ∃ x ∈ codeDims cs, x ≠ layer.code_dim := by
        by_contra hn
        push_neg at hn
        obtain ⟨a, ha, b, hb, hab⟩ := h
        have key : ∀ x ∈ codeDims (Component.kCodeAT layer :: cs), x = layer.code_dim := by
          intro x hx
          simp only [codeDims, CodeAT.GetCodeDim, List.mem_cons] at hx
          rcases hx with rfl | hx
          · rfl
          · exact hn x hx
        exact hab ((key a ha).trans (key b hb).symm)
      simp only [findCodeAT, CodeAT.ConfigureUpdate, CodeAT.GetCodeDim, if_true]
      exact findCodeAT_differ o cs _ _ hz hr

/-- Claim C7 fails on the code: the two `<codeat>` layers of `exNnetZeroFive`
report the different code dimensions 0 and 5, and the scan of lines 141-155
accepts the network, because line 148 takes a `code_dim` of 0 to mean that no
`<codeat>` layer has been seen yet and skips the comparison of line 150. The
same two layers in the other order, 5 and then 0, are compared and rejected
with the error of line 151. -/
theorem findCodeAT_accepts_zero_five :
    (∃ a ∈ codeDims exNnetZeroFive, ∃ b ∈ codeDims exNnetZeroFive, a ≠ b)
      ∧ (∃ r, findCodeAT {} exNnetZeroFive 0 [] = .ok r)
      ∧ findCodeAT {} [.kCodeAT (exLayer 5), .kOther, .kCodeAT (exLayer 0)] 0 []
          = .error .inconsistentCodeDim :=
  ⟨⟨0, by decide, 5, by decide, by decide⟩, ⟨_, rfl⟩, rfl⟩

/-- What the scan of lines 141-155 does check: a network whose `<codeat>` layers
all agree on the code dimension is accepted; and for a network whose first
`<codeat>` layer reports a non-zero code dimension, the scan raises the
inconsistent-code-dimension error exactly when two `<codeat>` layers report
different code dimensions. -/
theorem findCodeAT_inconsistent_iff (o : Options) (nnet : List Component) :
    ((∀ a ∈ codeDims nnet, ∀ b ∈ codeDims nnet, a = b) → ∃ r, findCodeAT o nnet 0 [] = .ok r)
    ∧ ((codeDims nnet).head? ≠ some 0 →
        (findCodeAT o nnet 0 [] = .error .inconsistentCodeDim ↔
          ∃ a ∈ codeDims nnet, ∃ b ∈ codeDims nnet, a ≠ b)) := by
  refine ⟨findCodeAT_agree_zero o nnet [], fun h0 => ⟨fun he => ?_, ?_⟩⟩
  · by_contra hn
    push_neg at hn
    obtain ⟨r, hr⟩ := findCodeAT_agree_zero o nnet [] hn
    rw [hr] at he
    cases he
  · exact findCodeAT_differ_zero o nnet [] h0

/-- The scan at `exNnetThreeFour`: the first `<codeat>` layer reports 3, another
reports 4, and the scan raises the error. -/
theorem findCodeAT_inconsistent_iff_witness :
    (codeDims exNnetThreeFour).head? ≠ some 0
      ∧ findCodeAT {} exNnetThreeFour 0 [] = .error .inconsistentCodeDim :=
  ⟨by decide, ((findCodeAT_inconsistent_iff {} exNnetThreeFour).2 (by decide)).2
    ⟨3, by decide, 4, by decide, by decide⟩⟩

/-! ## Startup: the cache -/

theorem roundCachesize_pos (c b : Int) (hb : 0 < b) (hc : 0 ≤ c) :
    roundCachesize c b = .ok (c - c % b) := by
  have hb0 : b ≠ 0 := by omega
  have h1 : c.tdiv b = c / b := Int.tdiv_eq_ediv hc (le_of_lt hb)
  have h2 : c / b * b = c - c % b := by
    have := Int.ediv_add_emod c b
    nlinarith [this]
  simp [roundCachesize, hb0, h1, h2]

/-- Claim C9: for `bunchsize > 0` and `cachesize ≥ 0`, lines 168-170 hand to the
cache the capacity `cachesize - cachesize mod bunchsize`, which is the greatest
multiple of `bunchsize` not exceeding `cachesize`; with the defaults 32768 and
512 it is 32768. -/
theorem configureCache_rounds_down (cachesize bunchsize : Int) (hb : 0 < bunchsize)
    (hc : 0 ≤ cachesize) :
    (∃ cache, configureCache cachesize bunchsize = .ok cache
      ∧ cache.cachesize = cachesize - cachesize % bunchsize
      ∧ bunchsize ∣ cache.cachesize ∧ cache.cachesize ≤ cachesize
      ∧ ∀ m : Int, bunchsize ∣ m → m ≤ cachesize → m ≤ cache.cachesize)
    ∧ (∃ cache, configureCache ({} : Options).cachesize ({} : Options).bunchsize = .ok cache
      ∧ cache.cachesize = 32768) := by
  have hnb : ¬ bunchsize ≤ 0 := by omega
  refine ⟨⟨_, by simp [configureCache, roundCachesize_pos _ _ hb hc, Cache.Init, hnb]; rfl,
    rfl, ?_, ?_, ?_⟩, ⟨_, by simp [configureCache, roundCachesize, Cache.Init]; rfl, ?_⟩⟩
  · exact Int.dvd_sub_of_emod_eq rfl
  · have := Int.emod_nonneg cachesize (by omega : bunchsize ≠ 0)
    simp only
    omega
  · rintro m ⟨k, rfl⟩ hm
    simp only
    have h1 := Int.ediv_add_emod cachesize bunchsize
    have h2 := Int.emod_lt_of_pos cachesize hb
    have h3 : cachesize - cachesize % bunchsize = bunchsize * (cachesize / bunchsize) := by omega
    rw [h3]
    have h4 : k ≤ cachesize / bunchsize := by
      by_contra hlt
      push_neg at hlt
      have : bunchsize * (cachesize / bunchsize + 1) ≤ bunchsize * k :=
        Int.mul_le_mul_of_nonneg_left (by omega) (le_of_lt hb)
      nlinarith
    exact Int.mul_le_mul_of_nonneg_left h4 (le_of_lt hb)
  · decide

/-- Claim C9 at `cachesize = 1000` and `bunchsize = 512`: the cache is given the
capacity 512. -/
theorem configureCache_rounds_down_witness :
    ∃ cache, configureCache 1000 512 = .ok cache ∧ cache.cachesize = 1000 - 1000 % 512 :=
  (configureCache_rounds_down 1000 512 (by decide) (by decide)).1.imp
    fun _ h => ⟨h.1, h.2.1⟩

/-- Claim C10: for `bunchsize ≤ 0` the configuration of the cache (lines 168-170)
fails, by the division by zero or in `Cache::Init`; the run is then aborted with
the cache never initialised, no set counted and no call made on a collaborator. -/
theorem configureCache_rejects_nonpos {ω : Type} (P : Collab ω) (o : Options) (inp : Inputs)
    (net : ω) (fuel : Nat) (hb : o.bunchsize ≤ 0) :
    (∃ f, configureCache o.cachesize o.bunchsize = .error f
      ∧ (f = .divideByZero ∨ f = .cacheInit))
    ∧ (∃ f st, main P o inp net fuel = .fatal f st ∧ st.cache = Cache.fresh
      ∧ st.num_set = 0 ∧ st.total_frames = 0 ∧ st.code_vec_writer = [] ∧ st.log = []) := by
  have hcfg : ∃ f, configureCache o.cachesize o.bunchsize = .error f
      ∧ (f = .divideByZero ∨ f = .cacheInit) := by
    by_cases h0 : o.bunchsize = 0
    · exact ⟨.divideByZero, by simp [configureCache, roundCachesize, h0], Or.inl rfl⟩
    · exact ⟨.cacheInit, by simp [configureCache, roundCachesize, h0, Cache.Init, hb], Or.inr rfl⟩
  refine ⟨hcfg, ?_⟩
  obtain ⟨f, hf, _⟩ := hcfg
  unfold main
  cases checkOptions o with
  | error e => exact ⟨e, _, rfl, rfl, rfl, rfl, rfl, rfl⟩
  | ok u =>
    cases findCodeAT o inp.nnet 0 [] with
    | error e => exact ⟨e, _, rfl, rfl, rfl, rfl, rfl, rfl⟩
    | ok found =>
      simp only [hf]
      exact ⟨f, _, rfl, rfl, rfl, rfl, rfl, rfl⟩

/-- Claim C10 on the examples with `bunchsize = 0`: the run is aborted before any
set is counted. -/
theorem configureCache_rejects_nonpos_witness :
    exOptionsZero.bunchsize ≤ 0
      ∧ ∃ f st, main exCollab exOptionsZero exInputs () 3 = .fatal f st
          ∧ st.cache = Cache.fresh ∧ st.num_set = 0 ∧ st.log = [] :=
  ⟨by decide,
    (configureCache_rejects_nonpos exCollab exOptionsZero exInputs () 3 (by decide)).2.imp
      fun _ h => h.imp fun _ h => ⟨h.1, h.2.1, h.2.2.1, h.2.2.2.2.2⟩⟩

/-! ## The fill step -/

theorem toInt32_length {α : Type} (l : List α) (h : (l.length : Int) < 2147483648) :
    toInt32 (l.length : Int) = (l.length : Int) := by
  unfold toInt32
  omega

theorem fillStep_no_alignment {ω : Type} (P : Collab ω) (o : Options) (inp : Inputs)
    (st : State ω) (utt : String) (hal : inp.alignments utt = none) :
    fillStep P o inp st utt
      = .done { st with num_no_alignments := st.num_no_alignments + 1 } := by
  simp [fillStep, hal]

theorem fillStep_no_features {ω : Type} (P : Collab ω) (o : Options) (inp : Inputs)
    (st : State ω) (utt : String) (alignment : List Int)
    (hal : inp.alignments utt = some alignment) (hfeat : inp.features utt = none) :
    fillStep P o inp st utt = .fatal (.noSuchKey utt) st := by
  simp [fillStep, hal, hfeat]

theorem fillStep_other_error {ω : Type} (P : Collab ω) (o : Options) (inp : Inputs)
    (st : State ω) (utt : String) (alignment : List Int) (mat : Mat)
    (hal : inp.alignments utt = some alignment) (hfeat : inp.features utt = some mat)
    (h : NumRows mat > o.max_frames ∨ toInt32 (alignment.length : Int) ≠ NumRows mat) :
    fillStep P o inp st utt
      = .done { st with num_other_error := st.num_other_error + 1,
                        log := st.log ++ [.readFeatures utt] } := by
  by_cases h1 : NumRows mat > o.max_frames
  · simp [fillStep, hal, hfeat, h1]
  · have h2 : toInt32 (alignment.length : Int) ≠ NumRows mat := h.resolve_left h1
    simp [fillStep, hal, hfeat, h1, h2]

theorem fillStep_add {ω : Type} (P : Collab ω) (o : Options) (inp : Inputs)
    (st : State ω) (utt : String) (alignment : List Int) (mat : Mat)
    (hal : inp.alignments utt = some alignment) (hfeat : inp.features utt = some mat)
    (h1 : NumRows mat ≤ o.max_frames) (h2 : toInt32 (alignment.length : Int) = NumRows mat)
    (hfull : st.cache.Full = false) :
    fillStep P o inp st utt
      = .done { st with
          cache := { st.cache with data := st.cache.data ++ (P.Feedforward mat).zip alignment },
          num_done := st.num_done + 1,
          log := st.log ++ [.readFeatures utt,
            .addData utt ((P.Feedforward mat).zip alignment)] } := by
  have h1' : ¬ NumRows mat > o.max_frames := not_lt.mpr h1
  simp [fillStep, hal, hfeat, h1', h2, Cache.AddData, hfull]

theorem fillStep_cases {ω : Type} (P : Collab ω) (o : Options) (inp : Inputs)
    (st : State ω) (utt : String) :
    (inp.alignments utt = none ∧ fillStep P o inp st utt
        = .done { st with num_no_alignments := st.num_no_alignments + 1 })
    ∨ (inp.alignments utt ≠ none ∧ inp.features utt = none
        ∧ fillStep P o inp st utt = .fatal (.noSuchKey utt) st)
    ∨ (inp.alignments utt ≠ none ∧ fillStep P o inp st utt
        = .done { st with num_other_error := st.num_other_error + 1,
                          log := st.log ++ [.readFeatures utt] })
    ∨ (inp.alignments utt ≠ none ∧ st.cache.Full = true ∧ fillStep P o inp st utt
        = .fatal .cacheFull { st with log := st.log ++ [.readFeatures utt] })
    ∨ (∃ alignment mat, inp.alignments utt = some alignment ∧ inp.features utt = some mat
        ∧ st.cache.Full = false ∧ fillStep P o inp st utt
        = .done { st with
            cache := { st.cache with
              data := st.cache.data ++ (P.Feedforward mat).zip alignment },
            num_done := st.num_done + 1,
            log := st.log ++ [.readFeatures utt,
              .addData utt ((P.Feedforward mat).zip alignment)] }) := by
  cases hal : inp.alignments utt with
  | none => exact Or.inl ⟨rfl, fillStep_no_alignment P o inp st utt hal⟩
  | some alignment =>
    cases hfeat : inp.features utt with
    | none =>
      exact Or.inr (Or.inl ⟨by simp, rfl, fillStep_no_features P o inp st utt alignment hal hfeat⟩)
    | some mat =>
      by_cases h : NumRows mat > o.max_frames ∨ toInt32 (alignment.length : Int) ≠ NumRows mat
      · exact Or.inr (Or.inr (Or.inl ⟨by simp,
          fillStep_other_error P o inp st utt alignment mat hal hfeat h⟩))
      · push_neg at h
        cases hfull : st.cache.Full with
        | true =>
          refine Or.inr (Or.inr (Or.inr (Or.inl ⟨by simp, rfl, ?_⟩)))
          have h1 : ¬ NumRows mat > o.max_frames := not_lt.mpr h.1
          simp [fillStep, hal, hfeat, h1, h.2, Cache.AddData, hfull]
        | false =>
          exact Or.inr (Or.inr (Or.inr (Or.inr ⟨alignment, mat, rfl, rfl, rfl,
            fillStep_add P o inp st utt alignment mat hal hfeat h.1 h.2 hfull⟩)))

theorem fillStep_accepts_of_features {ω : Type} (P : Collab ω) (o : Options) (inp : Inputs)
    (st : State ω) (utt : String) (mat : Mat)
    (hfeat : inp.features utt = some mat)
    (hfull : st.cache.Full = false)
    (hsize : ∀ alignment, inp.alignments utt = some alignment →
      (alignment.length : Int) < 2147483648) :
    ∃ st1, fillStep P o inp st utt = .done st1
      ∧ ((∃ alignment, inp.alignments utt = some alignment
            ∧ st1.cache.data = st.cache.data ++ (P.Feedforward mat).zip alignment
            ∧ st1.log = st.log ++
                [.readFeatures utt, .addData utt ((P.Feedforward mat).zip alignment)])
          ↔ Accepted o inp utt mat)
      ∧ (Accepted o inp utt mat → st1.num_done = st.num_done + 1)
      ∧ (¬ Accepted o inp utt mat →
          st1.cache = st.cache ∧ st1.num_done = st.num_done
            ∧ (st1.log = st.log ∨ st1.log = st.log ++ [.readFeatures utt])
            ∧ st1.num_no_alignments + st1.num_other_error
                = st.num_no_alignments + st.num_other_error + 1) := by
  unfold Accepted
  cases hal : inp.alignments utt with
  | none =>
    rw [fillStep_no_alignment P o inp st utt hal]
    refine ⟨_, rfl, by simp, by simp, fun _ => ⟨rfl, rfl, Or.inl rfl, ?_⟩⟩
    simp only
    omega
  | some alignment =>
    have hsz := toInt32_length alignment (hsize alignment hal)
    by_cases hacc : NumRows mat ≤ o.max_frames ∧ alignment.length = mat.length
    · have h2 : toInt32 (alignment.length : Int) = NumRows mat := by
        rw [hsz, hacc.2]; rfl
      rw [fillStep_add P o inp st utt alignment mat hal hfeat hacc.1 h2 hfull]
      refine ⟨_, rfl, ?_, fun _ => rfl, fun hn => absurd ⟨alignment, rfl, hacc⟩ hn⟩
      exact ⟨fun _ => ⟨alignment, rfl, hacc⟩, fun _ => ⟨alignment, rfl, rfl, rfl⟩⟩
    · have hrej : NumRows mat > o.max_frames ∨ toInt32 (alignment.length : Int) ≠ NumRows mat := by
        by_cases h1 : NumRows mat > o.max_frames
        · exact Or.inl h1
        · right
          rw [hsz]
          intro h
          apply hacc
          refine ⟨not_lt.mp h1, ?_⟩
          unfold NumRows at h
          exact_mod_cast h
      have hnacc : ¬ ∃ a, some alignment = some a ∧ NumRows mat ≤ o.max_frames
          ∧ a.length = mat.length := by
        rintro ⟨a, ha, h⟩
        cases ha
        exact hacc h
      rw [fillStep_other_error P o inp st utt alignment mat hal hfeat hrej]
      refine ⟨_, rfl, ?_, fun h => absurd h hnacc, fun _ => ⟨rfl, rfl, Or.inr rfl, ?_⟩⟩
      · refine ⟨?_, fun h => absurd h hnacc⟩
        rintro ⟨a, _, _, hlog⟩
        have := congrArg List.length hlog
        simp at this
      · simp only
        omega

/-- Claim C1, as stated, fails: in the inputs `exInputsUnread` the utterance `x` of
the set `A` has labels and no features. The fill step reads the feature table
without a `HasKey` check (line 221), so the step, and the run, end with a fatal
error, and the utterance is neither added to the cache nor counted as skipped. -/
theorem fillStep_fatal_without_features :
    fillStep exCollab exOptions exInputsUnread exState "x" = .fatal (.noSuchKey "x") exState
      ∧ ∃ st, main exCollab exOptions exInputsUnread () 3 = .fatal (.noSuchKey "x") st
          ∧ summaryReport st = (0, 0, 0) ∧ st.cache.data = [] :=
  ⟨rfl, _, rfl, rfl, rfl⟩

/-- Claim C1, amended: in the fill step, read while the cache is not full, an
utterance that has a feature matrix `mat` has its frames appended to the cache
(an `AddData` call is made) if and only if it has labels, `mat` has at most
`max_frames` rows and the label vector has exactly as many entries as `mat` has
rows; in every other case with features the cache is left as it was, one of the
two skip counters is incremented and the step ends normally. An utterance
without features is skipped, and counted, if it has no labels either, and ends
the step with the fatal error of the feature table if it has labels. Label
vectors have fewer than `2^31` entries, so that the conversion of their size to
`int32` is exact. -/
theorem fillStep_accepts_iff {ω : Type} (P : Collab ω) (o : Options) (inp : Inputs)
    (st : State ω) (utt : String)
    (hfull : st.cache.Full = false)
    (hsize : ∀ alignment, inp.alignments utt = some alignment →
      (alignment.length : Int) < 2147483648) :
    (∀ mat, inp.features utt = some mat →
      ∃ st1, fillStep P o inp st utt = .done st1
        ∧ ((∃ alignment, inp.alignments utt = some alignment
              ∧ st1.cache.data = st.cache.data ++ (P.Feedforward mat).zip alignment
              ∧ st1.log = st.log ++
                  [.readFeatures utt, .addData utt ((P.Feedforward mat).zip alignment)])
            ↔ Accepted o inp utt mat)
        ∧ (Accepted o inp utt mat → st1.num_done = st.num_done + 1)
        ∧ (¬ Accepted o inp utt mat →
            st1.cache = st.cache ∧ st1.num_done = st.num_done
              ∧ (st1.log = st.log ∨ st1.log = st.log ++ [.readFeatures utt])
              ∧ st1.num_no_alignments + st1.num_other_error
                  = st.num_no_alignments + st.num_other_error + 1))
    ∧ (inp.features utt = none → inp.alignments utt = none →
        fillStep P o inp st utt
          = .done { st with num_no_alignments := st.num_no_alignments + 1 })
    ∧ (inp.features utt = none → inp.alignments utt ≠ none →
        fillStep P o inp st utt = .fatal (.noSuchKey utt) st) := by
  refine ⟨fun mat hfeat => fillStep_accepts_of_features P o inp st utt mat hfeat hfull hsize,
    fun _ hal => fillStep_no_alignment P o inp st utt hal, fun hfeat hal => ?_⟩
  cases ha : inp.alignments utt with
  | none => exact absurd ha hal
  | some alignment => exact fillStep_no_features P o inp st utt alignment ha hfeat

/-- The amended claim C1 at the utterance `u1` of the examples, which has exactly
`max_frames` frames: it passes the checks and is counted as done. -/
theorem fillStep_accepts_iff_witness :
    exInputs.features "u1" = some (List.replicate 5 [1]) ∧ exState.cache.Full = false
      ∧ NumRows (List.replicate 5 [1]) = exOptionsFive.max_frames
      ∧ Accepted exOptionsFive exInputs "u1" (List.replicate 5 [1])
      ∧ ∃ st1, fillStep exCollab exOptionsFive exInputs exState "u1" = .done st1
          ∧ st1.num_done = exState.num_done + 1 :=
  have hacc : Accepted exOptionsFive exInputs "u1" (List.replicate 5 [1]) :=
    ⟨[0, 1, 2, 3, 4], rfl, by decide, rfl⟩
  ⟨rfl, rfl, rfl, hacc,
    ((fillStep_accepts_iff exCollab exOptionsFive exInputs exState "u1" rfl (by
        intro alignment h
        have h1 : alignment = [0, 1, 2, 3, 4] := by
          simpa [exInputs] using h.symm
        subst h1
        decide)).1 (List.replicate 5 [1]) rfl).imp fun _ h => ⟨h.1, h.2.2.1 hacc⟩⟩

/-! ## Aggregation of the code gradients -/

theorem AddMat_length (alpha beta : ℚ) (A this : Vec) (h : A.length = this.length) :
    (AddMat alpha A beta this).length = this.length := by
  simp [AddMat, h]

theorem AddMat_getD (A this : Vec) (j : Nat) (h : A.length = this.length) :
    (AddMat 1 A 1 this).getD j 0 = this.getD j 0 + A.getD j 0 := by
  unfold AddMat
  by_cases hj : j < this.length
  · have hj' : j < A.length := h ▸ hj
    simp [List.getD_eq_getElem?_getD, List.getElem?_zipWith, List.getElem?_eq_getElem, hj, hj']
    exact add_comm _ _
  · have hj' : ¬ j < A.length := h ▸ hj
    simp [List.getD_eq_getElem?_getD, List.getElem?_zipWith, List.getElem?_eq_none, not_lt.mp hj, not_lt.mp hj']

theorem Scale_length (alpha : ℚ) (this : Vec) : (Scale alpha this).length = this.length := by
  simp [Scale]

theorem Scale_getD (alpha : ℚ) (this : Vec) (j : Nat) :
    (Scale alpha this).getD j 0 = alpha * this.getD j 0 := by
  unfold Scale
  by_cases hj : j < this.length
  · simp [List.getD_eq_getElem?_getD, List.getElem?_eq_getElem, hj]
  · simp [List.getD_eq_getElem?_getD, List.getElem?_eq_none, not_lt.mp hj]

theorem sumCodeDiff_spec (d : Nat) (ls : List CodeAT) (acc : Vec) (hacc : acc.length = d)
    (hls : ∀ l ∈ ls, l.GetCodeDiff.length = d) :
    (sumCodeDiff acc ls).length = d
      ∧ ∀ j, (sumCodeDiff acc ls).getD j 0
          = acc.getD j 0 + (ls.map (fun l => l.GetCodeDiff.getD j 0)).sum := by
  induction ls generalizing acc with
  | nil => simp [sumCodeDiff, hacc]
  | cons l ls ih =>
    have hl : l.GetCodeDiff.length = acc.length := by rw [hacc]; exact hls l (by simp)
    have h1 := ih (AddMat 1 l.GetCodeDiff 1 acc) (by rw [AddMat_length _ _ _ _ hl, hacc])
      (fun l' hl' => hls l' (by simp [hl']))
    refine ⟨h1.1, fun j => ?_⟩
    rw [sumCodeDiff, h1.2 j, AddMat_getD _ _ _ hl]
    simp [add_assoc]

theorem codeVecDiff_mean (layers : List CodeAT) (d : Nat) (hn : layers ≠ [])
    (hd : ∀ l ∈ layers, l.GetCodeDiff.length = d) :
    ∃ g, codeVecDiff layers = .ok g ∧ g.length = d
      ∧ ∀ j, g.getD j 0
          = (layers.map (fun l => l.GetCodeDiff.getD j 0)).sum / (layers.length : ℚ) := by
  cases layers with
  | nil => exact absurd rfl hn
  | cons l0 ls =>
    have h := sumCodeDiff_spec d ls l0.GetCodeDiff (hd l0 (by simp))
      (fun l hl => hd l (by simp [hl]))
    refine ⟨_, rfl, by rw [Scale_length]; exact h.1, fun j => ?_⟩
    rw [Scale_getD, h.2 j, List.map_cons, List.sum_cons, one_div, inv_mul_eq_div]

theorem setCodeDiff_length (diffs : Nat → Vec) (c : Nat) (ls : List CodeAT) :
    (setCodeDiff diffs c ls).length = ls.length := by
  induction ls generalizing c with
  | nil => rfl
  | cons l ls ih => simp [setCodeDiff, ih]

theorem setCodeDiff_diffs (diffs : Nat → Vec) (c : Nat) (ls : List CodeAT) :
    (setCodeDiff diffs c ls).map CodeAT.GetCodeDiff = (List.range' c ls.length).map diffs := by
  induction ls generalizing c with
  | nil => rfl
  | cons l ls ih => simp [setCodeDiff, List.range', ih, CodeAT.GetCodeDiff]

theorem updateCodeLoop_layers (rule : Vec → Vec → Vec → Vec × Vec) (g : Vec) (c : Nat)
    (ls : List CodeAT) :
    (updateCodeLoop rule g c ls).1 = ls.map (fun l => l.UpdateCode rule g) := by
  induction ls generalizing c with
  | nil => rfl
  | cons l ls ih => simp [updateCodeLoop, ih]

theorem updateCodeLoop_events (rule : Vec → Vec → Vec → Vec × Vec) (g : Vec) (c : Nat)
    (ls : List CodeAT) :
    (updateCodeLoop rule g c ls).2 = (List.range' c ls.length).map (fun i => Event.updateCode i g) := by
  induction ls generalizing c with
  | nil => rfl
  | cons l ls ih => simp [updateCodeLoop, List.range', ih]

/-- Claim C3: in training mode, with at least one `<codeat>` layer and code
gradients of one dimension `d`, the gradient `g` passed to `UpdateCode` for a
bunch is, entry by entry, the sum of the gradients of the layers divided by the
number of layers, and every layer is passed this same `g`. -/
theorem trainBunch_mean {ω : Type} (P : Collab ω) (o : Options) (st : State ω) (d : Nat)
    (htrain : o.crossvalidate = false) (hn : st.layers_codeat ≠ [])
    (hd : ∀ c < st.layers_codeat.length, (bunchCodeDiffs P st c).length = d) :
    ∃ g st1, trainBunch P o st = .done st1
      ∧ g.length = d
      ∧ (∀ j, g.getD j 0
          = ((List.range st.layers_codeat.length).map
              (fun c => (bunchCodeDiffs P st c).getD j 0)).sum / (st.layers_codeat.length : ℚ))
      ∧ st1.log = st.log ++ [.getBunch st.cache.GetBunch.1, .propagate, .backpropagate]
          ++ (List.range st.layers_codeat.length).map (fun c => Event.updateCode c g)
      ∧ st1.layers_codeat = (setCodeDiff (bunchCodeDiffs P st) 0 st.layers_codeat).map
          (fun l => l.UpdateCode P.UpdateCode g) := by
  have hne : setCodeDiff (bunchCodeDiffs P st) 0 st.layers_codeat ≠ [] := by
    intro h
    have := congrArg List.length h
    rw [setCodeDiff_length] at this
    exact hn (List.length_eq_zero.mp this)
  have hmap := setCodeDiff_diffs (bunchCodeDiffs P st) 0 st.layers_codeat
  have hdl : ∀ l ∈ setCodeDiff (bunchCodeDiffs P st) 0 st.layers_codeat,
      l.GetCodeDiff.length = d := by
    intro l hl
    have : l.GetCodeDiff ∈ (setCodeDiff (bunchCodeDiffs P st) 0 st.layers_codeat).map
        CodeAT.GetCodeDiff := List.mem_map_of_mem _ hl
    rw [hmap, List.mem_map] at this
    obtain ⟨c, hc, hcl⟩ := this
    rw [← hcl]
    exact hd c (by simpa [List.mem_range'] using hc)
  obtain ⟨g, hg, hlen, hsum⟩ := codeVecDiff_mean _ d hne hdl
  refine ⟨g, ?_⟩
  have hg' : codeVecDiff (setCodeDiff (P.Backpropagate
      (P.Propagate st.net st.layers_codeat st.cache.GetBunch.1)
      st.layers_codeat st.cache.GetBunch.1).2 0 st.layers_codeat) = .ok g := hg
  simp only [trainBunch, htrain, hg']
  refine ⟨_, rfl, hlen, fun j => ?_, ?_, ?_⟩
  · rw [hsum j, setCodeDiff_length]
    congr 1
    have : (fun l : CodeAT => l.GetCodeDiff.getD j 0)
        = (fun v : Vec => v.getD j 0) ∘ CodeAT.GetCodeDiff := rfl
    rw [this, ← List.map_map, hmap, List.map_map, List.range_eq_range']
    rfl
  · simp only [updateCodeLoop_events, setCodeDiff_length, List.range_eq_range']
  · simp only [updateCodeLoop_layers]
    rfl

/-- Claim C3 at the state `exStateBunch`: two layers, gradients `[1, 2]` and
`[2, 2]`, and both layers are passed one and the same gradient. -/
theorem trainBunch_mean_witness :
    ∃ g st1, trainBunch exCollab exOptions exStateBunch = .done st1
      ∧ g.length = 2
      ∧ st1.log = [.getBunch [([1], 0), ([2], 1)], .propagate, .backpropagate,
          .updateCode 0 g, .updateCode 1 g] :=
  (trainBunch_mean exCollab exOptions exStateBunch 2 rfl (by decide)
    (fun _ _ => rfl)).imp fun _ h => h.imp fun _ h => ⟨h.1, h.2.1, h.2.2.2.1⟩

/-! ## Invariants of the loops of a set -/

theorem fillLoop_holds {ω : Type} (P : Collab ω) (o : Options) (inp : Inputs)
    (I : State ω → Prop)
    (hfill : ∀ st utt, I st → (fillStep P o inp st utt).Holds I)
    (st : State ω) (utts : List String) (h : I st) :
    (fillLoop P o inp st utts).Holds (fun s => I s.1) := by
  induction utts generalizing st with
  | nil => exact h
  | cons utt rest ih =>
    unfold fillLoop
    split
    · exact h
    · have hs := hfill st utt h
      cases hr : fillStep P o inp st utt with
      | done st1 => rw [hr] at hs; exact ih st1 hs
      | fatal f st1 => rw [hr] at hs; exact hs
      | diverge => trivial

theorem drainLoop_holds {ω : Type} (P : Collab ω) (o : Options) (I : State ω → Prop)
    (hbunch : ∀ st, I st → (trainBunch P o st).Holds I)
    (n : Nat) (st : State ω) (h : I st) : (drainLoop P o n st).Holds I := by
  induction n generalizing st with
  | zero =>
    unfold drainLoop
    split
    · exact h
    · trivial
  | succ n ih =>
    unfold drainLoop
    split
    · exact h
    · have hs := hbunch st h
      cases hr : trainBunch P o st with
      | done st1 => rw [hr] at hs; exact ih st1 hs
      | fatal f st1 => rw [hr] at hs; exact hs
      | diverge => trivial

theorem uttLoop_holds {ω : Type} (P : Collab ω) (o : Options) (inp : Inputs)
    (I : State ω → Prop)
    (hfill : ∀ st utt, I st → (fillStep P o inp st utt).Holds I)
    (hrand : ∀ st, I st → I (randomizeStep P o st))
    (hbunch : ∀ st, I st → (trainBunch P o st).Holds I)
    (fuel : Nat) (st : State ω) (utts : List String) (h : I st) :
    (uttLoop P o inp fuel st utts).Holds I := by
  induction fuel generalizing st utts with
  | zero =>
    cases utts with
    | nil => exact h
    | cons utt rest => trivial
  | succ fuel ih =>
    cases utts with
    | nil => exact h
    | cons utt rest =>
      unfold uttLoop
      have hf := fillLoop_holds P o inp I hfill st (utt :: rest) h
      cases hr : fillLoop P o inp st (utt :: rest) with
      | done s =>
        rw [hr] at hf
        have hd := drainLoop_holds P o I hbunch (randomizeStep P o s.1).cache.data.length
          (randomizeStep P o s.1) (hrand _ hf)
        simp only
        cases hr2 : drainLoop P o (randomizeStep P o s.1).cache.data.length
            (randomizeStep P o s.1) with
        | done st3 => rw [hr2] at hd; exact ih st3 s.2 hd
        | fatal f st3 => rw [hr2] at hd; exact hd
        | diverge => trivial
      | fatal f s => rw [hr] at hf; exact hf
      | diverge => trivial

/-! ## The code mirror -/

theorem setCodeLoop_layers (code : Vec) (c : Nat) (ls : List CodeAT) :
    (setCodeLoop code c ls).1 = ls.map (fun l => (l.SetCode code).ZeroCodeCorr) := by
  induction ls generalizing c with
  | nil => rfl
  | cons l ls ih => simp [setCodeLoop, ih]

theorem setCodeLoop_length (code : Vec) (c : Nat) (ls : List CodeAT) :
    (setCodeLoop code c ls).1.length = ls.length := by
  rw [setCodeLoop_layers, List.length_map]

theorem setCodeLoop_events (code : Vec) (c : Nat) (ls : List CodeAT) :
    ∀ e ∈ (setCodeLoop code c ls).2,
      (∃ i, e = Event.setCode i code) ∨ (∃ i, e = Event.zeroCodeCorr i) := by
  induction ls generalizing c with
  | nil => simp [setCodeLoop]
  | cons l ls ih =>
    intro e he
    simp only [setCodeLoop, List.mem_cons] at he
    rcases he with rfl | rfl | he
    · exact Or.inl ⟨c, rfl⟩
    · exact Or.inr ⟨c, rfl⟩
    · exact ih _ e he

theorem setCodeLoop_mirrored (code : Vec) (ls : List CodeAT)
    (hdim : ∀ l ∈ ls, ∀ m ∈ ls, l.code_dim = m.code_dim) :
    Mirrored (setCodeLoop code 0 ls).1 ∧ ∀ l ∈ (setCodeLoop code 0 ls).1, l.GetCode = code := by
  rw [setCodeLoop_layers]
  constructor
  · intro l hl m hm
    obtain ⟨l0, hl0, rfl⟩ := List.mem_map.mp hl
    obtain ⟨m0, hm0, rfl⟩ := List.mem_map.mp hm
    simp [CodeAT.SetCode, CodeAT.ZeroCodeCorr, hdim l0 hl0 m0 hm0]
  · intro l hl
    obtain ⟨l0, _, rfl⟩ := List.mem_map.mp hl
    rfl

theorem setCodeDiff_mem (diffs : Nat → Vec) (c : Nat) (ls : List CodeAT) (l : CodeAT)
    (h : l ∈ setCodeDiff diffs c ls) :
    ∃ l0 ∈ ls, l.code = l0.code ∧ l.code_corr = l0.code_corr := by
  induction ls generalizing c with
  | nil => simp [setCodeDiff] at h
  | cons a ls ih =>
    simp only [setCodeDiff, List.mem_cons] at h
    rcases h with rfl | h
    · exact ⟨a, by simp, rfl, rfl⟩
    · obtain ⟨l0, h0, h1⟩ := ih _ h
      exact ⟨l0, by simp [h0], h1⟩

theorem setCodeDiff_mirrored (diffs : Nat → Vec) (c : Nat) (ls : List CodeAT)
    (h : Mirrored ls) : Mirrored (setCodeDiff diffs c ls) := by
  intro l hl m hm
  obtain ⟨l0, hl0, h1, h2⟩ := setCodeDiff_mem diffs c ls l hl
  obtain ⟨m0, hm0, h3, h4⟩ := setCodeDiff_mem diffs c ls m hm
  have := h l0 hl0 m0 hm0
  exact ⟨by rw [h1, h3, this.1], by rw [h2, h4, this.2]⟩

theorem updateCode_mirrored (rule : Vec → Vec → Vec → Vec × Vec) (g : Vec) (ls : List CodeAT)
    (h : Mirrored ls) : Mirrored (ls.map (fun l => l.UpdateCode rule g)) := by
  intro l hl m hm
  obtain ⟨l0, hl0, rfl⟩ := List.mem_map.mp hl
  obtain ⟨m0, hm0, rfl⟩ := List.mem_map.mp hm
  have := h l0 hl0 m0 hm0
  simp [CodeAT.UpdateCode, this.1, this.2]

theorem trainBunch_mirrored {ω : Type} (P : Collab ω) (o : Options) (st : State ω)
    (h : Mirrored st.layers_codeat) :
    (trainBunch P o st).Holds (fun s => Mirrored s.layers_codeat) := by
  unfold trainBunch
  simp only
  split
  · exact h
  · split
    · exact setCodeDiff_mirrored _ _ _ h
    · simp only [Result.Holds, updateCodeLoop_layers]
      exact updateCode_mirrored _ _ _ (setCodeDiff_mirrored _ _ _ h)

theorem fillStep_layers {ω : Type} (P : Collab ω) (o : Options) (inp : Inputs)
    (I : List CodeAT → Prop) (st : State ω) (utt : String) (h : I st.layers_codeat) :
    (fillStep P o inp st utt).Holds (fun s => I s.layers_codeat) := by
  rcases fillStep_cases P o inp st utt with h1 | h1 | h1 | h1 | ⟨a, m, _, _, _, h1⟩
  · rw [h1.2]; exact h
  · rw [h1.2.2]; exact h
  · rw [h1.2]; exact h
  · rw [h1.2.2]; exact h
  · rw [h1]; exact h

theorem randomizeStep_layers {ω : Type} (P : Collab ω) (o : Options) (st : State ω) :
    (randomizeStep P o st).layers_codeat = st.layers_codeat := by
  unfold randomizeStep
  split <;> rfl

theorem uttLoop_mirrored {ω : Type} (P : Collab ω) (o : Options) (inp : Inputs) (fuel : Nat)
    (st : State ω) (utts : List String) (h : Mirrored st.layers_codeat) :
    (uttLoop P o inp fuel st utts).Holds (fun s => Mirrored s.layers_codeat) :=
  uttLoop_holds P o inp (fun s => Mirrored s.layers_codeat)
    (fun s utt hs => fillStep_layers P o inp Mirrored s utt hs)
    (fun s hs => by simpa only [randomizeStep_layers] using hs)
    (fun s hs => trainBunch_mirrored P o s hs) fuel st utts h

theorem processSet_mirrored {ω : Type} (P : Collab ω) (o : Options) (inp : Inputs) (fuel : Nat)
    (st : State ω) (set : String × List String)
    (hdim : ∀ l ∈ st.layers_codeat, ∀ m ∈ st.layers_codeat, l.code_dim = m.code_dim)
    (hcode : inp.code_vec set.1 ≠ none) :
    (processSet P o inp fuel st set).Holds (fun s => Mirrored s.layers_codeat) := by
  unfold processSet
  cases hc : inp.code_vec set.1 with
  | none => exact absurd hc hcode
  | some code =>
    simp only
    have hu := uttLoop_mirrored P o inp fuel
      { st with num_set := st.num_set + 1,
                layers_codeat := (setCodeLoop code 0 st.layers_codeat).1,
                rng := (if o.shuffle then P.random_shuffle st.rng set.2 else (set.2, st.rng)).2,
                log := st.log ++ (setCodeLoop code 0 st.layers_codeat).2 }
      (if o.shuffle then P.random_shuffle st.rng set.2 else (set.2, st.rng)).1
      (setCodeLoop_mirrored code st.layers_codeat hdim).1
    revert hu
    cases uttLoop P o inp fuel _ _ with
    | done st2 =>
      intro hu
      simp only
      split
      · split
        · exact hu
        · exact hu
      · exact hu
    | fatal f st2 => exact id
    | diverge => exact id

/-- Claim C4 (code mirror invariant), for `<codeat>` layers that agree on the
code dimension: right after the code of a set is broadcast all layers hold that
code and the same zeroed accumulator; one bunch (with its `UpdateCode` calls on
every layer) keeps the codes and accumulators of all layers identical; hence
they are identical in whatever state the processing of a set ends. -/
theorem code_mirror_invariant {ω : Type} (P : Collab ω) (o : Options) (inp : Inputs)
    (st : State ω)
    (hdim : ∀ l ∈ st.layers_codeat, ∀ m ∈ st.layers_codeat, l.code_dim = m.code_dim) :
    (∀ code, Mirrored (setCodeLoop code 0 st.layers_codeat).1
      ∧ ∀ l ∈ (setCodeLoop code 0 st.layers_codeat).1, l.GetCode = code)
    ∧ (∀ s : State ω, Mirrored s.layers_codeat →
        (trainBunch P o s).Holds (fun s1 => Mirrored s1.layers_codeat))
    ∧ (∀ fuel set, inp.code_vec set.1 ≠ none →
        (processSet P o inp fuel st set).Holds (fun s1 => Mirrored s1.layers_codeat)) :=
  ⟨fun code => setCodeLoop_mirrored code st.layers_codeat hdim,
    fun s hs => trainBunch_mirrored P o s hs,
    fun fuel set hcode => processSet_mirrored P o inp fuel st set hdim hcode⟩

/-- Claim C4 on the examples: after the set `A` is processed from `exState`, both
layers hold the same code. -/
theorem code_mirror_invariant_witness :
    (∀ l ∈ exState.layers_codeat, ∀ m ∈ exState.layers_codeat, l.code_dim = m.code_dim)
      ∧ (processSet exCollab exOptions exInputs 3 exState ("A", ["u1", "u2", "u3"])).Holds
          (fun s1 => Mirrored s1.layers_codeat) :=
  ⟨by decide, (code_mirror_invariant exCollab exOptions exInputs exState (by decide)).2.2 3
    ("A", ["u1", "u2", "u3"]) (by decide)⟩

/-! ## Sets without a code -/

theorem processSet_fatal_of_no_code {ω : Type} (P : Collab ω) (o : Options) (inp : Inputs)
    (fuel : Nat) (st : State ω) (set : String × List String)
    (hno : inp.code_vec set.1 = none) :
    processSet P o inp fuel st set = .fatal (.noCodeForSet set.1) st := by
  simp [processSet, hno]

/-- Claim C5: for a set whose key has no entry in the code table, the body of the
loop over the sets ends in the fatal error of line 189, in the very state in
which it was entered: no `SetCode`, no `ZeroCodeCorr`, no read of an utterance,
whatever the fuel. -/
theorem processSet_no_code {ω : Type} (P : Collab ω) (o : Options) (inp : Inputs) (fuel : Nat)
    (st : State ω) (set : String × List String) (hno : inp.code_vec set.1 = none) :
    processSet P o inp fuel st set = .fatal (.noCodeForSet set.1) st := by
  exact processSet_fatal_of_no_code P o inp fuel st set hno

/-- Claim C5 on the examples: the set `B` has no code. -/
theorem processSet_no_code_witness :
    exInputs.code_vec "B" = none
      ∧ processSet exCollab exOptions exInputs 3 exState ("B", ["u4"])
          = .fatal (.noCodeForSet "B") exState :=
  ⟨rfl, processSet_no_code exCollab exOptions exInputs 3 exState ("B", ["u4"]) rfl⟩

theorem setsLoop_append {ω : Type} (P : Collab ω) (o : Options) (inp : Inputs) (fuel : Nat)
    (pre sets : List (String × List String)) (st st1 : State ω)
    (h : setsLoop P o inp fuel st pre = .done st1) :
    setsLoop P o inp fuel st (pre ++ sets) = setsLoop P o inp fuel st1 sets := by
  induction pre generalizing st with
  | nil =>
    simp only [setsLoop] at h
    cases h
    rfl
  | cons set pre ih =>
    simp only [List.cons_append, setsLoop] at h ⊢
    cases hp : processSet P o inp fuel st set with
    | done s =>
      rw [hp] at h
      simp only at h ⊢
      exact ih s h
    | fatal f s => rw [hp] at h; cases h
    | diverge => rw [hp] at h; cases h

/-- Claim C8, as stated, fails: on the examples the set `A` comes before the set
`B`, which has no code; the run is aborted for `B` after the two bunches of `A`
have been forwarded (8 frames), the code updated and the code of `A` written. -/
theorem main_processes_sets_before_missing_code :
    ∃ st, main exCollab exOptions exInputs () 3 = .fatal (.noCodeForSet "B") st
      ∧ st.total_frames = 8
      ∧ Event.getBunch [([1], 0), ([1], 1), ([1], 2), ([1], 3)] ∈ st.log
      ∧ Event.updateCode 0 [3 / 2, 4] ∈ st.log
      ∧ st.code_vec_writer = [("A", [-2, -6])] :=
  ⟨_, rfl, rfl, by decide, by decide!, by decide!⟩

/-- Claim C8, amended: a set without a code aborts the run when the loop over the
sets reaches it, in the state in which the sets before it were left after being
processed in full; nothing of that set or of a later set is read, forwarded,
updated or written. If it is the first set, nothing has been processed. -/
theorem main_missing_code {ω : Type} (P : Collab ω) (o : Options) (inp : Inputs) (net : ω)
    (fuel : Nat) (found : List CodeAT × Int) (cache : Cache)
    (pre : List (String × List String)) (set : String × List String)
    (post : List (String × List String)) (st1 : State ω)
    (hopt : checkOptions o = .ok ())
    (hfind : findCodeAT o inp.nnet 0 [] = .ok found)
    (hcache : configureCache o.cachesize o.bunchsize = .ok cache)
    (hsets : inp.set2utt = pre ++ set :: post)
    (hpre : setsLoop P o inp fuel (initState o net found.1 cache) pre = .done st1)
    (hno : inp.code_vec set.1 = none) :
    main P o inp net fuel = .fatal (.noCodeForSet set.1) st1
      ∧ (pre = [] → st1 = initState o net found.1 cache) := by
  constructor
  · unfold main
    simp only [hopt, hfind, hcache, hsets]
    rw [setsLoop_append P o inp fuel pre (set :: post) _ st1 hpre]
    simp only [setsLoop, processSet_fatal_of_no_code P o inp fuel st1 set hno]
  · rintro rfl
    simp only [setsLoop] at hpre
    cases hpre
    rfl

/-- The amended claim C8 on the examples: the run is aborted for the set `B` in
the state in which the processing of the set `A` ended. -/
theorem main_missing_code_witness :
    exInputs.code_vec "B" = none
      ∧ ∃ st1, setsLoop exCollab exOptions exInputs 3 exState [("A", ["u1", "u2", "u3"])]
            = .done st1
          ∧ main exCollab exOptions exInputs () 3 = .fatal (.noCodeForSet "B") st1 :=
  ⟨rfl, _, rfl,
    (main_missing_code exCollab exOptions exInputs () 3 (exLayers, 2) exCache
      [("A", ["u1", "u2", "u3"])] ("B", ["u4"]) [] _ rfl rfl rfl rfl rfl rfl).1⟩

/-! ## Where the frames of the bunches come from -/

theorem Traced_mono (inp : Inputs) (evs new : List Event) (xs : List Entry)
    (h : Traced inp evs xs) : Traced inp (evs ++ new) xs := by
  intro x hx
  obtain ⟨u, fr, h1, h2⟩ := h x hx
  exact ⟨u, fr, List.mem_append_left _ h1, h2⟩

theorem FramesTraced_step {ω : Type} (inp : Inputs) (log0 : List Event) (s s1 : State ω)
    (new : List Event) (h : FramesTraced inp log0 s) (hlog : s1.log = s.log ++ new)
    (hlab : LabelledOnly inp new)
    (hb : ∀ b, Event.getBunch b ∈ new → ∀ x ∈ b, x ∈ s.cache.data)
    (hc : ∀ x ∈ s1.cache.data, x ∈ s.cache.data
      ∨ ∃ u fr, Event.addData u fr ∈ new ∧ x ∈ fr ∧ inp.alignments u ≠ none) :
    FramesTraced inp log0 s1 := by
  obtain ⟨evs, h1, h2, h3, h4⟩ := h
  refine ⟨evs ++ new, by rw [hlog, h1, List.append_assoc], ?_, ?_, ?_⟩
  · intro u hu
    refine ⟨?_, fun fr => ?_⟩
    · rw [List.mem_append]
      rintro (h | h)
      · exact (h2 u hu).1 h
      · exact (hlab u hu).1 h
    · rw [List.mem_append]
      rintro (h | h)
      · exact (h2 u hu).2 fr h
      · exact (hlab u hu).2 fr h
  · intro b hbm
    rcases List.mem_append.mp hbm with hbm | hbm
    · exact Traced_mono inp evs new b (h3 b hbm)
    · intro x hx
      exact Traced_mono inp evs new _ h4 x (hb b hbm x hx)
  · intro x hx
    rcases hc x hx with hx | ⟨u, fr, h5, h6⟩
    · exact Traced_mono inp evs new _ h4 x hx
    · exact ⟨u, fr, List.mem_append_right _ h5, h6⟩

theorem FramesTraced_fillStep {ω : Type} (P : Collab ω) (o : Options) (inp : Inputs)
    (log0 : List Event) (st : State ω) (utt : String) (h : FramesTraced inp log0 st) :
    (fillStep P o inp st utt).Holds (FramesTraced inp log0) := by
  rcases fillStep_cases P o inp st utt with h1 | h1 | h1 | h1 | ⟨a, m, ha, _, _, h1⟩
  · rw [h1.2]; exact h
  · rw [h1.2.2]; exact h
  · rw [h1.2]
    refine FramesTraced_step inp log0 st _ [.readFeatures utt] h rfl ?_ (by simp)
      (fun x hx => Or.inl hx)
    intro u hu
    have hne : u ≠ utt := by rintro rfl; exact h1.1 hu
    simp [hne]
  · rw [h1.2.2]
    refine FramesTraced_step inp log0 st _ [.readFeatures utt] h rfl ?_ (by simp)
      (fun x hx => Or.inl hx)
    intro u hu
    have hne : u ≠ utt := by rintro rfl; exact h1.1 hu
    simp [hne]
  · rw [h1]
    have hal : inp.alignments utt ≠ none := by simp [ha]
    refine FramesTraced_step inp log0 st _ _ h rfl ?_ (by simp) ?_
    · intro u hu
      have hne : u ≠ utt := by rintro rfl; exact hal hu
      simp [hne]
    · intro x hx
      simp only [List.mem_append] at hx
      rcases hx with hx | hx
      · exact Or.inl hx
      · exact Or.inr ⟨utt, _, by simp, hx, hal⟩

theorem FramesTraced_randomizeStep {ω : Type} (P : Collab ω) (o : Options) (inp : Inputs)
    (hrand : ∀ r d, ((P.Randomize r d).1).Perm d)
    (log0 : List Event) (st : State ω) (h : FramesTraced inp log0 st) :
    FramesTraced inp log0 (randomizeStep P o st) := by
  unfold randomizeStep
  split
  · refine FramesTraced_step inp log0 st _ [.randomizeCache] h rfl ?_ (by simp) ?_
    · intro u _
      simp
    · intro x hx
      exact Or.inl ((hrand _ _).mem_iff.mp hx)
  · exact h

theorem FramesTraced_trainBunch {ω : Type} (P : Collab ω) (o : Options) (inp : Inputs)
    (log0 : List Event) (st : State ω) (h : FramesTraced inp log0 st) :
    (trainBunch P o st).Holds (FramesTraced inp log0) := by
  have htake : ∀ x ∈ st.cache.GetBunch.1, x ∈ st.cache.data := fun x hx =>
    List.mem_of_mem_take hx
  have hdrop : ∀ x ∈ st.cache.GetBunch.2.data, x ∈ st.cache.data
      ∨ ∃ u fr, Event.addData u fr ∈ ([] : List Event) ∧ x ∈ fr ∧ inp.alignments u ≠ none :=
    fun x hx => Or.inl (List.mem_of_mem_drop hx)
  unfold trainBunch
  simp only
  split
  · refine FramesTraced_step inp log0 st _ _ h rfl ?_ ?_ (fun x hx => Or.inl (List.mem_of_mem_drop hx))
    · intro u _
      simp
    · intro b hb x hx
      simp at hb
      subst hb
      exact htake x hx
  · split
    · refine FramesTraced_step inp log0 st _ _ h rfl ?_ ?_ (fun x hx => Or.inl (List.mem_of_mem_drop hx))
      · intro u _
        simp
      · intro b hb x hx
        simp at hb
        subst hb
        exact htake x hx
    · refine FramesTraced_step inp log0 st _ _ h (List.append_assoc _ _ _) ?_ ?_ (fun x hx => Or.inl (List.mem_of_mem_drop hx))
      · intro u _
        simp [updateCodeLoop_events]
      · intro b hb x hx
        simp [updateCodeLoop_events] at hb
        subst hb
        exact htake x hx

/-! ## Termination and the counters of a set -/

theorem Counted.trans {ω : Type} {s s1 s2 : State ω} {k n k1 n1 : Nat}
    (h : Counted s s1 k n) (h1 : Counted s1 s2 k1 n1) : Counted s s2 (k + k1) (n + n1) := by
  obtain ⟨a1, a2, a3, a4, a5⟩ := h
  obtain ⟨b1, b2, b3, b4, b5⟩ := h1
  refine ⟨by omega, by omega, by rw [b3, a3], by rw [b4, a4], by rw [b5, a5]⟩

theorem fillStep_counted {ω : Type} (P : Collab ω) (o : Options) (inp : Inputs)
    (st : State ω) (utt : String)
    (hfeat : inp.alignments utt ≠ none → inp.features utt ≠ none)
    (hfull : st.cache.Full = false) :
    ∃ s1, fillStep P o inp st utt = .done s1
      ∧ Counted st s1 (if noAlignment inp utt then 1 else 0) 1 := by
  rcases fillStep_cases P o inp st utt with h1 | h1 | h1 | h1 | ⟨a, m, ha, _, _, h1⟩
  · refine ⟨_, h1.2, ?_, ?_, rfl, rfl, rfl⟩
    · simp [noAlignment, h1.1]
    · simp only
      omega
  · exact absurd h1.2.1 (hfeat h1.1)
  · have hna : (inp.alignments utt).isNone = false := by
      cases h : inp.alignments utt with
      | none => exact absurd h h1.1
      | some _ => rfl
    refine ⟨_, h1.2, ?_, ?_, rfl, rfl, rfl⟩
    · simp [noAlignment, hna]
    · simp only
      omega
  · rw [hfull] at h1
    exact absurd h1.2.1 (by simp)
  · refine ⟨_, h1, ?_, ?_, rfl, rfl, rfl⟩
    · simp [noAlignment, ha]
    · simp only
      omega

theorem fillLoop_spec {ω : Type} (P : Collab ω) (o : Options) (inp : Inputs)
    (utts : List String) (st : State ω)
    (hfeat : ∀ u ∈ utts, inp.alignments u ≠ none → inp.features u ≠ none) :
    ∃ s1 consumed rest, fillLoop P o inp st utts = .done (s1, rest)
      ∧ utts = consumed ++ rest
      ∧ Counted st s1 (consumed.countP (noAlignment inp)) consumed.length
      ∧ (st.cache.Full = false → utts ≠ [] → consumed ≠ []) := by
  induction utts generalizing st with
  | nil => exact ⟨st, [], [], rfl, rfl, ⟨rfl, rfl, rfl, rfl, rfl⟩, fun _ h => absurd rfl h⟩
  | cons utt rest ih =>
    have hfeat' : ∀ u ∈ rest, inp.alignments u ≠ none → inp.features u ≠ none :=
      fun u hu => hfeat u (List.mem_cons_of_mem _ hu)
    unfold fillLoop
    cases hfull : st.cache.Full with
    | true =>
      exact ⟨st, [], utt :: rest, by simp, rfl, ⟨rfl, rfl, rfl, rfl, rfl⟩, by simp⟩
    | false =>
      simp only [Bool.false_eq_true, if_false]
      obtain ⟨s0, h0, hc⟩ := fillStep_counted P o inp st utt (hfeat utt (by simp)) hfull
      obtain ⟨s1, consumed, rest1, e1, e2, e3, _⟩ := ih s0 hfeat'
      rw [h0]
      simp only
      refine ⟨s1, utt :: consumed, rest1, e1, by rw [e2]; rfl, ?_, by simp⟩
      have := hc.trans e3
      by_cases hna : noAlignment inp utt = true
      · simpa [List.countP_cons, hna, add_comm] using this
      · simpa [List.countP_cons, hna, add_comm] using this

theorem trainBunch_spec {ω : Type} (P : Collab ω) (o : Options) (st : State ω)
    (hlayers : o.crossvalidate = true ∨ st.layers_codeat ≠ []) :
    ∃ s1, trainBunch P o st = .done s1 ∧ s1.cache = st.cache.GetBunch.2
      ∧ Counted st s1 0 0 := by
  unfold trainBunch
  simp only
  cases hcv : o.crossvalidate with
  | true => exact ⟨_, rfl, rfl, ⟨rfl, rfl, rfl, rfl, rfl⟩⟩
  | false =>
    have hne : st.layers_codeat ≠ [] := by
      rcases hlayers with h | h
      · rw [hcv] at h; cases h
      · exact h
    simp only [Bool.false_eq_true, if_false]
    cases hl : st.layers_codeat with
    | nil => exact absurd hl hne
    | cons l0 ls =>
      simp only [setCodeDiff, codeVecDiff]
      refine ⟨_, rfl, rfl, ⟨rfl, rfl, rfl, rfl, ?_⟩⟩
      simp [updateCodeLoop_layers, setCodeDiff_length, hl]

theorem drainLoop_spec {ω : Type} (P : Collab ω) (o : Options) (n : Nat) (st : State ω)
    (hlayers : o.crossvalidate = true ∨ st.layers_codeat ≠ [])
    (hbunch : 0 < st.cache.bunchsize) (hn : st.cache.data.length ≤ n) :
    ∃ s1, drainLoop P o n st = .done s1 ∧ s1.cache.data = [] ∧ Counted st s1 0 0 := by
  induction n generalizing st with
  | zero =>
    have hd : st.cache.data = [] := List.length_eq_zero.mp (Nat.le_zero.mp hn)
    exact ⟨st, by simp [drainLoop, Cache.Empty, hd], hd, ⟨rfl, rfl, rfl, rfl, rfl⟩⟩
  | succ n ih =>
    unfold drainLoop
    cases hd : st.cache.data with
    | nil => exact ⟨st, by simp [Cache.Empty, hd], hd, ⟨rfl, rfl, rfl, rfl, rfl⟩⟩
    | cons x xs =>
      obtain ⟨s0, h0, hcache, hc⟩ := trainBunch_spec P o st hlayers
      have hb1 : 0 < st.cache.bunchsize.toNat := by omega
      have hlen : s0.cache.data.length ≤ n := by
        rw [hcache]
        simp only [Cache.GetBunch, List.length_drop]
        omega
      have hl0 : o.crossvalidate = true ∨ s0.layers_codeat ≠ [] := by
        rcases hlayers with h | h
        · exact Or.inl h
        · right
          intro he
          have h5 := hc.2.2.2.2
          rw [he] at h5
          exact h (List.length_eq_zero.mp h5.symm)
      obtain ⟨s1, h1, he, hc1⟩ := ih s0 hl0 (by rw [hc.2.2.2.1]; exact hbunch) hlen
      refine ⟨s1, ?_, he, by simpa using hc.trans hc1⟩
      simp [Cache.Empty, hd, h0, h1]

theorem randomizeStep_counted {ω : Type} (P : Collab ω) (o : Options) (st : State ω) :
    Counted st (randomizeStep P o st) 0 0 := by
  unfold randomizeStep
  split <;> exact ⟨rfl, rfl, rfl, rfl, rfl⟩

theorem uttLoop_spec {ω : Type} (P : Collab ω) (o : Options) (inp : Inputs) (fuel : Nat)
    (st : State ω) (utts : List String)
    (hfeat : ∀ u ∈ utts, inp.alignments u ≠ none → inp.features u ≠ none)
    (hlayers : o.crossvalidate = true ∨ st.layers_codeat ≠ [])
    (hempty : st.cache.data = []) (hcap : 0 < st.cache.cachesize)
    (hbunch : 0 < st.cache.bunchsize) (hfuel : utts.length ≤ fuel) :
    ∃ s1, uttLoop P o inp fuel st utts = .done s1 ∧ s1.cache.data = []
      ∧ Counted st s1 (utts.countP (noAlignment inp)) utts.length := by
  induction fuel generalizing st utts with
  | zero =>
    have : utts = [] := List.length_eq_zero.mp (Nat.le_zero.mp hfuel)
    subst this
    exact ⟨st, rfl, hempty, ⟨rfl, rfl, rfl, rfl, rfl⟩⟩
  | succ fuel ih =>
    cases utts with
    | nil => exact ⟨st, rfl, hempty, ⟨rfl, rfl, rfl, rfl, rfl⟩⟩
    | cons utt rest =>
      have hfull : st.cache.Full = false := by
        simp [Cache.Full, hempty, hcap]
      obtain ⟨s1, consumed, rest1, e1, e2, e3, e4⟩ := fillLoop_spec P o inp (utt :: rest) st hfeat
      have hcons : consumed ≠ [] := e4 hfull (by simp)
      have hr := randomizeStep_counted P o s1
      have hc2 := e3.trans hr
      have hl : ∀ s : State ω, s.layers_codeat.length = st.layers_codeat.length →
          (o.crossvalidate = true ∨ s.layers_codeat ≠ []) := by
        intro s hs
        rcases hlayers with h | h
        · exact Or.inl h
        · right
          intro he
          rw [he] at hs
          exact h (List.length_eq_zero.mp hs.symm)
      obtain ⟨s3, h3, he3, hc3⟩ := drainLoop_spec P o (randomizeStep P o s1).cache.data.length
        (randomizeStep P o s1) (hl _ hc2.2.2.2.2) (by rw [hc2.2.2.2.1]; exact hbunch) le_rfl
      have hc4 := hc2.trans hc3
      have hlen : rest1.length ≤ fuel := by
        have h5 := congrArg List.length e2
        simp only [List.length_cons, List.length_append] at h5 hfuel
        have : 0 < consumed.length := List.length_pos.mpr hcons
        omega
      have hfeat1 : ∀ u ∈ rest1, inp.alignments u ≠ none → inp.features u ≠ none := by
        intro u hu
        exact hfeat u (by rw [e2]; exact List.mem_append_right _ hu)
      obtain ⟨s5, h5, he5, hc5⟩ := ih s3 rest1 hfeat1 (hl _ hc4.2.2.2.2) he3
        (by rw [hc4.2.2.1]; exact hcap) (by rw [hc4.2.2.2.1]; exact hbunch) hlen
      refine ⟨s5, ?_, he5, ?_⟩
      · unfold uttLoop
        simp only [e1, h3, h5]
      · have := hc4.trans hc5
        rw [e2, List.countP_append, List.length_append]
        simpa using this

theorem Counted.refl {ω : Type} (s : State ω) : Counted s s 0 0 :=
  ⟨rfl, rfl, rfl, rfl, rfl⟩

theorem fillStep_done_counted {ω : Type} (P : Collab ω) (o : Options) (inp : Inputs)
    (st s1 : State ω) (utt : String) (h : fillStep P o inp st utt = .done s1) :
    Counted st s1 (if noAlignment inp utt then 1 else 0) 1 := by
  rcases fillStep_cases P o inp st utt with h1 | h1 | h1 | h1 | ⟨a, m, ha, _, _, h1⟩
  · rw [h1.2] at h
    cases h
    refine ⟨?_, ?_, rfl, rfl, rfl⟩
    · simp [noAlignment, h1.1]
    · simp only
      omega
  · rw [h1.2.2] at h
    cases h
  · have hna : (inp.alignments utt).isNone = false := by
      cases h : inp.alignments utt with
      | none => exact absurd h h1.1
      | some _ => rfl
    rw [h1.2] at h
    cases h
    refine ⟨?_, ?_, rfl, rfl, rfl⟩
    · simp [noAlignment, hna]
    · simp only
      omega
  · rw [h1.2.2] at h
    cases h
  · rw [h1] at h
    cases h
    refine ⟨?_, ?_, rfl, rfl, rfl⟩
    · simp [noAlignment, ha]
    · simp only
      omega

theorem fillLoop_done_counted {ω : Type} (P : Collab ω) (o : Options) (inp : Inputs)
    (utts : List String) (st s1 : State ω) (rest : List String)
    (h : fillLoop P o inp st utts = .done (s1, rest)) :
    ∃ consumed, utts = consumed ++ rest
      ∧ Counted st s1 (consumed.countP (noAlignment inp)) consumed.length := by
  induction utts generalizing st with
  | nil =>
    simp only [fillLoop] at h
    cases h
    exact ⟨[], rfl, Counted.refl _⟩
  | cons utt us ih =>
    unfold fillLoop at h
    split at h
    · cases h
      exact ⟨[], rfl, Counted.refl _⟩
    · cases hs : fillStep P o inp st utt with
      | done s0 =>
        rw [hs] at h
        obtain ⟨consumed, e1, e2⟩ := ih s0 h
        refine ⟨utt :: consumed, by rw [e1]; rfl, ?_⟩
        have := (fillStep_done_counted P o inp st s0 utt hs).trans e2
        by_cases hna : noAlignment inp utt = true
        · simpa [List.countP_cons, hna, add_comm] using this
        · simpa [List.countP_cons, hna, add_comm] using this
      | fatal f s0 => rw [hs] at h; cases h
      | diverge => rw [hs] at h; cases h

theorem trainBunch_done_counted {ω : Type} (P : Collab ω) (o : Options) (st s1 : State ω)
    (h : trainBunch P o st = .done s1) : Counted st s1 0 0 := by
  unfold trainBunch at h
  simp only at h
  split at h
  · cases h
    exact ⟨rfl, rfl, rfl, rfl, rfl⟩
  · split at h
    · cases h
    · cases h
      refine ⟨rfl, rfl, rfl, rfl, ?_⟩
      simp [updateCodeLoop_layers, setCodeDiff_length]

theorem drainLoop_done_counted {ω : Type} (P : Collab ω) (o : Options) (n : Nat)
    (st s1 : State ω) (h : drainLoop P o n st = .done s1) :
    Counted st s1 0 0 ∧ s1.cache.data = [] := by
  induction n generalizing st with
  | zero =>
    unfold drainLoop at h
    split at h
    · rename_i he
      cases h
      exact ⟨Counted.refl _, by simpa [Cache.Empty] using he⟩
    · cases h
  | succ n ih =>
    unfold drainLoop at h
    split at h
    · rename_i he
      cases h
      exact ⟨Counted.refl _, by simpa [Cache.Empty] using he⟩
    · cases hs : trainBunch P o st with
      | done s0 =>
        rw [hs] at h
        obtain ⟨e1, e2⟩ := ih s0 h
        exact ⟨by simpa using (trainBunch_done_counted P o st s0 hs).trans e1, e2⟩
      | fatal f s0 => rw [hs] at h; cases h
      | diverge => rw [hs] at h; cases h

theorem uttLoop_done_counted {ω : Type} (P : Collab ω) (o : Options) (inp : Inputs)
    (fuel : Nat) (st s1 : State ω) (utts : List String)
    (h : uttLoop P o inp fuel st utts = .done s1) :
    Counted st s1 (utts.countP (noAlignment inp)) utts.length := by
  induction fuel generalizing st utts with
  | zero =>
    cases utts with
    | nil =>
      simp only [uttLoop] at h
      cases h
      exact Counted.refl _
    | cons utt rest => simp only [uttLoop] at h; cases h
  | succ fuel ih =>
    cases utts with
    | nil =>
      simp only [uttLoop] at h
      cases h
      exact Counted.refl _
    | cons utt rest =>
      unfold uttLoop at h
      cases hf : fillLoop P o inp st (utt :: rest) with
      | done s =>
        rw [hf] at h
        simp only at h
        obtain ⟨consumed, e1, e2⟩ := fillLoop_done_counted P o inp (utt :: rest) st s.1 s.2 hf
        cases hd : drainLoop P o (randomizeStep P o s.1).cache.data.length
            (randomizeStep P o s.1) with
        | done s3 =>
          rw [hd] at h
          have e3 := (drainLoop_done_counted P o _ _ s3 hd).1
          have e4 := ih s3 s.2 h
          have := ((e2.trans (randomizeStep_counted P o s.1)).trans e3).trans e4
          rw [e1, List.countP_append, List.length_append]
          simpa using this
        | fatal f s3 => rw [hd] at h; cases h
        | diverge => rw [hd] at h; cases h
      | fatal f s => rw [hf] at h; cases h
      | diverge => rw [hf] at h; cases h

theorem uttLoop_done_empty {ω : Type} (P : Collab ω) (o : Options) (inp : Inputs)
    (fuel : Nat) (st s1 : State ω) (utts : List String) (hempty : st.cache.data = [])
    (h : uttLoop P o inp fuel st utts = .done s1) : s1.cache.data = [] := by
  induction fuel generalizing st utts with
  | zero =>
    cases utts with
    | nil =>
      simp only [uttLoop] at h
      cases h
      exact hempty
    | cons utt rest => simp only [uttLoop] at h; cases h
  | succ fuel ih =>
    cases utts with
    | nil =>
      simp only [uttLoop] at h
      cases h
      exact hempty
    | cons utt rest =>
      unfold uttLoop at h
      cases hf : fillLoop P o inp st (utt :: rest) with
      | done s =>
        rw [hf] at h
        simp only at h
        cases hd : drainLoop P o (randomizeStep P o s.1).cache.data.length
            (randomizeStep P o s.1) with
        | done s3 =>
          rw [hd] at h
          exact ih s3 s.2 (drainLoop_done_counted P o _ _ s3 hd).2 h
        | fatal f s3 => rw [hd] at h; cases h
        | diverge => rw [hd] at h; cases h
      | fatal f s => rw [hf] at h; cases h
      | diverge => rw [hf] at h; cases h

theorem processSet_done_facts {ω : Type} (P : Collab ω) (o : Options) (inp : Inputs)
    (fuel : Nat) (st s1 : State ω) (set : String × List String)
    (hshuf : ∀ r l, ((P.random_shuffle r l).1).Perm l)
    (hrand : ∀ r d, ((P.Randomize r d).1).Perm d)
    (hempty : st.cache.data = [])
    (h : processSet P o inp fuel st set = .done s1) :
    s1.num_no_alignments
        = st.num_no_alignments + set.2.countP (fun u => (inp.alignments u).isNone)
      ∧ s1.cache.data = []
      ∧ ∃ evs, s1.log = st.log ++ evs
        ∧ (∀ u, inp.alignments u = none →
            Event.readFeatures u ∉ evs ∧ ∀ fr, Event.addData u fr ∉ evs)
        ∧ (∀ b, Event.getBunch b ∈ evs → ∀ x ∈ b,
            ∃ u fr, Event.addData u fr ∈ evs ∧ x ∈ fr ∧ inp.alignments u ≠ none) := by
  have hperm : ((if o.shuffle then P.random_shuffle st.rng set.2 else (set.2, st.rng)).1).Perm
      set.2 := by
    split
    · exact hshuf _ _
    · exact List.Perm.refl _
  unfold processSet at h
  cases hcode : inp.code_vec set.1 with
  | none => rw [hcode] at h; cases h
  | some code =>
    rw [hcode] at h
    simp only at h
    generalize (if o.shuffle then P.random_shuffle st.rng set.2 else (set.2, st.rng)) = uttlst
      at hperm h
    have hstart : FramesTraced inp st.log
        ({ st with num_set := st.num_set + 1,
                   layers_codeat := (setCodeLoop code 0 st.layers_codeat).1,
                   rng := uttlst.2,
                   log := st.log ++ (setCodeLoop code 0 st.layers_codeat).2 } : State ω) := by
      refine ⟨_, rfl, ?_, ?_, ?_⟩
      · intro u _
        refine ⟨fun h => ?_, fun fr h => ?_⟩
        · rcases setCodeLoop_events code 0 _ _ h with ⟨i, hi⟩ | ⟨i, hi⟩ <;> cases hi
        · rcases setCodeLoop_events code 0 _ _ h with ⟨i, hi⟩ | ⟨i, hi⟩ <;> cases hi
      · intro b h
        rcases setCodeLoop_events code 0 _ _ h with ⟨i, hi⟩ | ⟨i, hi⟩ <;> cases hi
      · intro x hx
        simp only [hempty] at hx
        cases hx
    have hholds := uttLoop_holds P o inp (FramesTraced inp st.log)
      (fun s utt hs => FramesTraced_fillStep P o inp st.log s utt hs)
      (fun s hs => FramesTraced_randomizeStep P o inp hrand st.log s hs)
      (fun s hs => FramesTraced_trainBunch P o inp st.log s hs) fuel _ uttlst.1 hstart
    cases hu : uttLoop P o inp fuel
        ({ st with num_set := st.num_set + 1,
                   layers_codeat := (setCodeLoop code 0 st.layers_codeat).1,
                   rng := uttlst.2,
                   log := st.log ++ (setCodeLoop code 0 st.layers_codeat).2 } : State ω)
        uttlst.1 with
    | fatal f s2 => rw [hu] at h; cases h
    | diverge => rw [hu] at h; cases h
    | done s2 =>
      rw [hu] at h hholds
      have hc2 := uttLoop_done_counted P o inp fuel _ s2 uttlst.1 hu
      have hcount : s2.num_no_alignments
          = st.num_no_alignments + set.2.countP (fun u => (inp.alignments u).isNone) := by
        have := hc2.1
        rw [hperm.countP_eq] at this
        exact this
      have he2 : s2.cache.data = [] := uttLoop_done_empty P o inp fuel _ s2 uttlst.1 (by exact hempty) hu
      obtain ⟨evs, hlog, hlab, hb, _⟩ := hholds
      simp only at h
      split at h
      · split at h
        · cases h
        · cases h
          rename_i l0 ls _
          refine ⟨hcount, he2, evs ++ [.writeCode set.1 l0.GetCode],
            by simp only [hlog, List.append_assoc], ?_, ?_⟩
          · intro u hu
            have := hlab u hu
            simp [this.1, this.2]
          · intro b hbm x hx
            have hbm' : Event.getBunch b ∈ evs := by simpa using hbm
            obtain ⟨u, fr, h6, h7⟩ := hb b hbm' x hx
            exact ⟨u, fr, List.mem_append_left _ h6, h7⟩
      · cases h
        exact ⟨hcount, he2, evs, hlog, hlab, hb⟩

theorem processSet_done_exists {ω : Type} (P : Collab ω) (o : Options) (inp : Inputs)
    (fuel : Nat) (st : State ω) (set : String × List String)
    (hshuf : ∀ r l, ((P.random_shuffle r l).1).Perm l)
    (hempty : st.cache.data = [])
    (hcode : inp.code_vec set.1 ≠ none)
    (hfeat : ∀ u ∈ set.2, inp.alignments u ≠ none → inp.features u ≠ none)
    (hlayers : o.crossvalidate = true ∨ st.layers_codeat ≠ [])
    (hcap : 0 < st.cache.cachesize) (hbunch : 0 < st.cache.bunchsize)
    (hfuel : set.2.length ≤ fuel) :
    ∃ s1, processSet P o inp fuel st set = .done s1 := by
  have hperm : ((if o.shuffle then P.random_shuffle st.rng set.2 else (set.2, st.rng)).1).Perm
      set.2 := by
    split
    · exact hshuf _ _
    · exact List.Perm.refl _
  unfold processSet
  cases hc : inp.code_vec set.1 with
  | none => exact absurd hc hcode
  | some code =>
    simp only
    generalize (if o.shuffle then P.random_shuffle st.rng set.2 else (set.2, st.rng)) = uttlst
      at hperm ⊢
    have hl0 : o.crossvalidate = true ∨ (setCodeLoop code 0 st.layers_codeat).1 ≠ [] := by
      rcases hlayers with h | h
      · exact Or.inl h
      · right
        intro he
        have := setCodeLoop_length code 0 st.layers_codeat
        rw [he] at this
        exact h (List.length_eq_zero.mp this.symm)
    obtain ⟨s2, h2, _, hc2⟩ := uttLoop_spec P o inp fuel
      ({ st with num_set := st.num_set + 1,
                 layers_codeat := (setCodeLoop code 0 st.layers_codeat).1,
                 rng := uttlst.2,
                 log := st.log ++ (setCodeLoop code 0 st.layers_codeat).2 } : State ω) uttlst.1
      (fun u hu => hfeat u (hperm.mem_iff.mp hu)) hl0 hempty hcap hbunch
      (by rw [hperm.length_eq]; exact hfuel)
    rw [h2]
    simp only
    split
    · cases hl2 : s2.layers_codeat with
      | nil =>
        exfalso
        rename_i hw
        have h5 := hc2.2.2.2.2
        rw [hl2] at h5
        rcases hl0 with h | h
        · simp [h] at hw
        · exact h (List.length_eq_zero.mp h5.symm)
      | cons l0 ls => exact ⟨_, rfl⟩
    · exact ⟨s2, rfl⟩

/-- Claim C2: whenever the processing of a set, entered with an empty cache, runs
to its end, `num_no_alignments` has grown by exactly the number of utterances of
the set without labels (the shuffled list being a permutation of the list read),
the features of such an utterance have not been read, no `AddData` call has been
made for it, and every entry of every bunch taken is a frame added for an
utterance that has labels. And it does run to its end, given fuel for every
utterance, when the set has a code, its labelled utterances have features, the
cache has positive capacity and bunch size, and there is a `<codeat>` layer or
the run is a cross-validation. -/
theorem processSet_no_alignments {ω : Type} (P : Collab ω) (o : Options) (inp : Inputs)
    (fuel : Nat) (st : State ω) (set : String × List String)
    (hshuf : ∀ r l, ((P.random_shuffle r l).1).Perm l)
    (hrand : ∀ r d, ((P.Randomize r d).1).Perm d)
    (hempty : st.cache.data = []) :
    (∀ s1, processSet P o inp fuel st set = .done s1 →
      s1.num_no_alignments
          = st.num_no_alignments + set.2.countP (fun u => (inp.alignments u).isNone)
        ∧ s1.cache.data = []
        ∧ ∃ evs, s1.log = st.log ++ evs
          ∧ (∀ u, inp.alignments u = none →
              Event.readFeatures u ∉ evs ∧ ∀ fr, Event.addData u fr ∉ evs)
          ∧ (∀ b, Event.getBunch b ∈ evs → ∀ x ∈ b,
              ∃ u fr, Event.addData u fr ∈ evs ∧ x ∈ fr ∧ inp.alignments u ≠ none))
    ∧ (inp.code_vec set.1 ≠ none →
        (∀ u ∈ set.2, inp.alignments u ≠ none → inp.features u ≠ none) →
        (o.crossvalidate = true ∨ st.layers_codeat ≠ []) →
        0 < st.cache.cachesize → 0 < st.cache.bunchsize → set.2.length ≤ fuel →
        ∃ s1, processSet P o inp fuel st set = .done s1) :=
  ⟨fun s1 h => processSet_done_facts P o inp fuel st s1 set hshuf hrand hempty h,
    fun hcode hfeat hlayers hcap hbunch hfuel =>
      processSet_done_exists P o inp fuel st set hshuf hempty hcode hfeat hlayers hcap hbunch
        hfuel⟩

/-- Claim C2 on the examples: in the set `A` one utterance, `u3`, has no labels;
the set is processed to the end, the counter goes from 0 to 1, and no `AddData`
call is made for `u3`. -/
theorem processSet_no_alignments_witness :
    ∃ s1, processSet exCollab exOptions exInputs 3 exState ("A", ["u1", "u2", "u3"])
        = .done s1
      ∧ s1.num_no_alignments = 0 + 1
      ∧ ∃ evs, s1.log = exState.log ++ evs ∧ ∀ fr, Event.addData "u3" fr ∉ evs :=
  have h := processSet_no_alignments exCollab exOptions exInputs 3 exState
    ("A", ["u1", "u2", "u3"]) (fun _ l => List.reverse_perm l)
    (fun _ d => List.reverse_perm d) rfl
  (h.2 (by decide) (by decide) (Or.inr (by decide)) (by decide) (by decide)
    (by decide)).imp fun s1 hs =>
      ⟨hs, (h.1 s1 hs).1, (h.1 s1 hs).2.2.imp fun _ he => ⟨he.1, (he.2.1 "u3" rfl).2⟩⟩

/-! ## The events of a run -/

theorem LogExt_refl {ω : Type} (K : Event → Prop) (s : State ω) : LogExt K s.log s :=
  ⟨[], by simp, by simp⟩

theorem LogExt_step {ω : Type} (K : Event → Prop) (log0 : List Event) (s s1 : State ω)
    (new : List Event) (h : LogExt K log0 s) (hlog : s1.log = s.log ++ new)
    (hnew : ∀ e ∈ new, K e) : LogExt K log0 s1 := by
  obtain ⟨evs, h1, h2⟩ := h
  refine ⟨evs ++ new, by rw [hlog, h1, List.append_assoc], ?_⟩
  intro e he
  rcases List.mem_append.mp he with he | he
  · exact h2 e he
  · exact hnew e he

theorem LogExt_fillStep {ω : Type} (P : Collab ω) (o : Options) (inp : Inputs)
    (K : Event → Prop) (hK : ∀ e, e.inLoop o = true → K e)
    (log0 : List Event) (st : State ω) (utt : String) (h : LogExt K log0 st) :
    (fillStep P o inp st utt).Holds (LogExt K log0) := by
  rcases fillStep_cases P o inp st utt with h1 | h1 | h1 | h1 | ⟨a, m, _, _, _, h1⟩
  · rw [h1.2]; exact h
  · rw [h1.2.2]; exact h
  · rw [h1.2]
    refine LogExt_step K log0 st _ [.readFeatures utt] h rfl ?_
    intro e he
    simp only [List.mem_singleton] at he
    subst he
    exact hK _ rfl
  · rw [h1.2.2]
    refine LogExt_step K log0 st _ [.readFeatures utt] h rfl ?_
    intro e he
    simp only [List.mem_singleton] at he
    subst he
    exact hK _ rfl
  · rw [h1]
    refine LogExt_step K log0 st _ _ h rfl ?_
    intro e he
    simp only [List.mem_cons, List.mem_singleton, List.not_mem_nil, or_false] at he
    rcases he with rfl | rfl <;> exact hK _ rfl

theorem LogExt_randomizeStep {ω : Type} (P : Collab ω) (o : Options)
    (K : Event → Prop) (hK : ∀ e, e.inLoop o = true → K e)
    (log0 : List Event) (st : State ω) (h : LogExt K log0 st) :
    LogExt K log0 (randomizeStep P o st) := by
  unfold randomizeStep
  split
  · rename_i hc
    refine LogExt_step K log0 st _ [.randomizeCache] h rfl ?_
    intro e he
    simp only [List.mem_singleton] at he
    subst he
    exact hK _ hc
  · exact h

theorem LogExt_trainBunch {ω : Type} (P : Collab ω) (o : Options)
    (K : Event → Prop) (hK : ∀ e, e.inLoop o = true → K e)
    (log0 : List Event) (st : State ω) (h : LogExt K log0 st) :
    (trainBunch P o st).Holds (LogExt K log0) := by
  unfold trainBunch
  simp only
  cases hcv : o.crossvalidate with
  | true =>
    simp only [if_true]
    refine LogExt_step K log0 st _ _ h rfl ?_
    intro e he
    simp only [List.mem_cons, List.mem_singleton, List.not_mem_nil, or_false] at he
    rcases he with rfl | rfl <;> exact hK _ rfl
  | false =>
    simp only [Bool.false_eq_true, if_false]
    split
    · refine LogExt_step K log0 st _ _ h rfl ?_
      intro e he
      simp only [List.mem_cons, List.mem_singleton, List.not_mem_nil, or_false] at he
      rcases he with rfl | rfl | rfl
      · exact hK _ rfl
      · exact hK _ rfl
      · exact hK _ (by simp [Event.inLoop, hcv])
    · refine LogExt_step K log0 st _ _ h (List.append_assoc _ _ _) ?_
      intro e he
      simp only [updateCodeLoop_events, List.mem_append, List.mem_cons, List.mem_singleton,
        List.not_mem_nil, or_false, List.mem_map] at he
      rcases he with (rfl | rfl | rfl) | ⟨c, _, rfl⟩
      · exact hK _ rfl
      · exact hK _ rfl
      · exact hK _ (by simp [Event.inLoop, hcv])
      · exact hK _ (by simp [Event.inLoop, hcv])

theorem uttLoop_logExt {ω : Type} (P : Collab ω) (o : Options) (inp : Inputs)
    (K : Event → Prop) (hK : ∀ e, e.inLoop o = true → K e)
    (log0 : List Event) (fuel : Nat) (st : State ω) (utts : List String)
    (h : LogExt K log0 st) :
    (uttLoop P o inp fuel st utts).Holds (LogExt K log0) :=
  uttLoop_holds P o inp (LogExt K log0)
    (fun s utt hs => LogExt_fillStep P o inp K hK log0 s utt hs)
    (fun s hs => LogExt_randomizeStep P o K hK log0 s hs)
    (fun s hs => LogExt_trainBunch P o K hK log0 s hs) fuel st utts h

theorem Event.inSet_of_inLoop (o : Options) (e : Event) (h : e.inLoop o = true) :
    e.inSet o = true := by
  cases e <;> simp_all [Event.inSet, Event.inLoop]

theorem setsLoop_holds {ω : Type} (P : Collab ω) (o : Options) (inp : Inputs) (fuel : Nat)
    (I : State ω → Prop)
    (hset : ∀ st set, I st → (processSet P o inp fuel st set).Holds I)
    (st : State ω) (sets : List (String × List String)) (h : I st) :
    (setsLoop P o inp fuel st sets).Holds I := by
  induction sets generalizing st with
  | nil => exact h
  | cons set sets ih =>
    unfold setsLoop
    have hs := hset st set h
    cases hp : processSet P o inp fuel st set with
    | done s1 => rw [hp] at hs; exact ih s1 hs
    | fatal f s1 => rw [hp] at hs; exact hs
    | diverge => trivial

theorem fillStep_writer {ω : Type} (P : Collab ω) (o : Options) (inp : Inputs)
    (I : List (String × Vec) → Nat → Prop) (st : State ω) (utt : String)
    (h : I st.code_vec_writer st.num_set) :
    (fillStep P o inp st utt).Holds (fun s => I s.code_vec_writer s.num_set) := by
  rcases fillStep_cases P o inp st utt with h1 | h1 | h1 | h1 | ⟨a, m, _, _, _, h1⟩
  · rw [h1.2]; exact h
  · rw [h1.2.2]; exact h
  · rw [h1.2]; exact h
  · rw [h1.2.2]; exact h
  · rw [h1]; exact h

theorem trainBunch_writer {ω : Type} (P : Collab ω) (o : Options)
    (I : List (String × Vec) → Nat → Prop) (st : State ω)
    (h : I st.code_vec_writer st.num_set) :
    (trainBunch P o st).Holds (fun s => I s.code_vec_writer s.num_set) := by
  unfold trainBunch
  simp only
  split
  · exact h
  · split <;> exact h

theorem randomizeStep_writer {ω : Type} (P : Collab ω) (o : Options) (st : State ω) :
    (randomizeStep P o st).code_vec_writer = st.code_vec_writer
      ∧ (randomizeStep P o st).num_set = st.num_set := by
  unfold randomizeStep
  split <;> exact ⟨rfl, rfl⟩

theorem uttLoop_writer {ω : Type} (P : Collab ω) (o : Options) (inp : Inputs) (fuel : Nat)
    (st : State ω) (utts : List String) :
    (uttLoop P o inp fuel st utts).Holds
      (fun s => s.code_vec_writer = st.code_vec_writer ∧ s.num_set = st.num_set) :=
  uttLoop_holds P o inp
    (fun s => s.code_vec_writer = st.code_vec_writer ∧ s.num_set = st.num_set)
    (fun s utt hs => fillStep_writer P o inp
      (fun w n => w = st.code_vec_writer ∧ n = st.num_set) s utt hs)
    (fun s hs => ⟨(randomizeStep_writer P o s).1.trans hs.1,
      (randomizeStep_writer P o s).2.trans hs.2⟩)
    (fun s hs => trainBunch_writer P o
      (fun w n => w = st.code_vec_writer ∧ n = st.num_set) s hs) fuel st utts ⟨rfl, rfl⟩

/-- What the body of the loop over the sets leaves behind, for a set that has the
code `code`: the log is extended by the `SetCode` and `ZeroCodeCorr` calls, then
by events of the loop over the utterances, then by the write of the code if the
set was processed to its end in training mode with `update_code_vec` set; the
writer receives that one record or nothing. -/
theorem processSet_shape {ω : Type} (P : Collab ω) (o : Options) (inp : Inputs) (fuel : Nat)
    (st : State ω) (set : String × List String) (code : Vec)
    (hcode : inp.code_vec set.1 = some code) :
    (∀ s1, processSet P o inp fuel st set = .done s1 →
      ∃ evs, (∀ e ∈ evs, e.inLoop o = true) ∧ s1.num_set = st.num_set + 1
        ∧ if (!o.crossvalidate && o.update_code_vec) = true then
            ∃ l0 ls, s1.layers_codeat = l0 :: ls
              ∧ s1.code_vec_writer = st.code_vec_writer ++ [(set.1, l0.GetCode)]
              ∧ s1.log = st.log ++ (setCodeLoop code 0 st.layers_codeat).2 ++ evs
                  ++ [.writeCode set.1 l0.GetCode]
          else s1.code_vec_writer = st.code_vec_writer
              ∧ s1.log = st.log ++ (setCodeLoop code 0 st.layers_codeat).2 ++ evs)
    ∧ (∀ f s1, processSet P o inp fuel st set = .fatal f s1 →
      ∃ evs, (∀ e ∈ evs, e.inLoop o = true) ∧ s1.code_vec_writer = st.code_vec_writer
        ∧ s1.log = st.log ++ (setCodeLoop code 0 st.layers_codeat).2 ++ evs) := by
  have key : ∀ uttlst : List String × Int,
      (uttLoop P o inp fuel
        ({ st with num_set := st.num_set + 1,
                   layers_codeat := (setCodeLoop code 0 st.layers_codeat).1,
                   rng := uttlst.2,
                   log := st.log ++ (setCodeLoop code 0 st.layers_codeat).2 } : State ω)
        uttlst.1).Holds (fun s => (∃ evs, s.log
            = (st.log ++ (setCodeLoop code 0 st.layers_codeat).2) ++ evs
            ∧ ∀ e ∈ evs, e.inLoop o = true)
          ∧ s.code_vec_writer = st.code_vec_writer ∧ s.num_set = st.num_set + 1) := by
    intro uttlst
    have h1 := uttLoop_logExt P o inp (fun e => e.inLoop o = true) (fun e he => he)
      (st.log ++ (setCodeLoop code 0 st.layers_codeat).2) fuel
      ({ st with num_set := st.num_set + 1,
                 layers_codeat := (setCodeLoop code 0 st.layers_codeat).1,
                 rng := uttlst.2,
                 log := st.log ++ (setCodeLoop code 0 st.layers_codeat).2 } : State ω)
      uttlst.1 (LogExt_refl _ _)
    have h2 := uttLoop_writer P o inp fuel
      ({ st with num_set := st.num_set + 1,
                 layers_codeat := (setCodeLoop code 0 st.layers_codeat).1,
                 rng := uttlst.2,
                 log := st.log ++ (setCodeLoop code 0 st.layers_codeat).2 } : State ω)
      uttlst.1
    revert h1 h2
    cases uttLoop P o inp fuel _ uttlst.1 with
    | done s => exact fun h1 h2 => ⟨h1, h2⟩
    | fatal f s => exact fun h1 h2 => ⟨h1, h2⟩
    | diverge => exact fun _ _ => trivial
  unfold processSet
  simp only [hcode]
  generalize (if o.shuffle then P.random_shuffle st.rng set.2 else (set.2, st.rng)) = uttlst
  have hk := key uttlst
  revert hk
  cases uttLoop P o inp fuel _ uttlst.1 with
  | diverge =>
    intro _
    exact ⟨fun s1 h => (by cases h), fun f s1 h => (by cases h)⟩
  | fatal f s =>
    rintro ⟨⟨evs, hlog, hev⟩, hw, _⟩
    refine ⟨fun s1 h => (by cases h), fun f1 s1 h => ?_⟩
    simp only at h
    cases h
    exact ⟨evs, hev, hw, hlog⟩
  | done s =>
    rintro ⟨⟨evs, hlog, hev⟩, hw, hn⟩
    simp only
    cases hc : (!o.crossvalidate && o.update_code_vec) with
    | false =>
      simp only [Bool.false_eq_true, if_false]
      refine ⟨fun s1 h => ?_, fun f s1 h => (by cases h)⟩
      cases h
      exact ⟨evs, hev, hn, hw, hlog⟩
    | true =>
      simp only [if_true]
      cases hl : s.layers_codeat with
      | nil =>
        simp only
        refine ⟨fun s1 h => (by cases h), fun f s1 h => ?_⟩
        cases h
        exact ⟨evs, hev, hw, hlog⟩
      | cons l0 ls =>
        simp only
        refine ⟨fun s1 h => ?_, fun f s1 h => (by cases h)⟩
        cases h
        exact ⟨evs, hev, hn, l0, ls, rfl, by rw [hw], by rw [hlog]⟩

theorem processSet_logExt {ω : Type} (P : Collab ω) (o : Options) (inp : Inputs) (fuel : Nat)
    (K : Event → Prop) (hK : ∀ e, e.inSet o = true → K e) (log0 : List Event)
    (st : State ω) (set : String × List String) (h : LogExt K log0 st) :
    (processSet P o inp fuel st set).Holds (LogExt K log0) := by
  cases hcode : inp.code_vec set.1 with
  | none =>
    rw [processSet_fatal_of_no_code P o inp fuel st set hcode]
    exact h
  | some code =>
    have hsc : ∀ e ∈ (setCodeLoop code 0 st.layers_codeat).2, K e := by
      intro e he
      rcases setCodeLoop_events code 0 _ e he with ⟨i, rfl⟩ | ⟨i, rfl⟩ <;> exact hK _ rfl
    obtain ⟨hd, hf⟩ := processSet_shape P o inp fuel st set code hcode
    cases hp : processSet P o inp fuel st set with
    | diverge => trivial
    | fatal f s1 =>
      obtain ⟨evs, hev, _, hlog⟩ := hf f s1 hp
      refine LogExt_step K log0 st s1 _ h (by rw [hlog, List.append_assoc]) ?_
      intro e he
      rcases List.mem_append.mp he with he | he
      · exact hsc e he
      · exact hK e (Event.inSet_of_inLoop o e (hev e he))
    | done s1 =>
      obtain ⟨evs, hev, _, hrest⟩ := hd s1 hp
      split at hrest
      · rename_i hc
        obtain ⟨l0, ls, _, _, hlog⟩ := hrest
        refine LogExt_step K log0 st s1 _ h
          (by rw [hlog, List.append_assoc, List.append_assoc]) ?_
        intro e he
        simp only [List.mem_append, List.mem_singleton] at he
        rcases he with he | he | rfl
        · exact hsc e he
        · exact hK e (Event.inSet_of_inLoop o e (hev e he))
        · exact hK _ hc
      · obtain ⟨_, hlog⟩ := hrest
        refine LogExt_step K log0 st s1 _ h (by rw [hlog, List.append_assoc]) ?_
        intro e he
        rcases List.mem_append.mp he with he | he
        · exact hsc e he
        · exact hK e (Event.inSet_of_inLoop o e (hev e he))

theorem setsLoop_logExt {ω : Type} (P : Collab ω) (o : Options) (inp : Inputs) (fuel : Nat)
    (K : Event → Prop) (hK : ∀ e, e.inSet o = true → K e) (log0 : List Event)
    (st : State ω) (sets : List (String × List String)) (h : LogExt K log0 st) :
    (setsLoop P o inp fuel st sets).Holds (LogExt K log0) :=
  setsLoop_holds P o inp fuel (LogExt K log0)
    (fun s set hs => processSet_logExt P o inp fuel K hK log0 s set hs) st sets h

/-- How a run of `main` ends: either a startup check fails and nothing has been
recorded, or the loop over the sets is entered from the initial state and the
run ends as that loop does, with the write of the network appended in training
mode when the weight or the transform update is enabled. -/
theorem main_shape {ω : Type} (P : Collab ω) (o : Options) (inp : Inputs) (net : ω)
    (fuel : Nat) :
    (∃ f layers, main P o inp net fuel = .fatal f (initState o net layers Cache.fresh))
    ∨ ∃ found cache, findCodeAT o inp.nnet 0 [] = .ok found
        ∧ configureCache o.cachesize o.bunchsize = .ok cache
        ∧ main P o inp net fuel
          = match setsLoop P o inp fuel (initState o net found.1 cache) inp.set2utt with
            | .done st =>
              if !o.crossvalidate && (o.update_weight || o.update_code_xform) then
                .done { st with log := st.log ++ [.writeNnet] }
              else .done st
            | .fatal f st => .fatal f st
            | .diverge => .diverge := by
  unfold main
  cases checkOptions o with
  | error f => exact Or.inl ⟨f, [], rfl⟩
  | ok u =>
    cases hfind : findCodeAT o inp.nnet 0 [] with
    | error f => exact Or.inl ⟨f, [], rfl⟩
    | ok found =>
      cases hcache : configureCache o.cachesize o.bunchsize with
      | error f => exact Or.inl ⟨f, found.1, rfl⟩
      | ok cache => exact Or.inr ⟨found, cache, rfl, rfl, rfl⟩

/-! ## Cross-validation and the final write of the network -/

theorem processSet_writer_cv {ω : Type} (P : Collab ω) (o : Options) (inp : Inputs)
    (fuel : Nat) (st : State ω) (set : String × List String)
    (hcv : o.crossvalidate = true) :
    (processSet P o inp fuel st set).Holds
      (fun s1 => s1.code_vec_writer = st.code_vec_writer) := by
  cases hcode : inp.code_vec set.1 with
  | none =>
    rw [processSet_fatal_of_no_code P o inp fuel st set hcode]
    rfl
  | some code =>
    obtain ⟨hd, hf⟩ := processSet_shape P o inp fuel st set code hcode
    cases hp : processSet P o inp fuel st set with
    | diverge => trivial
    | fatal f s1 =>
      obtain ⟨_, _, hw, _⟩ := hf f s1 hp
      exact hw
    | done s1 =>
      obtain ⟨_, _, _, hrest⟩ := hd s1 hp
      simp only [hcv, Bool.not_true, Bool.false_and, Bool.false_eq_true, if_false] at hrest
      exact hrest.1

/-- Claim C11: in a cross-validation run, whatever the update switches and the
output names, the state in which the run ends has no `Backpropagate`, no
`UpdateCode`, no write of a code and no write of the network in its log, and
nothing in the code writer; one bunch is a forward pass only, which leaves the
`<codeat>` layers and the writer as they were. -/
theorem crossvalidate_quiet {ω : Type} (P : Collab ω) (o : Options) (inp : Inputs) (net : ω)
    (fuel : Nat) (hcv : o.crossvalidate = true) :
    (main P o inp net fuel).Holds (fun st =>
      (∀ e ∈ st.log, e ≠ .backpropagate ∧ (∀ c g, e ≠ .updateCode c g)
        ∧ (∀ k v, e ≠ .writeCode k v) ∧ e ≠ .writeNnet)
      ∧ st.code_vec_writer = [])
    ∧ ∀ st : State ω, ∃ s1, trainBunch P o st = .done s1
        ∧ s1.log = st.log ++ [.getBunch st.cache.GetBunch.1, .propagate]
        ∧ s1.layers_codeat = st.layers_codeat
        ∧ s1.code_vec_writer = st.code_vec_writer := by
  constructor
  · have hK : ∀ e : Event, e.inSet o = true →
        e ≠ .backpropagate ∧ (∀ c g, e ≠ .updateCode c g)
          ∧ (∀ k v, e ≠ .writeCode k v) ∧ e ≠ .writeNnet := by
      intro e he
      cases e <;> simp_all [Event.inSet, Event.inLoop]
    have hsets : ∀ (st0 : State ω), st0.log = [] → st0.code_vec_writer = [] →
        (setsLoop P o inp fuel st0 inp.set2utt).Holds (fun st =>
          (∀ e ∈ st.log, e ≠ .backpropagate ∧ (∀ c g, e ≠ .updateCode c g)
            ∧ (∀ k v, e ≠ .writeCode k v) ∧ e ≠ .writeNnet)
          ∧ st.code_vec_writer = []) := by
      intro st0 hlog hw
      refine setsLoop_holds P o inp fuel _ (fun s set hs => ?_) st0 inp.set2utt
        ⟨by simp [hlog], hw⟩
      have h1 := processSet_logExt P o inp fuel _ hK s.log s set (LogExt_refl _ s)
      have h2 := processSet_writer_cv P o inp fuel s set hcv
      revert h1 h2
      cases processSet P o inp fuel s set with
      | diverge => exact fun _ _ => trivial
      | done s1 =>
        rintro ⟨evs, hl, hev⟩ h2
        refine ⟨fun e he => ?_, h2.trans hs.2⟩
        rw [hl] at he
        rcases List.mem_append.mp he with he | he
        · exact hs.1 e he
        · exact hev e he
      | fatal f s1 =>
        rintro ⟨evs, hl, hev⟩ h2
        refine ⟨fun e he => ?_, h2.trans hs.2⟩
        rw [hl] at he
        rcases List.mem_append.mp he with he | he
        · exact hs.1 e he
        · exact hev e he
    rcases main_shape P o inp net fuel with ⟨f, layers, h⟩ | ⟨found, cache, _, _, h⟩
    · rw [h]
      exact ⟨by simp [initState], rfl⟩
    · rw [h]
      have := hsets (initState o net found.1 cache) rfl rfl
      revert this
      cases setsLoop P o inp fuel (initState o net found.1 cache) inp.set2utt with
      | diverge => exact fun _ => trivial
      | fatal f st => exact fun h => h
      | done st =>
        intro h
        simp only [hcv, Bool.not_true, Bool.false_and, Bool.false_eq_true, if_false]
        exact h
  · intro st
    simp only [trainBunch, hcv, if_true]
    exact ⟨_, rfl, rfl, rfl, rfl⟩

/-- Claim C11 on the examples: the cross-validation run over the set `A`, with
the code update switched on and an output archive named, forwards 8 frames and
ends with an empty code writer. -/
theorem crossvalidate_quiet_witness :
    exOptionsCV.crossvalidate = true
      ∧ ∃ st, main exCollab exOptionsCV exInputsA () 3 = .done st
          ∧ st.total_frames = 8 ∧ st.code_vec_writer = []
          ∧ ∀ e ∈ st.log, e ≠ .backpropagate ∧ (∀ c g, e ≠ .updateCode c g)
              ∧ (∀ k v, e ≠ .writeCode k v) ∧ e ≠ .writeNnet :=
  ⟨rfl, _, rfl, rfl,
    ((crossvalidate_quiet exCollab exOptionsCV exInputsA () 3 rfl).1 :
      (main exCollab exOptionsCV exInputsA () 3).Holds _).2,
    ((crossvalidate_quiet exCollab exOptionsCV exInputsA () 3 rfl).1 :
      (main exCollab exOptionsCV exInputsA () 3).Holds _).1⟩

/-- Claim C16: when a run ends normally, the log holds the write of the network
exactly once, as its last entry, if the run is in training mode and the weight
or the transform update is enabled, and not at all otherwise (in particular not
when only the code update is enabled); a run that is aborted has not written the
network. -/
theorem main_writes_nnet_once {ω : Type} (P : Collab ω) (o : Options) (inp : Inputs) (net : ω)
    (fuel : Nat) :
    (∀ st, main P o inp net fuel = .done st →
      if (!o.crossvalidate && (o.update_weight || o.update_code_xform)) = true then
        ∃ evs, st.log = evs ++ [.writeNnet] ∧ Event.writeNnet ∉ evs
      else Event.writeNnet ∉ st.log)
    ∧ (∀ f st, main P o inp net fuel = .fatal f st → Event.writeNnet ∉ st.log) := by
  have hK : ∀ e : Event, e.inSet o = true → e ≠ .writeNnet := by
    intro e he
    cases e <;> simp_all [Event.inSet, Event.inLoop]
  have hsets : ∀ (st0 : State ω), st0.log = [] →
      (setsLoop P o inp fuel st0 inp.set2utt).Holds (fun st => Event.writeNnet ∉ st.log) := by
    intro st0 hlog
    have := setsLoop_logExt P o inp fuel _ hK st0.log st0 inp.set2utt (LogExt_refl _ st0)
    revert this
    cases setsLoop P o inp fuel st0 inp.set2utt with
    | diverge => exact fun _ => trivial
    | done s1 =>
      rintro ⟨evs, hl, hev⟩ hmem
      rw [hl, hlog, List.nil_append] at hmem
      exact hev _ hmem rfl
    | fatal f s1 =>
      rintro ⟨evs, hl, hev⟩ hmem
      rw [hl, hlog, List.nil_append] at hmem
      exact hev _ hmem rfl
  rcases main_shape P o inp net fuel with ⟨f, layers, h⟩ | ⟨found, cache, _, _, h⟩
  · rw [h]
    refine ⟨fun st hst => (by cases hst), fun f1 st hst => ?_⟩
    cases hst
    simp [initState]
  · rw [h]
    have := hsets (initState o net found.1 cache) rfl
    revert this
    cases setsLoop P o inp fuel (initState o net found.1 cache) inp.set2utt with
    | diverge => exact fun _ => ⟨fun st hst => (by cases hst), fun f st hst => (by cases hst)⟩
    | fatal f s0 =>
      intro h0
      refine ⟨fun st hst => (by cases hst), fun f1 st hst => ?_⟩
      cases hst
      exact h0
    | done s0 =>
      intro h0
      cases hc : (!o.crossvalidate && (o.update_weight || o.update_code_xform)) with
      | true =>
        simp only [if_true]
        refine ⟨fun st hst => ?_, fun f st hst => (by cases hst)⟩
        cases hst
        exact ⟨s0.log, rfl, h0⟩
      | false =>
        simp only [Bool.false_eq_true, if_false]
        refine ⟨fun st hst => ?_, fun f st hst => (by cases hst)⟩
        cases hst
        exact h0

/-- Claim C16 on the examples: with the weight update enabled the run over the
set `A` ends normally and the write of the network is the last entry of its log;
with the code update alone the network is not written. -/
theorem main_writes_nnet_once_witness :
    (∃ st, main exCollab exOptionsWeight exInputsA () 3 = .done st
        ∧ ∃ evs, st.log = evs ++ [.writeNnet] ∧ Event.writeNnet ∉ evs)
      ∧ ∃ st, main exCollab exOptions exInputsA () 3 = .done st
        ∧ Event.writeNnet ∉ st.log :=
  ⟨⟨_, rfl, (main_writes_nnet_once exCollab exOptionsWeight exInputsA () 3).1 _ rfl⟩,
    ⟨_, rfl, (main_writes_nnet_once exCollab exOptions exInputsA () 3).1 _ rfl⟩⟩

/-! ## The broadcast of the code to the layers -/

theorem setCodeLoop_calls (code : Vec) (c : Nat) (ls : List CodeAT) :
    (setCodeLoop code c ls).2
      = (List.range' c ls.length).flatMap
          (fun i => [Event.setCode i code, Event.zeroCodeCorr i]) := by
  induction ls generalizing c with
  | nil => rfl
  | cons l ls ih => simp [setCodeLoop, List.range'_succ, ih]

theorem setCodeLoop_count_zero (code : Vec) (c k : Nat) (ls : List CodeAT) :
    (setCodeLoop code k ls).2.count (Event.zeroCodeCorr c)
      = if k ≤ c ∧ c < k + ls.length then 1 else 0 := by
  induction ls generalizing k with
  | nil =>
    have : ¬ (k ≤ c ∧ c < k) := by omega
    simp [setCodeLoop, this]
  | cons l ls ih =>
    simp only [setCodeLoop, List.length_cons]
    rw [List.count_cons, List.count_cons, ih (k + 1)]
    by_cases h1 : k = c
    · subst h1
      simp
    · have h2 : ¬ (Event.zeroCodeCorr k == Event.zeroCodeCorr c) = true := by
        simpa using h1
      simp only [beq_iff_eq, reduceCtorEq, if_false, add_zero]
      by_cases h3 : k + 1 ≤ c ∧ c < k + 1 + ls.length
      · have : k ≤ c ∧ c < k + (ls.length + 1) := by omega
        simp [h3, this, h1]
      · have : ¬ (k ≤ c ∧ c < k + (ls.length + 1)) := by omega
        simp [h3, this, h1]

/-- Claim C18: for a set that has a code, the events recorded while the set is
processed are the `SetCode` and `ZeroCodeCorr` calls of lines 195-200, layer by
layer and each `ZeroCodeCorr` right after the `SetCode` on the same layer,
followed by events among which there is no further `ZeroCodeCorr`: every bunch
comes after them, and each `<codeat>` layer is zeroed exactly once. -/
theorem processSet_zeroes_once {ω : Type} (P : Collab ω) (o : Options) (inp : Inputs)
    (fuel : Nat) (st : State ω) (set : String × List String) (code : Vec)
    (hcode : inp.code_vec set.1 = some code) :
    (processSet P o inp fuel st set).Holds (fun s1 =>
      ∃ rest, s1.log
          = st.log
            ++ (List.range st.layers_codeat.length).flatMap
                (fun c => [Event.setCode c code, Event.zeroCodeCorr c])
            ++ rest
        ∧ (∀ e ∈ rest, (∀ c, e ≠ .zeroCodeCorr c) ∧ ∀ c v, e ≠ .setCode c v)
        ∧ ∀ c, ((List.range st.layers_codeat.length).flatMap
                (fun c => [Event.setCode c code, Event.zeroCodeCorr c]) ++ rest).count
              (.zeroCodeCorr c)
            = if c < st.layers_codeat.length then 1 else 0) := by
  have hcalls := setCodeLoop_calls code 0 st.layers_codeat
  rw [← List.range_eq_range'] at hcalls
  have hnz : ∀ e : Event, (e.inLoop o = true ∨ ∃ k v, e = .writeCode k v) →
      (∀ c, e ≠ .zeroCodeCorr c) ∧ ∀ c v, e ≠ .setCode c v := by
    rintro e (he | ⟨k, v, rfl⟩)
    · cases e <;> simp_all [Event.inLoop]
    · simp
  have hfin : ∀ (s1 : State ω) (rest : List Event),
      s1.log = st.log ++ (setCodeLoop code 0 st.layers_codeat).2 ++ rest →
      (∀ e ∈ rest, e.inLoop o = true ∨ ∃ k v, e = .writeCode k v) →
      ∃ rest, s1.log
          = st.log
            ++ (List.range st.layers_codeat.length).flatMap
                (fun c => [Event.setCode c code, Event.zeroCodeCorr c])
            ++ rest
        ∧ (∀ e ∈ rest, (∀ c, e ≠ .zeroCodeCorr c) ∧ ∀ c v, e ≠ .setCode c v)
        ∧ ∀ c, ((List.range st.layers_codeat.length).flatMap
                (fun c => [Event.setCode c code, Event.zeroCodeCorr c]) ++ rest).count
              (.zeroCodeCorr c)
            = if c < st.layers_codeat.length then 1 else 0 := by
    intro s1 rest hlog hrest
    refine ⟨rest, by rw [hlog, hcalls], fun e he => hnz e (hrest e he), fun c => ?_⟩
    have h0 : rest.count (Event.zeroCodeCorr c) = 0 :=
      List.count_eq_zero.mpr (fun hm => (hnz _ (hrest _ hm)).1 c rfl)
    rw [List.count_append, h0, ← hcalls, setCodeLoop_count_zero]
    simp
  obtain ⟨hd, hf⟩ := processSet_shape P o inp fuel st set code hcode
  cases hp : processSet P o inp fuel st set with
  | diverge => trivial
  | fatal f s1 =>
    obtain ⟨evs, hev, _, hlog⟩ := hf f s1 hp
    exact hfin s1 evs hlog (fun e he => Or.inl (hev e he))
  | done s1 =>
    obtain ⟨evs, hev, _, hrest⟩ := hd s1 hp
    split at hrest
    · obtain ⟨l0, ls, _, _, hlog⟩ := hrest
      refine hfin s1 (evs ++ [.writeCode set.1 l0.GetCode])
        (by rw [hlog]; simp only [List.append_assoc]) ?_
      intro e he
      simp only [List.mem_append, List.mem_singleton] at he
      rcases he with he | rfl
      · exact Or.inl (hev e he)
      · exact Or.inr ⟨_, _, rfl⟩
    · exact hfin s1 evs hrest.2 (fun e he => Or.inl (hev e he))

/-- Claim C18 on the examples: while the set `A` is processed from `exState` the
two layers are zeroed once each, before the first bunch. -/
theorem processSet_zeroes_once_witness :
    ∃ s1 rest, processSet exCollab exOptions exInputs 3 exState ("A", ["u1", "u2", "u3"])
        = .done s1
      ∧ s1.log = [.setCode 0 [1, 2], .zeroCodeCorr 0, .setCode 1 [1, 2], .zeroCodeCorr 1]
          ++ rest
      ∧ ∀ e ∈ rest, ∀ c, e ≠ .zeroCodeCorr c :=
  have h := processSet_zeroes_once exCollab exOptions exInputs 3 exState
    ("A", ["u1", "u2", "u3"]) [1, 2] rfl
  have hd : ∃ s1, processSet exCollab exOptions exInputs 3 exState ("A", ["u1", "u2", "u3"])
      = .done s1 := ⟨_, rfl⟩
  hd.elim fun s1 hs => by
    rw [hs] at h
    obtain ⟨rest, h1, h2, _⟩ := h
    exact ⟨s1, rest, hs, h1, fun e he => (h2 e he).1⟩

/-! ## The code record of a set -/

/-- Claim C14: when the body of the loop over the sets ends normally in training
mode with `update_code_vec` set, the writer has received exactly one record,
keyed by the key of the set, whose value is the code that the first `<codeat>`
layer holds in the final state, and the write is the last event recorded, after
every bunch of the set; with the code update disabled, or in cross-validation,
the writer is unchanged and no write is recorded. A set whose processing is
aborted writes nothing. And the body does end normally, given fuel for every
utterance, when the set has a code, its labelled utterances have features, the
cache is empty with positive capacity and bunch size, and there is a `<codeat>`
layer or the run is a cross-validation. -/
theorem processSet_writes_code {ω : Type} (P : Collab ω) (o : Options) (inp : Inputs)
    (fuel : Nat) (st : State ω) (set : String × List String) :
    (∀ s1, processSet P o inp fuel st set = .done s1 →
      if (!o.crossvalidate && o.update_code_vec) = true then
        ∃ l0 ls evs, s1.layers_codeat = l0 :: ls
          ∧ s1.code_vec_writer = st.code_vec_writer ++ [(set.1, l0.GetCode)]
          ∧ s1.log = st.log ++ evs ++ [.writeCode set.1 l0.GetCode]
          ∧ ∀ k v, Event.writeCode k v ∉ evs
      else s1.code_vec_writer = st.code_vec_writer
        ∧ ∃ evs, s1.log = st.log ++ evs ∧ ∀ k v, Event.writeCode k v ∉ evs)
    ∧ (∀ f s1, processSet P o inp fuel st set = .fatal f s1 →
        s1.code_vec_writer = st.code_vec_writer
          ∧ ∃ evs, s1.log = st.log ++ evs ∧ ∀ k v, Event.writeCode k v ∉ evs)
    ∧ ((∀ r l, ((P.random_shuffle r l).1).Perm l) → st.cache.data = [] →
        inp.code_vec set.1 ≠ none →
        (∀ u ∈ set.2, inp.alignments u ≠ none → inp.features u ≠ none) →
        (o.crossvalidate = true ∨ st.layers_codeat ≠ []) →
        0 < st.cache.cachesize → 0 < st.cache.bunchsize → set.2.length ≤ fuel →
        ∃ s1, processSet P o inp fuel st set = .done s1) := by
  refine ⟨?_, ?_, fun hshuf hempty hcode hfeat hlayers hcap hbunch hfuel =>
    processSet_done_exists P o inp fuel st set hshuf hempty hcode hfeat hlayers hcap hbunch
      hfuel⟩
  · intro s1 hp
    cases hcode : inp.code_vec set.1 with
    | none =>
      rw [processSet_fatal_of_no_code P o inp fuel st set hcode] at hp
      cases hp
    | some code =>
      obtain ⟨evs, hev, _, hrest⟩ := (processSet_shape P o inp fuel st set code hcode).1 s1 hp
      have hnw : ∀ k v, Event.writeCode k v ∉ (setCodeLoop code 0 st.layers_codeat).2 ++ evs := by
        intro k v hm
        rcases List.mem_append.mp hm with hm | hm
        · rcases setCodeLoop_events code 0 _ _ hm with ⟨i, hi⟩ | ⟨i, hi⟩ <;> cases hi
        · have := hev _ hm
          simp [Event.inLoop] at this
      split
      · rename_i hc
        rw [if_pos hc] at hrest
        obtain ⟨l0, ls, hl, hw, hlog⟩ := hrest
        exact ⟨l0, ls, _, hl, hw, by rw [hlog]; simp only [List.append_assoc], hnw⟩
      · rename_i hc
        rw [if_neg hc] at hrest
        exact ⟨hrest.1, _, by rw [hrest.2, List.append_assoc], hnw⟩
  · intro f s1 hp
    cases hcode : inp.code_vec set.1 with
    | none =>
      rw [processSet_fatal_of_no_code P o inp fuel st set hcode] at hp
      cases hp
      exact ⟨rfl, [], by simp, by simp⟩
    | some code =>
      obtain ⟨evs, hev, hw, hlog⟩ := (processSet_shape P o inp fuel st set code hcode).2 f s1 hp
      refine ⟨hw, _, by rw [hlog, List.append_assoc], ?_⟩
      intro k v hm
      rcases List.mem_append.mp hm with hm | hm
      · rcases setCodeLoop_events code 0 _ _ hm with ⟨i, hi⟩ | ⟨i, hi⟩ <;> cases hi
      · have := hev _ hm
        simp [Event.inLoop] at this

/-- Claim C14 on the examples: the set `A` is processed to its end and the writer
holds one record, under the key `A`, with the code of the first layer. -/
theorem processSet_writes_code_witness :
    ∃ s1 l0 ls, processSet exCollab exOptions exInputs 3 exState ("A", ["u1", "u2", "u3"])
        = .done s1
      ∧ s1.layers_codeat = l0 :: ls
      ∧ s1.code_vec_writer = exState.code_vec_writer ++ [("A", l0.GetCode)] :=
  have hd : ∃ s1, processSet exCollab exOptions exInputs 3 exState ("A", ["u1", "u2", "u3"])
      = .done s1 := ⟨_, rfl⟩
  hd.elim fun s1 hs =>
    have h := (processSet_writes_code exCollab exOptions exInputs 3 exState
      ("A", ["u1", "u2", "u3"])).1 s1 hs
    by
      have h := (if_pos (show (!exOptions.crossvalidate && exOptions.update_code_vec) = true
        from rfl)).mp h
      obtain ⟨l0, ls, _, h1, h2, _⟩ := h
      exact ⟨s1, l0, ls, hs, h1, h2⟩

/-! ## Duplicate keys and the tallies of the summary -/

/-- Claim C15, as stated, fails: on a stream in which the key `A` occurs twice, in
training mode with the code update enabled, the run ends normally and the writer
has received two records under `A`. -/
theorem main_writes_duplicate_key :
    ∃ st, main exCollab exOptions exInputsTwice () 3 = .done st
      ∧ st.code_vec_writer.map Prod.fst = ["A", "A"] :=
  ⟨_, rfl, rfl⟩

/-- Claim C15, amended: `main` makes no duplicate-key check. In training mode with
`update_code_vec` set, a set whose key already has a record in the writer, and
which is processed to its end, has one more record appended under that key, with
the code of the first `<codeat>` layer; and it is processed to its end under the
conditions under which the body of the set loop ends normally, the writer
playing no part in them. -/
theorem processSet_duplicate_key {ω : Type} (P : Collab ω) (o : Options) (inp : Inputs)
    (fuel : Nat) (st : State ω) (set : String × List String)
    (hdup : set.1 ∈ st.code_vec_writer.map Prod.fst)
    (htrain : o.crossvalidate = false) (hucv : o.update_code_vec = true)
    (hshuf : ∀ r l, ((P.random_shuffle r l).1).Perm l) (hempty : st.cache.data = [])
    (hcode : inp.code_vec set.1 ≠ none)
    (hfeat : ∀ u ∈ set.2, inp.alignments u ≠ none → inp.features u ≠ none)
    (hlayers : st.layers_codeat ≠ [])
    (hcap : 0 < st.cache.cachesize) (hbunch : 0 < st.cache.bunchsize)
    (hfuel : set.2.length ≤ fuel) :
    ∃ s1 l0 ls, processSet P o inp fuel st set = .done s1
      ∧ s1.layers_codeat = l0 :: ls
      ∧ s1.code_vec_writer = st.code_vec_writer ++ [(set.1, l0.GetCode)]
      ∧ 2 ≤ (s1.code_vec_writer.map Prod.fst).count set.1 := by
  obtain ⟨s1, hs⟩ := processSet_done_exists P o inp fuel st set hshuf hempty hcode hfeat
    (Or.inr hlayers) hcap hbunch hfuel
  cases hc : inp.code_vec set.1 with
  | none => exact absurd hc hcode
  | some code =>
    obtain ⟨evs, _, _, hrest⟩ := (processSet_shape P o inp fuel st set code hc).1 s1 hs
    simp only [htrain, hucv, Bool.not_false, Bool.and_self, if_true] at hrest
    obtain ⟨l0, ls, hl, hw, _⟩ := hrest
    refine ⟨s1, l0, ls, hs, hl, hw, ?_⟩
    have h1 : 0 < (st.code_vec_writer.map Prod.fst).count set.1 :=
      List.count_pos_iff.mpr hdup
    rw [hw]
    simp only [List.map_append, List.map_cons, List.map_nil, List.count_append,
      List.count_cons_self, List.count_nil]
    omega

/-- The amended claim C15 on the examples: the writer holds a record under `A`,
the set `A` is processed once more, and a second record under `A` is appended. -/
theorem processSet_duplicate_key_witness :
    "A" ∈ exStateWritten.code_vec_writer.map Prod.fst
      ∧ ∃ s1 l0 ls, processSet exCollab exOptions exInputs 3 exStateWritten
            ("A", ["u1", "u2", "u3"]) = .done s1
          ∧ s1.layers_codeat = l0 :: ls
          ∧ s1.code_vec_writer = [("A", [0, 0]), ("A", l0.GetCode)] :=
  ⟨by decide,
    (processSet_duplicate_key exCollab exOptions exInputs 3 exStateWritten
      ("A", ["u1", "u2", "u3"]) (by decide) rfl rfl (fun _ l => List.reverse_perm l) rfl
      (by decide) (by decide) (by decide) (by decide) (by decide) (by decide)).imp
      fun _ h => h.imp fun _ h => h.imp fun _ h => ⟨h.1, h.2.1, h.2.2.1⟩⟩

/-- Claim C20, as stated, fails: a run over one utterance that is too long (`u6`,
6 frames against `max_frames = 5`) and a run over one utterance whose labels do
not match its frames (`u7`) end with the same summary, one file with other
errors: the two reasons share the counter `num_other_error`. -/
theorem summary_merges_skip_reasons :
    ∃ sa sb,
      main exCollab exOptionsFive { exInputsSkip with set2utt := [("A", ["u6"])] } () 3
          = .done sa
        ∧ main exCollab exOptionsFive { exInputsSkip with set2utt := [("A", ["u7"])] } () 3
          = .done sb
        ∧ summaryReport sa = (0, 0, 1) ∧ summaryReport sb = (0, 0, 1) :=
  ⟨_, _, rfl, rfl, rfl, rfl⟩

/-- Claim C20, amended: the tallies distinguish two skip reasons. An utterance
without labels increments `num_no_alignments` only; an utterance with more than
`max_frames` frames and an utterance whose label count differs from its frame
count both increment `num_other_error` only; these, with the files done, are the
three numbers of the final summary. -/
theorem fillStep_tallies {ω : Type} (P : Collab ω) (o : Options) (inp : Inputs)
    (st : State ω) (utt : String) :
    (inp.alignments utt = none →
      ∃ s1, fillStep P o inp st utt = .done s1
        ∧ summaryReport s1 = (st.num_done, st.num_no_alignments + 1, st.num_other_error))
    ∧ (∀ alignment mat, inp.alignments utt = some alignment → inp.features utt = some mat →
        NumRows mat > o.max_frames →
        ∃ s1, fillStep P o inp st utt = .done s1
          ∧ summaryReport s1 = (st.num_done, st.num_no_alignments, st.num_other_error + 1))
    ∧ (∀ alignment mat, inp.alignments utt = some alignment → inp.features utt = some mat →
        toInt32 (alignment.length : Int) ≠ NumRows mat →
        ∃ s1, fillStep P o inp st utt = .done s1
          ∧ summaryReport s1 = (st.num_done, st.num_no_alignments, st.num_other_error + 1)) := by
  refine ⟨fun h => ?_, fun a m ha hm h => ?_, fun a m ha hm h => ?_⟩
  · exact ⟨_, fillStep_no_alignment P o inp st utt h, rfl⟩
  · exact ⟨_, fillStep_other_error P o inp st utt a m ha hm (Or.inl h), rfl⟩
  · exact ⟨_, fillStep_other_error P o inp st utt a m ha hm (Or.inr h), rfl⟩

/-- The amended claim C20 on the examples: `u6` is too long and `u7` has labels
that do not match; each adds one to `num_other_error` and to nothing else. -/
theorem fillStep_tallies_witness :
    (∃ s1, fillStep exCollab exOptionsFive exInputsSkip exState "u6" = .done s1
        ∧ summaryReport s1 = (0, 0, 1))
      ∧ ∃ s1, fillStep exCollab exOptionsFive exInputsSkip exState "u7" = .done s1
        ∧ summaryReport s1 = (0, 0, 1) :=
  ⟨(fillStep_tallies exCollab exOptionsFive exInputsSkip exState "u6").2.1
      [0, 1, 2, 3, 4, 5] (List.replicate 6 [1]) rfl rfl (by decide),
    (fillStep_tallies exCollab exOptionsFive exInputsSkip exState "u7").2.2
      [0, 1, 2] (List.replicate 2 [2]) rfl rfl (by decide)⟩

/-! ## Independence of the generator -/

theorem fillLoop_withRandom {ω : Type} (P : Collab ω) (o : Options) (inp : Inputs)
    (rs : Int → List String → List String × Int) (rz : Int → List Entry → List Entry × Int)
    (st : State ω) (utts : List String) :
    fillLoop (P.withRandom rs rz) o inp st utts = fillLoop P o inp st utts := by
  induction utts generalizing st with
  | nil => rfl
  | cons utt rest ih =>
    unfold fillLoop
    have hstep : fillStep (P.withRandom rs rz) o inp st utt = fillStep P o inp st utt := rfl
    rw [hstep]
    split
    · rfl
    · cases fillStep P o inp st utt with
      | done s => exact ih s
      | fatal f s => rfl
      | diverge => rfl

theorem drainLoop_withRandom {ω : Type} (P : Collab ω) (o : Options)
    (rs : Int → List String → List String × Int) (rz : Int → List Entry → List Entry × Int)
    (n : Nat) (st : State ω) :
    drainLoop (P.withRandom rs rz) o n st = drainLoop P o n st := by
  induction n generalizing st with
  | zero => rfl
  | succ n ih =>
    unfold drainLoop
    have hstep : trainBunch (P.withRandom rs rz) o st = trainBunch P o st := rfl
    rw [hstep]
    split
    · rfl
    · cases trainBunch P o st with
      | done s => exact ih s
      | fatal f s => rfl
      | diverge => rfl

theorem randomizeStep_off {ω : Type} (P : Collab ω) (o : Options) (st : State ω)
    (hr : o.randomize = false) : randomizeStep P o st = st := by
  simp [randomizeStep, hr]

theorem uttLoop_withRandom {ω : Type} (P : Collab ω) (o : Options) (inp : Inputs)
    (rs : Int → List String → List String × Int) (rz : Int → List Entry → List Entry × Int)
    (hr : o.randomize = false) (fuel : Nat) (st : State ω) (utts : List String) :
    uttLoop (P.withRandom rs rz) o inp fuel st utts = uttLoop P o inp fuel st utts := by
  induction fuel generalizing st utts with
  | zero => cases utts <;> rfl
  | succ fuel ih =>
    cases utts with
    | nil => rfl
    | cons utt rest =>
      unfold uttLoop
      rw [fillLoop_withRandom]
      cases fillLoop P o inp st (utt :: rest) with
      | fatal f s => rfl
      | diverge => rfl
      | done s =>
        simp only [randomizeStep_off _ o _ hr, drainLoop_withRandom]
        cases drainLoop P o s.1.cache.data.length s.1 with
        | done s3 => exact ih s3 s.2
        | fatal f s3 => rfl
        | diverge => rfl

theorem processSet_withRandom {ω : Type} (P : Collab ω) (o : Options) (inp : Inputs)
    (rs : Int → List String → List String × Int) (rz : Int → List Entry → List Entry × Int)
    (hs : o.shuffle = false) (hr : o.randomize = false) (fuel : Nat) (st : State ω)
    (set : String × List String) :
    processSet (P.withRandom rs rz) o inp fuel st set = processSet P o inp fuel st set := by
  unfold processSet
  cases inp.code_vec set.1 with
  | none => rfl
  | some code =>
    simp only [hs, Bool.false_eq_true, if_false, uttLoop_withRandom P o inp rs rz hr]

theorem setsLoop_withRandom {ω : Type} (P : Collab ω) (o : Options) (inp : Inputs)
    (rs : Int → List String → List String × Int) (rz : Int → List Entry → List Entry × Int)
    (hs : o.shuffle = false) (hr : o.randomize = false) (fuel : Nat) (st : State ω)
    (sets : List (String × List String)) :
    setsLoop (P.withRandom rs rz) o inp fuel st sets = setsLoop P o inp fuel st sets := by
  induction sets generalizing st with
  | nil => rfl
  | cons set sets ih =>
    unfold setsLoop
    rw [processSet_withRandom P o inp rs rz hs hr]
    cases processSet P o inp fuel st set with
    | done s => exact ih s
    | fatal f s => rfl
    | diverge => rfl

/-- Claim C19: with `shuffle` and `randomize` disabled a run does not draw on the
`rand` generator. Two runs over the same inputs, options (seed included) and
numeric collaborators end in the same way and in the same state, with the same
log (hence the same sequence of `UpdateCode` calls for every set) and the same
records in the code writer, whatever reorderings the generator would have
produced in either run. -/
theorem main_deterministic {ω : Type} (P : Collab ω) (o : Options) (inp : Inputs) (net : ω)
    (fuel : Nat) (rs rs' : Int → List String → List String × Int)
    (rz rz' : Int → List Entry → List Entry × Int)
    (hs : o.shuffle = false) (hr : o.randomize = false) :
    main (P.withRandom rs rz) o inp net fuel = main (P.withRandom rs' rz') o inp net fuel := by
  unfold main
  simp only [setsLoop_withRandom P o inp rs rz hs hr, setsLoop_withRandom P o inp rs' rz' hs hr]

/-- Claim C19 on the examples: the run over the set `A` is the same whether the
generator reverses or keeps the order of what it is given. -/
theorem main_deterministic_witness :
    exOptions.shuffle = false ∧ exOptions.randomize = false
      ∧ main (exCollab.withRandom (fun r l => (l.reverse, r + 1))
            (fun r d => (d.reverse, r + 1))) exOptions exInputsA () 3
        = main (exCollab.withRandom (fun r l => (l, r)) (fun r d => (d, r)))
            exOptions exInputsA () 3 :=
  ⟨rfl, rfl, main_deterministic exCollab exOptions exInputsA () 3 _ _ _ _ rfl rfl⟩

/-! ## Sets without a valid utterance -/

theorem Idle.step {ω : Type} {st s s1 : State ω} (new : List Event) (h : Idle st s)
    (hd : s1.cache.data = []) (ht : s1.total_frames = s.total_frames)
    (hl : s1.layers_codeat = s.layers_codeat) (hlog : s1.log = s.log ++ new)
    (hnew : ∀ e ∈ new, (∃ u, e = Event.readFeatures u) ∨ e = Event.randomizeCache) :
    Idle st s1 := by
  obtain ⟨_, h2, h3, evs, h4, h5⟩ := h
  refine ⟨hd, ht.trans h2, hl.trans h3, evs ++ new, by rw [hlog, h4, List.append_assoc], ?_⟩
  intro e he
  rcases List.mem_append.mp he with he | he
  · exact h5 e he
  · exact hnew e he

theorem fillStep_idle {ω : Type} (P : Collab ω) (o : Options) (inp : Inputs)
    (st s : State ω) (utt : String) (hv : validUtt o inp utt = false) (h : Idle st s) :
    (fillStep P o inp s utt).Holds (Idle st) := by
  cases hal : inp.alignments utt with
  | none =>
    rw [fillStep_no_alignment P o inp s utt hal]
    exact h.step [] h.1 rfl rfl (by simp) (by simp)
  | some alignment =>
    cases hfeat : inp.features utt with
    | none =>
      rw [fillStep_no_features P o inp s utt alignment hal hfeat]
      exact h
    | some mat =>
      have hrej : NumRows mat > o.max_frames
          ∨ toInt32 (alignment.length : Int) ≠ NumRows mat := by
        simp only [validUtt, hal, hfeat, Bool.and_eq_false_iff, decide_eq_false_iff_not] at hv
        rcases hv with hv | hv
        · exact Or.inl (not_le.mp hv)
        · exact Or.inr hv
      rw [fillStep_other_error P o inp s utt alignment mat hal hfeat hrej]
      exact h.step [.readFeatures utt] h.1 rfl rfl rfl (by simp)

theorem fillLoop_idle {ω : Type} (P : Collab ω) (o : Options) (inp : Inputs)
    (st : State ω) (utts : List String) (s : State ω)
    (hv : ∀ u ∈ utts, validUtt o inp u = false) (h : Idle st s) :
    (fillLoop P o inp s utts).Holds
      (fun r => Idle st r.1 ∧ ∀ u ∈ r.2, validUtt o inp u = false) := by
  induction utts generalizing s with
  | nil => exact ⟨h, by simp⟩
  | cons utt rest ih =>
    unfold fillLoop
    split
    · exact ⟨h, hv⟩
    · have hs := fillStep_idle P o inp st s utt (hv utt (by simp)) h
      cases hr : fillStep P o inp s utt with
      | done s1 =>
        rw [hr] at hs
        exact ih s1 (fun u hu => hv u (List.mem_cons_of_mem _ hu)) hs
      | fatal f s1 =>
        rw [hr] at hs
        exact ⟨hs, hv⟩
      | diverge => trivial

theorem randomizeStep_idle {ω : Type} (P : Collab ω) (o : Options)
    (hrand : ∀ r d, ((P.Randomize r d).1).Perm d) (st s : State ω) (h : Idle st s) :
    Idle st (randomizeStep P o s) := by
  unfold randomizeStep
  split
  · refine h.step [.randomizeCache] ?_ rfl rfl rfl (by simp)
    simp only [Cache.Randomize]
    exact List.Perm.eq_nil ((hrand s.rng s.cache.data).trans (List.Perm.of_eq h.1))
  · exact h

theorem drainLoop_of_empty {ω : Type} (P : Collab ω) (o : Options) (n : Nat) (s : State ω)
    (h : s.cache.data = []) : drainLoop P o n s = .done s := by
  cases n <;> simp [drainLoop, Cache.Empty, h]

theorem uttLoop_idle {ω : Type} (P : Collab ω) (o : Options) (inp : Inputs)
    (hrand : ∀ r d, ((P.Randomize r d).1).Perm d) (st : State ω) (fuel : Nat)
    (s : State ω) (utts : List String)
    (hv : ∀ u ∈ utts, validUtt o inp u = false) (h : Idle st s) :
    (uttLoop P o inp fuel s utts).Holds (Idle st) := by
  induction fuel generalizing s utts with
  | zero =>
    cases utts with
    | nil => exact h
    | cons utt rest => trivial
  | succ fuel ih =>
    cases utts with
    | nil => exact h
    | cons utt rest =>
      unfold uttLoop
      have hf := fillLoop_idle P o inp st (utt :: rest) s hv h
      cases hr : fillLoop P o inp s (utt :: rest) with
      | fatal f r => rw [hr] at hf; exact hf.1
      | diverge => trivial
      | done r =>
        rw [hr] at hf
        have hz := randomizeStep_idle P o hrand st r.1 hf.1
        simp only
        rw [drainLoop_of_empty P o _ _ hz.1]
        exact ih _ r.2 hf.2 hz

/-- Claim C17: for a set, entered with an empty cache, none of whose utterances
passes the checks of the fill step (an empty utterance list included), the state
in which its processing ends has the total of frames it started with, and no
bunch, no forward or backward pass and no `UpdateCode` call was recorded. And the
processing does end, normally, given fuel for every utterance, when the set has a
code, its labelled utterances have features and the cache has positive capacity
and bunch size (and there is a `<codeat>` layer if the code is to be written). -/
theorem processSet_no_valid_utterance {ω : Type} (P : Collab ω) (o : Options) (inp : Inputs)
    (fuel : Nat) (st : State ω) (set : String × List String)
    (hshuf : ∀ r l, ((P.random_shuffle r l).1).Perm l)
    (hrand : ∀ r d, ((P.Randomize r d).1).Perm d)
    (hempty : st.cache.data = [])
    (hv : ∀ u ∈ set.2, validUtt o inp u = false) :
    (processSet P o inp fuel st set).Holds (fun s1 =>
      s1.total_frames = st.total_frames
        ∧ ∃ evs, s1.log = st.log ++ evs
          ∧ ∀ e ∈ evs, (∀ b, e ≠ .getBunch b) ∧ e ≠ .propagate ∧ e ≠ .backpropagate
              ∧ ∀ c g, e ≠ .updateCode c g)
    ∧ (inp.code_vec set.1 ≠ none →
        (∀ u ∈ set.2, inp.alignments u ≠ none → inp.features u ≠ none) →
        (o.crossvalidate = true ∨ st.layers_codeat ≠ []) →
        0 < st.cache.cachesize → 0 < st.cache.bunchsize → set.2.length ≤ fuel →
        ∃ s1, processSet P o inp fuel st set = .done s1) := by
  refine ⟨?_, fun hcode hfeat hlayers hcap hbunch hfuel =>
    processSet_done_exists P o inp fuel st set hshuf hempty hcode hfeat hlayers hcap hbunch
      hfuel⟩
  have hperm : ((if o.shuffle then P.random_shuffle st.rng set.2 else (set.2, st.rng)).1).Perm
      set.2 := by
    split
    · exact hshuf _ _
    · exact List.Perm.refl _
  unfold processSet
  cases hcode : inp.code_vec set.1 with
  | none => exact ⟨rfl, [], by simp, by simp⟩
  | some code =>
    simp only
    generalize (if o.shuffle then P.random_shuffle st.rng set.2 else (set.2, st.rng)) = uttlst
      at hperm
    have hsc : ∀ e ∈ (setCodeLoop code 0 st.layers_codeat).2,
        (∀ b, e ≠ .getBunch b) ∧ e ≠ .propagate ∧ e ≠ .backpropagate
          ∧ ∀ c g, e ≠ .updateCode c g := by
      intro e he
      rcases setCodeLoop_events code 0 _ e he with ⟨i, rfl⟩ | ⟨i, rfl⟩ <;> simp
    have hidle : ∀ e : Event, ((∃ u, e = Event.readFeatures u) ∨ e = Event.randomizeCache) →
        (∀ b, e ≠ .getBunch b) ∧ e ≠ .propagate ∧ e ≠ .backpropagate
          ∧ ∀ c g, e ≠ .updateCode c g := by
      rintro e (⟨u, rfl⟩ | rfl) <;> simp
    have hu := uttLoop_idle P o inp hrand
      ({ st with num_set := st.num_set + 1,
                 layers_codeat := (setCodeLoop code 0 st.layers_codeat).1,
                 rng := uttlst.2,
                 log := st.log ++ (setCodeLoop code 0 st.layers_codeat).2 } : State ω) fuel
      ({ st with num_set := st.num_set + 1,
                 layers_codeat := (setCodeLoop code 0 st.layers_codeat).1,
                 rng := uttlst.2,
                 log := st.log ++ (setCodeLoop code 0 st.layers_codeat).2 } : State ω)
      uttlst.1 (fun u hu => hv u (hperm.mem_iff.mp hu))
      ⟨hempty, rfl, rfl, [], by simp, by simp⟩
    revert hu
    cases uttLoop P o inp fuel _ uttlst.1 with
    | diverge => exact fun _ => trivial
    | fatal f s2 =>
      rintro ⟨_, ht, _, evs, hlog, hev⟩
      refine ⟨ht, _, by rw [hlog, List.append_assoc], ?_⟩
      intro e he
      rcases List.mem_append.mp he with he | he
      · exact hsc e he
      · exact hidle e (hev e he)
    | done s2 =>
      rintro ⟨_, ht, _, evs, hlog, hev⟩
      have hall : ∀ e ∈ (setCodeLoop code 0 st.layers_codeat).2 ++ evs,
          (∀ b, e ≠ .getBunch b) ∧ e ≠ .propagate ∧ e ≠ .backpropagate
            ∧ ∀ c g, e ≠ .updateCode c g := by
        intro e he
        rcases List.mem_append.mp he with he | he
        · exact hsc e he
        · exact hidle e (hev e he)
      simp only
      split
      · split
        · exact ⟨ht, _, by rw [hlog, List.append_assoc], hall⟩
        · rename_i l0 ls _
          refine ⟨ht, (setCodeLoop code 0 st.layers_codeat).2 ++ evs
            ++ [.writeCode set.1 l0.GetCode], by simp only [hlog, List.append_assoc], ?_⟩
          intro e he
          rcases List.mem_append.mp he with he | he
          · exact hall e he
          · simp only [List.mem_singleton] at he
            subst he
            simp
      · exact ⟨ht, _, by rw [hlog, List.append_assoc], hall⟩

/-- Claim C17 on the examples: with `max_frames` 5, the set with the utterances
`u6` (6 frames) and `u7` (2 frames, 3 labels) is processed to its end, the total
of frames stays 0, and no bunch, pass or `UpdateCode` call is recorded. -/
theorem processSet_no_valid_utterance_witness :
    ∃ s1, processSet exCollab exOptionsFive exInputsSkip 2 exState ("A", ["u6", "u7"])
        = .done s1
      ∧ s1.total_frames = 0
      ∧ ∃ evs, s1.log = exState.log ++ evs
        ∧ ∀ e ∈ evs, (∀ b, e ≠ .getBunch b) ∧ e ≠ .propagate ∧ e ≠ .backpropagate
            ∧ ∀ c g, e ≠ .updateCode c g := by
  have h := processSet_no_valid_utterance exCollab exOptionsFive exInputsSkip 2 exState
    ("A", ["u6", "u7"]) (fun _ l => List.reverse_perm l)
    (fun _ d => List.reverse_perm d) rfl (by decide)
  obtain ⟨s1, hs⟩ := h.2 (by decide) (by decide) (Or.inr (by decide)) (by decide)
    (by decide) (by decide)
  have h1 := h.1
  rw [hs] at h1
  exact ⟨s1, hs, h1⟩

/-! ## The flow of frames through the cache -/

theorem addedFrames_append (l1 l2 : List Event) :
    addedFrames (l1 ++ l2) = addedFrames l1 ++ addedFrames l2 := by
  induction l1 with
  | nil => rfl
  | cons e es ih => cases e <;> simp [addedFrames, ih]

theorem takenFrames_append (l1 l2 : List Event) :
    takenFrames (l1 ++ l2) = takenFrames l1 ++ takenFrames l2 := by
  induction l1 with
  | nil => rfl
  | cons e es ih => cases e <;> simp [takenFrames, ih]

theorem bunchRows_append (l1 l2 : List Event) :
    bunchRows (l1 ++ l2) = bunchRows l1 ++ bunchRows l2 := by
  induction l1 with
  | nil => rfl
  | cons e es ih => cases e <;> simp [bunchRows, ih]

theorem bunchRows_sum (l : List Event) : (bunchRows l).sum = (takenFrames l).length := by
  induction l with
  | nil => rfl
  | cons e es ih => cases e <;> simp [bunchRows, takenFrames, ih]

theorem addedFrames_eq_nil (l : List Event) (h : ∀ u fr, Event.addData u fr ∉ l) :
    addedFrames l = [] := by
  induction l with
  | nil => rfl
  | cons e es ih =>
    have ih' := ih (fun u fr hm => h u fr (List.mem_cons_of_mem _ hm))
    cases e with
    | addData u fr => exact absurd (List.mem_cons_self _ _) (h u fr)
    | _ => simpa [addedFrames] using ih'

theorem takenFrames_eq_nil (l : List Event) (h : ∀ b, Event.getBunch b ∉ l) :
    takenFrames l = [] ∧ bunchRows l = [] := by
  induction l with
  | nil => exact ⟨rfl, rfl⟩
  | cons e es ih =>
    have ih' := ih (fun b hm => h b (List.mem_cons_of_mem _ hm))
    cases e with
    | getBunch b => exact absurd (List.mem_cons_self _ _) (h b)
    | _ => simpa [takenFrames, bunchRows] using ih'

theorem mem_getBunch_of_bunchRows (l : List Event) (b : List Entry)
    (h : Event.getBunch b ∈ l) : b.length ∈ bunchRows l := by
  induction l with
  | nil => cases h
  | cons e es ih =>
    rcases List.mem_cons.mp h with rfl | h
    · simp [bunchRows]
    · have := ih h
      cases e <;> simp [bunchRows, this]

theorem Flow.nil {ω : Type} (st : State ω) : Flow st st [] :=
  ⟨by simp, by simp [takenFrames], rfl, rfl, by simp⟩

theorem Flow.append {ω : Type} {st s1 s2 : State ω} {e1 e2 : List Event}
    (h1 : Flow st s1 e1) (h2 : Flow s1 s2 e2) : Flow st s2 (e1 ++ e2) := by
  obtain ⟨a1, a2, a3, a4, a5⟩ := h1
  obtain ⟨b1, b2, b3, b4, b5⟩ := h2
  refine ⟨by rw [b1, a1, List.append_assoc], ?_, b3.trans a3, b4.trans a4, ?_⟩
  · rw [b2, a2, takenFrames_append, List.length_append]
    omega
  · intro b hb
    rcases List.mem_append.mp hb with hb | hb
    · exact a5 b hb
    · have := b5 b hb
      rwa [a3] at this

theorem fillStep_done_flow {ω : Type} (P : Collab ω) (o : Options) (inp : Inputs)
    (st s1 : State ω) (utt : String) (h : fillStep P o inp st utt = .done s1) :
    ∃ evs, Flow st s1 evs ∧ addedFrames evs = acceptedEntries P o inp utt
      ∧ (∀ b, Event.getBunch b ∉ evs)
      ∧ s1.cache.data = st.cache.data ++ acceptedEntries P o inp utt := by
  cases hal : inp.alignments utt with
  | none =>
    rw [fillStep_no_alignment P o inp st utt hal] at h
    cases h
    exact ⟨[], Flow.nil _, by simp [addedFrames, acceptedEntries, hal], by simp,
      by simp [acceptedEntries, hal]⟩
  | some alignment =>
    cases hfeat : inp.features utt with
    | none =>
      rw [fillStep_no_features P o inp st utt alignment hal hfeat] at h
      cases h
    | some mat =>
      by_cases hrej : NumRows mat > o.max_frames
          ∨ toInt32 (alignment.length : Int) ≠ NumRows mat
      · have hv : validUtt o inp utt = false := by
          simp only [validUtt, hal, hfeat, Bool.and_eq_false_iff, decide_eq_false_iff_not]
          rcases hrej with h1 | h1
          · exact Or.inl (not_le.mpr h1)
          · exact Or.inr h1
        rw [fillStep_other_error P o inp st utt alignment mat hal hfeat hrej] at h
        cases h
        refine ⟨[.readFeatures utt], ⟨rfl, by simp [takenFrames], rfl, rfl, by simp⟩, ?_,
          by simp, ?_⟩
        · simp [addedFrames, acceptedEntries, hal, hfeat, hv]
        · simp [acceptedEntries, hal, hfeat, hv]
      · push_neg at hrej
        have hv : validUtt o inp utt = true := by
          simp only [validUtt, hal, hfeat, Bool.and_eq_true, decide_eq_true_eq]
          exact hrej
        cases hfull : st.cache.Full with
        | true =>
          have h1 : ¬ NumRows mat > o.max_frames := not_lt.mpr hrej.1
          simp [fillStep, hal, hfeat, h1, hrej.2, Cache.AddData, hfull] at h
        | false =>
          rw [fillStep_add P o inp st utt alignment mat hal hfeat hrej.1 hrej.2 hfull] at h
          cases h
          refine ⟨[.readFeatures utt, .addData utt ((P.Feedforward mat).zip alignment)],
            ⟨rfl, by simp [takenFrames], rfl, rfl, by simp⟩, ?_, by simp, ?_⟩
          · simp [addedFrames, acceptedEntries, hal, hfeat, hv]
          · simp [acceptedEntries, hal, hfeat, hv]

theorem fillLoop_done_flow {ω : Type} (P : Collab ω) (o : Options) (inp : Inputs)
    (utts : List String) (st s1 : State ω) (rest : List String)
    (h : fillLoop P o inp st utts = .done (s1, rest)) :
    ∃ consumed evs, utts = consumed ++ rest ∧ Flow st s1 evs
      ∧ addedFrames evs = consumed.flatMap (acceptedEntries P o inp)
      ∧ (∀ b, Event.getBunch b ∉ evs)
      ∧ s1.cache.data = st.cache.data ++ consumed.flatMap (acceptedEntries P o inp)
      ∧ (rest = [] ∨ s1.cache.Full = true) := by
  induction utts generalizing st with
  | nil =>
    simp only [fillLoop] at h
    cases h
    exact ⟨[], [], rfl, Flow.nil _, rfl, by simp, by simp, Or.inl rfl⟩
  | cons utt us ih =>
    unfold fillLoop at h
    split at h
    · rename_i hfull
      cases h
      exact ⟨[], [], rfl, Flow.nil _, rfl, by simp, by simp, Or.inr hfull⟩
    · cases hs : fillStep P o inp st utt with
      | done s0 =>
        rw [hs] at h
        obtain ⟨e0, f0, a0, g0, d0⟩ := fillStep_done_flow P o inp st s0 utt hs
        obtain ⟨consumed, e1, c1, f1, a1, g1, d1, x1⟩ := ih s0 h
        refine ⟨utt :: consumed, e0 ++ e1, by rw [c1]; rfl, f0.append f1, ?_, ?_, ?_, x1⟩
        · rw [addedFrames_append, a0, a1, List.flatMap_cons]
        · intro b hb
          rcases List.mem_append.mp hb with hb | hb
          · exact g0 b hb
          · exact g1 b hb
        · rw [d1, d0, List.flatMap_cons, List.append_assoc]
      | fatal f s0 => rw [hs] at h; cases h
      | diverge => rw [hs] at h; cases h

theorem updateCodeLoop_no_bunch (rule : Vec → Vec → Vec → Vec × Vec) (g : Vec) (c : Nat)
    (ls : List CodeAT) (b : List Entry) :
    Event.getBunch b ∉ (updateCodeLoop rule g c ls).2
      ∧ ∀ u fr, Event.addData u fr ∉ (updateCodeLoop rule g c ls).2 := by
  rw [updateCodeLoop_events]
  simp

theorem trainBunch_done_flow {ω : Type} (P : Collab ω) (o : Options) (st s1 : State ω)
    (h : trainBunch P o st = .done s1) :
    ∃ evs, Flow st s1 evs ∧ (∀ u fr, Event.addData u fr ∉ evs)
      ∧ takenFrames evs = st.cache.data.take st.cache.bunchsize.toNat
      ∧ bunchRows evs = [(st.cache.data.take st.cache.bunchsize.toNat).length]
      ∧ s1.cache.data = st.cache.data.drop st.cache.bunchsize.toNat := by
  have hle : (st.cache.data.take st.cache.bunchsize.toNat).length
      ≤ st.cache.bunchsize.toNat := by
    rw [List.length_take]
    exact Nat.min_le_left _ _
  unfold trainBunch at h
  simp only at h
  split at h
  · cases h
    refine ⟨_, ⟨rfl, by simp [takenFrames, Cache.GetBunch], rfl, rfl, ?_⟩, by simp,
      by simp [takenFrames, Cache.GetBunch], by simp [bunchRows, Cache.GetBunch], rfl⟩
    intro b hb
    simp only [List.mem_cons, Event.getBunch.injEq, reduceCtorEq, List.not_mem_nil,
      or_false] at hb
    subst hb
    exact hle
  · split at h
    · cases h
    · cases h
      rename_i g _
      have hnb := updateCodeLoop_no_bunch P.UpdateCode g 0
        (setCodeDiff (P.Backpropagate
          (P.Propagate st.net st.layers_codeat st.cache.GetBunch.1) st.layers_codeat
          st.cache.GetBunch.1).2 0 st.layers_codeat)
      have ht := takenFrames_eq_nil _ (fun b => (hnb b).1)
      refine ⟨_, ⟨List.append_assoc _ _ _, ?_, rfl, rfl, ?_⟩, ?_, ?_, ?_, rfl⟩
      · rw [takenFrames_append, ht.1]
        simp [takenFrames]
      · intro b hb
        rcases List.mem_append.mp hb with hb | hb
        · simp only [List.mem_cons, Event.getBunch.injEq, reduceCtorEq, List.not_mem_nil,
            or_false] at hb
          subst hb
          exact hle
        · exact absurd hb (hnb b).1
      · intro u fr hb
        rcases List.mem_append.mp hb with hb | hb
        · simp at hb
        · exact (hnb []).2 u fr hb
      · rw [takenFrames_append, ht.1]
        simp [takenFrames]
        rfl
      · rw [bunchRows_append, ht.2]
        simp [bunchRows, Cache.GetBunch]

theorem drainLoop_done_flow {ω : Type} (P : Collab ω) (o : Options) (n : Nat)
    (st s1 : State ω) (h : drainLoop P o n st = .done s1) :
    ∃ evs, Flow st s1 evs ∧ (∀ u fr, Event.addData u fr ∉ evs)
      ∧ takenFrames evs = st.cache.data ∧ s1.cache.data = [] := by
  induction n generalizing st with
  | zero =>
    unfold drainLoop at h
    split at h
    · rename_i he
      have hd : st.cache.data = [] := by simpa [Cache.Empty] using he
      cases h
      exact ⟨[], Flow.nil _, by simp, by simp [takenFrames, hd], hd⟩
    · cases h
  | succ n ih =>
    unfold drainLoop at h
    split at h
    · rename_i he
      have hd : st.cache.data = [] := by simpa [Cache.Empty] using he
      cases h
      exact ⟨[], Flow.nil _, by simp, by simp [takenFrames, hd], hd⟩
    · cases hs : trainBunch P o st with
      | done s0 =>
        rw [hs] at h
        obtain ⟨e0, f0, a0, t0, _, d0⟩ := trainBunch_done_flow P o st s0 hs
        obtain ⟨e1, f1, a1, t1, d1⟩ := ih s0 h
        refine ⟨e0 ++ e1, f0.append f1, ?_, ?_, d1⟩
        · intro u fr hm
          rcases List.mem_append.mp hm with hm | hm
          · exact a0 u fr hm
          · exact a1 u fr hm
        · rw [takenFrames_append, t0, t1, d0, List.take_append_drop]
      | fatal f s0 => rw [hs] at h; cases h
      | diverge => rw [hs] at h; cases h

theorem drainLoop_done_rows {ω : Type} (P : Collab ω) (o : Options) (n : Nat)
    (st s1 : State ω) (hb : 0 < st.cache.bunchsize.toNat)
    (h : drainLoop P o n st = .done s1) :
    ∃ evs k r, s1.log = st.log ++ evs
      ∧ bunchRows evs
          = List.replicate k st.cache.bunchsize.toNat ++ (if r = 0 then [] else [r])
      ∧ r < st.cache.bunchsize.toNat
      ∧ st.cache.data.length = k * st.cache.bunchsize.toNat + r := by
  induction n generalizing st with
  | zero =>
    unfold drainLoop at h
    split at h
    · rename_i he
      have hd : st.cache.data = [] := by simpa [Cache.Empty] using he
      cases h
      exact ⟨[], 0, 0, by simp, by simp [bunchRows], hb, by simp [hd]⟩
    · cases h
  | succ n ih =>
    unfold drainLoop at h
    split at h
    · rename_i he
      have hd : st.cache.data = [] := by simpa [Cache.Empty] using he
      cases h
      exact ⟨[], 0, 0, by simp, by simp [bunchRows], hb, by simp [hd]⟩
    · rename_i he
      have hne : st.cache.data ≠ [] := by simpa [Cache.Empty] using he
      have hpos : 0 < st.cache.data.length := List.length_pos.mpr hne
      cases hs : trainBunch P o st with
      | done s0 =>
        rw [hs] at h
        obtain ⟨e0, f0, _, _, r0, d0⟩ := trainBunch_done_flow P o st s0 hs
        have hb0 : s0.cache.bunchsize.toNat = st.cache.bunchsize.toNat := by rw [f0.2.2.1]
        obtain ⟨e1, k1, r1, l1, w1, x1, y1⟩ := ih s0 (by rw [hb0]; exact hb) h
        rw [hb0] at w1 x1 y1
        rw [d0, List.length_drop] at y1
        rw [List.length_take] at r0
        by_cases hge : st.cache.bunchsize.toNat ≤ st.cache.data.length
        · refine ⟨e0 ++ e1, k1 + 1, r1, by rw [l1, f0.1, List.append_assoc], ?_, x1, ?_⟩
          · rw [bunchRows_append, r0, w1, Nat.min_eq_left hge, List.replicate_succ]
            rfl
          · rw [Nat.add_mul]
            omega
        · have hlt : st.cache.data.length < st.cache.bunchsize.toNat := not_le.mp hge
          have hz : k1 * st.cache.bunchsize.toNat + r1 = 0 := by omega
          have hk : k1 = 0 := by
            rcases Nat.eq_zero_or_pos k1 with hk | hk
            · exact hk
            · have := Nat.mul_le_mul_right st.cache.bunchsize.toNat hk
              omega
          have hr : r1 = 0 := by
            rw [hk] at hz
            omega
          refine ⟨e0 ++ e1, 0, st.cache.data.length, by rw [l1, f0.1, List.append_assoc], ?_,
            hlt, by simp⟩
          rw [bunchRows_append, r0, w1, hk, hr, Nat.min_eq_right (le_of_lt hlt)]
          have : ¬ st.cache.data.length = 0 := by omega
          simp [this]
      | fatal f s0 => rw [hs] at h; cases h
      | diverge => rw [hs] at h; cases h

theorem randomizeStep_flow {ω : Type} (P : Collab ω) (o : Options)
    (hrand : ∀ r d, ((P.Randomize r d).1).Perm d) (s : State ω) :
    ∃ evs, Flow s (randomizeStep P o s) evs ∧ (∀ u fr, Event.addData u fr ∉ evs)
      ∧ (∀ b, Event.getBunch b ∉ evs)
      ∧ ((randomizeStep P o s).cache.data).Perm s.cache.data := by
  unfold randomizeStep
  split
  · exact ⟨[.randomizeCache], ⟨rfl, by simp [takenFrames], rfl, rfl, by simp⟩, by simp,
      by simp, hrand _ _⟩
  · exact ⟨[], Flow.nil _, by simp, by simp, List.Perm.refl _⟩

theorem uttLoop_done_flow {ω : Type} (P : Collab ω) (o : Options) (inp : Inputs)
    (hrand : ∀ r d, ((P.Randomize r d).1).Perm d)
    (fuel : Nat) (st s1 : State ω) (utts : List String) (hempty : st.cache.data = [])
    (h : uttLoop P o inp fuel st utts = .done s1) :
    ∃ evs, Flow st s1 evs
      ∧ addedFrames evs = utts.flatMap (acceptedEntries P o inp)
      ∧ (takenFrames evs).Perm (addedFrames evs) ∧ s1.cache.data = [] := by
  induction fuel generalizing st utts with
  | zero =>
    cases utts with
    | nil =>
      simp only [uttLoop] at h
      cases h
      exact ⟨[], Flow.nil _, rfl, List.Perm.refl _, hempty⟩
    | cons utt rest => simp only [uttLoop] at h; cases h
  | succ fuel ih =>
    cases utts with
    | nil =>
      simp only [uttLoop] at h
      cases h
      exact ⟨[], Flow.nil _, rfl, List.Perm.refl _, hempty⟩
    | cons utt rest =>
      unfold uttLoop at h
      cases hf : fillLoop P o inp st (utt :: rest) with
      | done s =>
        rw [hf] at h
        simp only at h
        obtain ⟨consumed, ef, c1, ff, af, gf, df, _⟩ :=
          fillLoop_done_flow P o inp (utt :: rest) st s.1 s.2 hf
        obtain ⟨er, fr, ar, gr, pr⟩ := randomizeStep_flow P o hrand s.1
        cases hd : drainLoop P o (randomizeStep P o s.1).cache.data.length
            (randomizeStep P o s.1) with
        | done s3 =>
          rw [hd] at h
          obtain ⟨ed, fd, ad, td, dd⟩ := drainLoop_done_flow P o _ _ s3 hd
          obtain ⟨e4, f4, a4, p4, d4⟩ := ih s3 s.2 dd h
          have hadd_r : addedFrames er = [] := addedFrames_eq_nil er ar
          have hadd_d : addedFrames ed = [] := addedFrames_eq_nil ed ad
          have htak_f : takenFrames ef = [] := (takenFrames_eq_nil ef gf).1
          have htak_r : takenFrames er = [] := (takenFrames_eq_nil er gr).1
          refine ⟨ef ++ er ++ ed ++ e4, ((ff.append fr).append fd).append f4, ?_, ?_, d4⟩
          · simp only [addedFrames_append, af, hadd_r, hadd_d, a4, List.append_nil]
            rw [c1, List.flatMap_append]
          · simp only [addedFrames_append, takenFrames_append, af, hadd_r, hadd_d, htak_f,
              htak_r, td, List.append_nil, List.nil_append]
            refine List.Perm.append ?_ p4
            have := pr
            rw [df, hempty, List.nil_append] at this
            exact this
        | fatal f s3 => rw [hd] at h; cases h
        | diverge => rw [hd] at h; cases h
      | fatal f s => rw [hf] at h; cases h
      | diverge => rw [hf] at h; cases h

theorem acceptedEntries_length {ω : Type} (P : Collab ω) (o : Options) (inp : Inputs)
    (hff : ∀ mat, (P.Feedforward mat).length = mat.length) (utt : String) :
    (acceptedEntries P o inp utt).length = acceptedFrames o inp utt := by
  unfold acceptedEntries acceptedFrames
  cases hal : inp.alignments utt with
  | none =>
    cases hfeat : inp.features utt with
    | none => rfl
    | some mat => simp [validUtt, hal, hfeat]
  | some alignment =>
    cases hfeat : inp.features utt with
    | none => rfl
    | some mat =>
      simp only
      cases hv : validUtt o inp utt with
      | false => simp
      | true =>
        simp only [validUtt, hal, hfeat, Bool.and_eq_true, decide_eq_true_eq, toInt32,
          NumRows] at hv
        simp only [if_true, List.length_zip, hff]
        have := hv.2
        omega

theorem acceptedEntries_sum {ω : Type} (P : Collab ω) (o : Options) (inp : Inputs)
    (hff : ∀ mat, (P.Feedforward mat).length = mat.length) (utts : List String) :
    (utts.flatMap (acceptedEntries P o inp)).length
      = (utts.map (acceptedFrames o inp)).sum := by
  induction utts with
  | nil => rfl
  | cons u us ih =>
    rw [List.flatMap_cons, List.length_append, ih, List.map_cons, List.sum_cons,
      acceptedEntries_length P o inp hff]

theorem processSet_done_flow {ω : Type} (P : Collab ω) (o : Options) (inp : Inputs)
    (fuel : Nat) (st s1 : State ω) (set : String × List String)
    (hshuf : ∀ r l, ((P.random_shuffle r l).1).Perm l)
    (hrand : ∀ r d, ((P.Randomize r d).1).Perm d)
    (hempty : st.cache.data = [])
    (h : processSet P o inp fuel st set = .done s1) :
    ∃ evs, Flow st s1 evs
      ∧ (takenFrames evs).Perm (set.2.flatMap (acceptedEntries P o inp))
      ∧ s1.cache.data = [] := by
  have hperm : ((if o.shuffle then P.random_shuffle st.rng set.2 else (set.2, st.rng)).1).Perm
      set.2 := by
    split
    · exact hshuf _ _
    · exact List.Perm.refl _
  unfold processSet at h
  cases hcode : inp.code_vec set.1 with
  | none => rw [hcode] at h; cases h
  | some code =>
    rw [hcode] at h
    simp only at h
    generalize (if o.shuffle then P.random_shuffle st.rng set.2 else (set.2, st.rng)) = uttlst
      at hperm h
    have hsc : ∀ b, Event.getBunch b ∉ (setCodeLoop code 0 st.layers_codeat).2 := by
      intro b hb
      rcases setCodeLoop_events code 0 _ _ hb with ⟨i, hi⟩ | ⟨i, hi⟩ <;> cases hi
    have ht0 := takenFrames_eq_nil _ hsc
    cases hu : uttLoop P o inp fuel
        ({ st with num_set := st.num_set + 1,
                   layers_codeat := (setCodeLoop code 0 st.layers_codeat).1,
                   rng := uttlst.2,
                   log := st.log ++ (setCodeLoop code 0 st.layers_codeat).2 } : State ω)
        uttlst.1 with
    | fatal f s2 => rw [hu] at h; cases h
    | diverge => rw [hu] at h; cases h
    | done s2 =>
      rw [hu] at h
      obtain ⟨evs, ⟨f1, f2, f3, f4, f5⟩, ha, hp, hd⟩ :=
        uttLoop_done_flow P o inp hrand fuel _ s2 uttlst.1 (by exact hempty) hu
      have hp2 : (takenFrames evs).Perm (set.2.flatMap (acceptedEntries P o inp)) := by
        rw [ha] at hp
        exact hp.trans (hperm.flatMap_right _)
      have hbase : Flow st s2 ((setCodeLoop code 0 st.layers_codeat).2 ++ evs) := by
        refine ⟨by rw [f1, List.append_assoc], ?_, f3, f4, ?_⟩
        · rw [takenFrames_append, ht0.1, List.nil_append]
          exact f2
        · intro b hb
          rcases List.mem_append.mp hb with hb | hb
          · exact absurd hb (hsc b)
          · exact f5 b hb
      have htk : takenFrames ((setCodeLoop code 0 st.layers_codeat).2 ++ evs)
          = takenFrames evs := by
        rw [takenFrames_append, ht0.1, List.nil_append]
      simp only at h
      split at h
      · split at h
        · cases h
        · cases h
          rename_i l0 ls _
          refine ⟨(setCodeLoop code 0 st.layers_codeat).2 ++ evs
            ++ [.writeCode set.1 l0.GetCode],
            hbase.append ⟨rfl, by simp [takenFrames], rfl, rfl, by simp⟩, ?_, hd⟩
          rw [takenFrames_append, htk]
          simpa [takenFrames] using hp2
      · cases h
        exact ⟨_, hbase, by rw [htk]; exact hp2, hd⟩

/-- Claim C12: whenever the processing of a set, entered with an empty cache, runs
to its end, `total_frames` has grown by exactly the sum of the frame counts of the
utterances of the set that pass the checks of the fill step; the entries of the
bunches taken, put end to end, are a rearrangement of the frames added for those
utterances, so that each accepted frame is in exactly one bunch; no bunch has
more rows than the bunch size; and the cache is empty again. In every drain loop
that ends, the bunches taken are, put end to end, the entries buffered when it
started, so that their sizes sum to the buffered count. And the processing does
run to its end under the conditions of totality of the set loop. The feature
transform is taken to keep the number of rows, and the shuffles to be
rearrangements. -/
theorem processSet_total_frames {ω : Type} (P : Collab ω) (o : Options) (inp : Inputs)
    (fuel : Nat) (st : State ω) (set : String × List String)
    (hshuf : ∀ r l, ((P.random_shuffle r l).1).Perm l)
    (hrand : ∀ r d, ((P.Randomize r d).1).Perm d)
    (hff : ∀ mat, (P.Feedforward mat).length = mat.length)
    (hempty : st.cache.data = []) :
    (∀ s1, processSet P o inp fuel st set = .done s1 →
      s1.total_frames = st.total_frames + (set.2.map (acceptedFrames o inp)).sum
        ∧ s1.cache.data = []
        ∧ ∃ evs, s1.log = st.log ++ evs
          ∧ (takenFrames evs).Perm (set.2.flatMap (acceptedEntries P o inp))
          ∧ ∀ b, Event.getBunch b ∈ evs → b.length ≤ st.cache.bunchsize.toNat)
    ∧ (∀ n s s1, drainLoop P o n s = .done s1 →
        ∃ evs, s1.log = s.log ++ evs ∧ takenFrames evs = s.cache.data
          ∧ (bunchRows evs).sum = s.cache.data.length
          ∧ s1.total_frames = s.total_frames + s.cache.data.length
          ∧ s1.cache.data = [])
    ∧ (inp.code_vec set.1 ≠ none →
        (∀ u ∈ set.2, inp.alignments u ≠ none → inp.features u ≠ none) →
        (o.crossvalidate = true ∨ st.layers_codeat ≠ []) →
        0 < st.cache.cachesize → 0 < st.cache.bunchsize → set.2.length ≤ fuel →
        ∃ s1, processSet P o inp fuel st set = .done s1) := by
  refine ⟨fun s1 h => ?_, fun n s s1 h => ?_, fun hcode hfeat hlayers hcap hbunch hfuel =>
    processSet_done_exists P o inp fuel st set hshuf hempty hcode hfeat hlayers hcap hbunch
      hfuel⟩
  · obtain ⟨evs, ⟨f1, f2, _, _, f5⟩, hp, hd⟩ :=
      processSet_done_flow P o inp fuel st s1 set hshuf hrand hempty h
    refine ⟨?_, hd, evs, f1, hp, f5⟩
    rw [f2, hp.length_eq, acceptedEntries_sum P o inp hff]
  · obtain ⟨evs, ⟨f1, f2, _, _, _⟩, _, ht, hd⟩ := drainLoop_done_flow P o n s s1 h
    refine ⟨evs, f1, ht, by rw [bunchRows_sum, ht], by rw [f2, ht], hd⟩

/-- Claim C12 on the scenario of the spec: bunches of 4, a cache of 8, the
utterances `u1` of 5 frames and `u2` of 3 frames, no shuffling. The set is
processed to its end, the total of frames goes from 0 to 8 and the cache ends
empty; the cache is not full after `u1` and holds exactly 8 entries, and is full,
after `u2`; and the bunches taken have 4 and 4 rows. -/
theorem processSet_total_frames_witness :
    (∃ s1, processSet exCollab exOptions exInputs 2 exState ("A", ["u1", "u2"]) = .done s1
      ∧ s1.total_frames = 0 + 8 ∧ s1.cache.data = [])
    ∧ (∃ s1, processSet exCollab exOptions exInputs 2 exState ("A", ["u1", "u2"]) = .done s1
      ∧ bunchRows s1.log = [4, 4])
    ∧ (∃ s s2, fillStep exCollab exOptions exInputs exState "u1" = .done s
      ∧ s.cache.data.length = 5 ∧ s.cache.Full = false
      ∧ fillStep exCollab exOptions exInputs s "u2" = .done s2
      ∧ s2.cache.data.length = 8 ∧ s2.cache.Full = true) :=
  have h := processSet_total_frames exCollab exOptions exInputs 2 exState
    ("A", ["u1", "u2"]) (fun _ l => List.reverse_perm l)
    (fun _ d => List.reverse_perm d) (fun _ => rfl) rfl
  ⟨(h.2.2 (by decide) (by decide) (Or.inr (by decide)) (by decide) (by decide)
    (by decide)).imp fun s1 hs => ⟨hs, (h.1 s1 hs).1, (h.1 s1 hs).2.1⟩,
    ⟨_, rfl, rfl⟩, ⟨_, _, rfl, rfl, rfl, rfl, rfl, rfl⟩⟩

/-! ## The tallies of a run -/

theorem processSet_done_tally {ω : Type} (P : Collab ω) (o : Options) (inp : Inputs)
    (fuel : Nat) (st s1 : State ω) (set : String × List String)
    (hshuf : ∀ r l, ((P.random_shuffle r l).1).Perm l)
    (h : processSet P o inp fuel st set = .done s1) :
    s1.num_done + s1.num_no_alignments + s1.num_other_error
      = st.num_done + st.num_no_alignments + st.num_other_error + set.2.length := by
  have hperm : ((if o.shuffle then P.random_shuffle st.rng set.2 else (set.2, st.rng)).1).Perm
      set.2 := by
    split
    · exact hshuf _ _
    · exact List.Perm.refl _
  unfold processSet at h
  cases hcode : inp.code_vec set.1 with
  | none => rw [hcode] at h; cases h
  | some code =>
    rw [hcode] at h
    simp only at h
    generalize (if o.shuffle then P.random_shuffle st.rng set.2 else (set.2, st.rng)) = uttlst
      at hperm h
    cases hu : uttLoop P o inp fuel
        ({ st with num_set := st.num_set + 1,
                   layers_codeat := (setCodeLoop code 0 st.layers_codeat).1,
                   rng := uttlst.2,
                   log := st.log ++ (setCodeLoop code 0 st.layers_codeat).2 } : State ω)
        uttlst.1 with
    | fatal f s2 => rw [hu] at h; cases h
    | diverge => rw [hu] at h; cases h
    | done s2 =>
      rw [hu] at h
      have hc := (uttLoop_done_counted P o inp fuel _ s2 uttlst.1 hu).2.1
      rw [hperm.length_eq] at hc
      simp only at h hc
      split at h
      · split at h
        · cases h
        · cases h
          exact hc
      · cases h
        exact hc

theorem setsLoop_done_tally {ω : Type} (P : Collab ω) (o : Options) (inp : Inputs)
    (fuel : Nat) (hshuf : ∀ r l, ((P.random_shuffle r l).1).Perm l)
    (sets : List (String × List String)) (st s1 : State ω)
    (h : setsLoop P o inp fuel st sets = .done s1) :
    s1.num_done + s1.num_no_alignments + s1.num_other_error
      = st.num_done + st.num_no_alignments + st.num_other_error
        + (sets.map (fun set => set.2.length)).sum := by
  induction sets generalizing st with
  | nil =>
    simp only [setsLoop] at h
    cases h
    simp
  | cons set sets ih =>
    unfold setsLoop at h
    cases hp : processSet P o inp fuel st set with
    | done s =>
      rw [hp] at h
      have h1 := processSet_done_tally P o inp fuel st s set hshuf hp
      have h2 := ih s h
      rw [h2, h1, List.map_cons, List.sum_cons]
      omega
    | fatal f s => rw [hp] at h; cases h
    | diverge => rw [hp] at h; cases h

/-- Claim C25: when a run ends normally, `num_done + num_no_alignments +
num_other_error` is the number of utterance ids of all the sets read, the shuffled
list of a set being a rearrangement of the list read; and a fill step that ends
normally adds one to exactly one of the three counters and leaves the other two
as they were. -/
theorem main_tallies_every_utterance {ω : Type} (P : Collab ω) (o : Options) (inp : Inputs)
    (net : ω) (fuel : Nat) (hshuf : ∀ r l, ((P.random_shuffle r l).1).Perm l) :
    (∀ st, main P o inp net fuel = .done st →
      st.num_done + st.num_no_alignments + st.num_other_error
        = (inp.set2utt.map (fun set => set.2.length)).sum)
    ∧ (∀ (st s1 : State ω) utt, fillStep P o inp st utt = .done s1 →
        (s1.num_done = st.num_done + 1 ∧ s1.num_no_alignments = st.num_no_alignments
            ∧ s1.num_other_error = st.num_other_error)
          ∨ (s1.num_done = st.num_done ∧ s1.num_no_alignments = st.num_no_alignments + 1
            ∧ s1.num_other_error = st.num_other_error)
          ∨ (s1.num_done = st.num_done ∧ s1.num_no_alignments = st.num_no_alignments
            ∧ s1.num_other_error = st.num_other_error + 1)) := by
  constructor
  · intro st h
    rcases main_shape P o inp net fuel with ⟨f, layers, hm⟩ | ⟨found, cache, _, _, hm⟩
    · rw [hm] at h
      cases h
    · rw [hm] at h
      cases hs : setsLoop P o inp fuel (initState o net found.1 cache) inp.set2utt with
      | done s =>
        rw [hs] at h
        have ht := setsLoop_done_tally P o inp fuel hshuf inp.set2utt _ s hs
        simp only [initState, Nat.zero_add] at ht
        simp only at h
        split at h
        · cases h
          exact ht
        · cases h
          exact ht
      | fatal f s => rw [hs] at h; cases h
      | diverge => rw [hs] at h; cases h
  · intro st s1 utt h
    rcases fillStep_cases P o inp st utt with h1 | h1 | h1 | h1 | ⟨a, m, _, _, _, h1⟩
    · rw [h1.2] at h
      cases h
      exact Or.inr (Or.inl ⟨rfl, rfl, rfl⟩)
    · rw [h1.2.2] at h
      cases h
    · rw [h1.2] at h
      cases h
      exact Or.inr (Or.inr ⟨rfl, rfl, rfl⟩)
    · rw [h1.2.2] at h
      cases h
    · rw [h1] at h
      cases h
      exact Or.inl ⟨rfl, rfl, rfl⟩

/-- Claim C25 on the examples: the run over the set `A`, with the utterances
`u1`, `u2` and `u3`, ends normally with two files done and one without labels. -/
theorem main_tallies_every_utterance_witness :
    ∃ st, main exCollab exOptions exInputsA () 3 = .done st
      ∧ summaryReport st = (2, 1, 0)
      ∧ st.num_done + st.num_no_alignments + st.num_other_error = 3 :=
  ⟨_, rfl, rfl, (main_tallies_every_utterance exCollab exOptions exInputsA () 3
    (fun _ l => List.reverse_perm l)).1 _ rfl⟩

/-! ## Termination -/

theorem fillStep_ne_diverge {ω : Type} (P : Collab ω) (o : Options) (inp : Inputs)
    (st : State ω) (utt : String) : fillStep P o inp st utt ≠ .diverge := by
  rcases fillStep_cases P o inp st utt with h1 | h1 | h1 | h1 | ⟨a, m, _, _, _, h1⟩
  · rw [h1.2]; exact fun h => by cases h
  · rw [h1.2.2]; exact fun h => by cases h
  · rw [h1.2]; exact fun h => by cases h
  · rw [h1.2.2]; exact fun h => by cases h
  · rw [h1]; exact fun h => by cases h

theorem fillLoop_ne_diverge {ω : Type} (P : Collab ω) (o : Options) (inp : Inputs)
    (utts : List String) (st : State ω) : fillLoop P o inp st utts ≠ .diverge := by
  induction utts generalizing st with
  | nil => simp [fillLoop]
  | cons utt rest ih =>
    unfold fillLoop
    split
    · exact fun h => by cases h
    · cases hs : fillStep P o inp st utt with
      | done s => exact ih s
      | fatal f s => exact fun h => by cases h
      | diverge => exact absurd hs (fillStep_ne_diverge P o inp st utt)

theorem fillLoop_done_shorter {ω : Type} (P : Collab ω) (o : Options) (inp : Inputs)
    (utts : List String) (st s : State ω) (rest : List String)
    (hfull : st.cache.Full = false) (hne : utts ≠ [])
    (h : fillLoop P o inp st utts = .done (s, rest)) : rest.length < utts.length := by
  cases utts with
  | nil => exact absurd rfl hne
  | cons utt us =>
    unfold fillLoop at h
    rw [hfull] at h
    simp only [Bool.false_eq_true, if_false] at h
    cases hs : fillStep P o inp st utt with
    | done s0 =>
      rw [hs] at h
      obtain ⟨consumed, hc, _⟩ := fillLoop_done_counted P o inp us s0 s rest h
      rw [hc]
      simp only [List.length_cons, List.length_append]
      omega
    | fatal f s0 => rw [hs] at h; cases h
    | diverge => rw [hs] at h; cases h

theorem trainBunch_ne_diverge {ω : Type} (P : Collab ω) (o : Options) (st : State ω) :
    trainBunch P o st ≠ .diverge := by
  unfold trainBunch
  simp only
  split
  · exact fun h => by cases h
  · split
    · exact fun h => by cases h
    · exact fun h => by cases h

theorem drainLoop_ne_diverge {ω : Type} (P : Collab ω) (o : Options) (n : Nat)
    (st : State ω) (hbunch : 0 < st.cache.bunchsize) (hn : st.cache.data.length ≤ n) :
    drainLoop P o n st ≠ .diverge := by
  induction n generalizing st with
  | zero =>
    have hd : st.cache.data = [] := List.length_eq_zero.mp (Nat.le_zero.mp hn)
    simp [drainLoop, Cache.Empty, hd]
  | succ n ih =>
    unfold drainLoop
    split
    · exact fun h => by cases h
    · rename_i he
      have hne : st.cache.data ≠ [] := by simpa [Cache.Empty] using he
      have hpos : 0 < st.cache.data.length := List.length_pos.mpr hne
      cases hs : trainBunch P o st with
      | done s0 =>
        obtain ⟨e0, f0, _, _, _, d0⟩ := trainBunch_done_flow P o st s0 hs
        have hb0 : s0.cache.bunchsize = st.cache.bunchsize := f0.2.2.1
        refine ih s0 (by rw [hb0]; exact hbunch) ?_
        rw [d0, List.length_drop]
        have : 0 < st.cache.bunchsize.toNat := by omega
        omega
      | fatal f s0 => exact fun h => by cases h
      | diverge => exact absurd hs (trainBunch_ne_diverge P o st)

theorem randomizeStep_sizes {ω : Type} (P : Collab ω) (o : Options) (st : State ω) :
    (randomizeStep P o st).cache.cachesize = st.cache.cachesize
      ∧ (randomizeStep P o st).cache.bunchsize = st.cache.bunchsize := by
  unfold randomizeStep
  split
  · exact ⟨rfl, rfl⟩
  · exact ⟨rfl, rfl⟩

theorem uttLoop_ne_diverge {ω : Type} (P : Collab ω) (o : Options) (inp : Inputs)
    (fuel : Nat) (st : State ω) (utts : List String)
    (hempty : st.cache.data = []) (hcap : 0 < st.cache.cachesize)
    (hbunch : 0 < st.cache.bunchsize) (hfuel : utts.length ≤ fuel) :
    uttLoop P o inp fuel st utts ≠ .diverge := by
  induction fuel generalizing st utts with
  | zero =>
    have : utts = [] := List.length_eq_zero.mp (Nat.le_zero.mp hfuel)
    subst this
    simp [uttLoop]
  | succ fuel ih =>
    cases utts with
    | nil => simp [uttLoop]
    | cons utt rest =>
      unfold uttLoop
      have hfull : st.cache.Full = false := by
        simp only [Cache.Full, hempty, List.length_nil, decide_eq_false_iff_not]
        push_cast
        omega
      cases hf : fillLoop P o inp st (utt :: rest) with
      | fatal f s => exact fun h => by cases h
      | diverge => exact absurd hf (fillLoop_ne_diverge P o inp _ st)
      | done s =>
        simp only
        have hlt := fillLoop_done_shorter P o inp (utt :: rest) st s.1 s.2 hfull (by simp) hf
        obtain ⟨_, _, _, ⟨_, _, f3, f4, _⟩, _, _, _, _⟩ :=
          fillLoop_done_flow P o inp (utt :: rest) st s.1 s.2 hf
        have hsz := randomizeStep_sizes P o s.1
        have hbr : 0 < (randomizeStep P o s.1).cache.bunchsize := by
          rw [hsz.2, f3]
          exact hbunch
        cases hd : drainLoop P o (randomizeStep P o s.1).cache.data.length
            (randomizeStep P o s.1) with
        | fatal f s3 => exact fun h => by cases h
        | diverge => exact absurd hd (drainLoop_ne_diverge P o _ _ hbr (le_refl _))
        | done s3 =>
          simp only
          obtain ⟨_, ⟨_, _, g3, g4, _⟩, _, _, d3⟩ := drainLoop_done_flow P o _ _ s3 hd
          refine ih s3 s.2 d3 ?_ ?_ ?_
          · rw [g4, hsz.1, f4]
            exact hcap
          · rw [g3]
            exact hbr
          · simp only [List.length_cons] at hlt hfuel
            omega

theorem processSet_ne_diverge {ω : Type} (P : Collab ω) (o : Options) (inp : Inputs)
    (fuel : Nat) (st : State ω) (set : String × List String)
    (hshuf : ∀ r l, ((P.random_shuffle r l).1).Perm l)
    (hempty : st.cache.data = []) (hcap : 0 < st.cache.cachesize)
    (hbunch : 0 < st.cache.bunchsize) (hfuel : set.2.length ≤ fuel) :
    processSet P o inp fuel st set ≠ .diverge := by
  have hperm : ((if o.shuffle then P.random_shuffle st.rng set.2 else (set.2, st.rng)).1).Perm
      set.2 := by
    split
    · exact hshuf _ _
    · exact List.Perm.refl _
  unfold processSet
  cases hcode : inp.code_vec set.1 with
  | none => exact fun h => by cases h
  | some code =>
    simp only
    generalize (if o.shuffle then P.random_shuffle st.rng set.2 else (set.2, st.rng)) = uttlst
      at hperm
    have hu := uttLoop_ne_diverge P o inp fuel
      ({ st with num_set := st.num_set + 1,
                 layers_codeat := (setCodeLoop code 0 st.layers_codeat).1,
                 rng := uttlst.2,
                 log := st.log ++ (setCodeLoop code 0 st.layers_codeat).2 } : State ω)
      uttlst.1 hempty hcap hbunch (by rw [hperm.length_eq]; exact hfuel)
    revert hu
    cases uttLoop P o inp fuel _ uttlst.1 with
    | diverge => exact fun hu => absurd rfl hu
    | fatal f s2 => exact fun _ h => by cases h
    | done s2 =>
      intro _
      simp only
      split
      · split
        · exact fun h => by cases h
        · exact fun h => by cases h
      · exact fun h => by cases h

theorem processSet_done_cache {ω : Type} (P : Collab ω) (o : Options) (inp : Inputs)
    (fuel : Nat) (st s1 : State ω) (set : String × List String)
    (hempty : st.cache.data = []) (h : processSet P o inp fuel st set = .done s1) :
    s1.cache.data = [] ∧ s1.cache.cachesize = st.cache.cachesize
      ∧ s1.cache.bunchsize = st.cache.bunchsize := by
  unfold processSet at h
  cases hcode : inp.code_vec set.1 with
  | none => rw [hcode] at h; cases h
  | some code =>
    rw [hcode] at h
    simp only at h
    generalize (if o.shuffle then P.random_shuffle st.rng set.2 else (set.2, st.rng)) = uttlst
      at h
    cases hu : uttLoop P o inp fuel
        ({ st with num_set := st.num_set + 1,
                   layers_codeat := (setCodeLoop code 0 st.layers_codeat).1,
                   rng := uttlst.2,
                   log := st.log ++ (setCodeLoop code 0 st.layers_codeat).2 } : State ω)
        uttlst.1 with
    | fatal f s2 => rw [hu] at h; cases h
    | diverge => rw [hu] at h; cases h
    | done s2 =>
      rw [hu] at h
      have he := uttLoop_done_empty P o inp fuel _ s2 uttlst.1 (by exact hempty) hu
      have hc := uttLoop_done_counted P o inp fuel _ s2 uttlst.1 hu
      simp only at h
      split at h
      · split at h
        · cases h
        · cases h
          exact ⟨he, hc.2.2.1, hc.2.2.2.1⟩
      · cases h
        exact ⟨he, hc.2.2.1, hc.2.2.2.1⟩

theorem setsLoop_ne_diverge {ω : Type} (P : Collab ω) (o : Options) (inp : Inputs)
    (fuel : Nat) (hshuf : ∀ r l, ((P.random_shuffle r l).1).Perm l)
    (sets : List (String × List String)) (st : State ω)
    (hempty : st.cache.data = []) (hcap : 0 < st.cache.cachesize)
    (hbunch : 0 < st.cache.bunchsize) (hfuel : ∀ set ∈ sets, set.2.length ≤ fuel) :
    setsLoop P o inp fuel st sets ≠ .diverge := by
  induction sets generalizing st with
  | nil => simp [setsLoop]
  | cons set sets ih =>
    unfold setsLoop
    cases hp : processSet P o inp fuel st set with
    | done s =>
      obtain ⟨h1, h2, h3⟩ := processSet_done_cache P o inp fuel st s set hempty hp
      exact ih s h1 (by rw [h2]; exact hcap) (by rw [h3]; exact hbunch)
        (fun x hx => hfuel x (List.mem_cons_of_mem _ hx))
    | fatal f s => exact fun h => by cases h
    | diverge =>
      exact absurd hp (processSet_ne_diverge P o inp fuel st set hshuf hempty hcap hbunch
        (hfuel set (List.mem_cons_self _ _)))

theorem configureCache_of_le (cachesize bunchsize : Int) (hb : 0 < bunchsize)
    (hc : bunchsize ≤ cachesize) :
    ∃ cache, configureCache cachesize bunchsize = .ok cache ∧ 0 < cache.cachesize
      ∧ cache.bunchsize = bunchsize ∧ cache.data = [] := by
  have hr := roundCachesize_pos cachesize bunchsize hb (by omega)
  have hlt : cachesize % bunchsize < bunchsize := Int.emod_lt_of_pos _ hb
  have hnb : ¬ bunchsize ≤ 0 := by omega
  refine ⟨{ cachesize := cachesize - cachesize % bunchsize, bunchsize := bunchsize,
            data := [], randomized := false }, ?_, ?_, rfl, rfl⟩
  · simp [configureCache, hr, Cache.Init, hnb]
  · show 0 < cachesize - cachesize % bunchsize
    omega

/-- Claim C26: with a positive bunch size and a capacity of at least the bunch
size, the cache is configured with a positive rounded capacity, and the run does
not go on for ever, given fuel for every utterance of every set: it ends normally
or with a fatal error. In every pass of the loop over the utterances of a set,
which starts with an empty cache, the fill loop examines at least one utterance,
and the drain loop, taking one bunch per buffered entry at most, ends with an
empty cache. -/
theorem main_terminates {ω : Type} (P : Collab ω) (o : Options) (inp : Inputs) (net : ω)
    (fuel : Nat) (hb : 0 < o.bunchsize) (hc : o.bunchsize ≤ o.cachesize)
    (hshuf : ∀ r l, ((P.random_shuffle r l).1).Perm l)
    (hfuel : ∀ set ∈ inp.set2utt, set.2.length ≤ fuel) :
    main P o inp net fuel ≠ .diverge
    ∧ (∃ cache, configureCache o.cachesize o.bunchsize = .ok cache ∧ 0 < cache.cachesize
        ∧ cache.bunchsize = o.bunchsize ∧ cache.data = [])
    ∧ (∀ (st : State ω) set, st.cache.data = [] → 0 < st.cache.cachesize →
        0 < st.cache.bunchsize → set.2.length ≤ fuel →
        processSet P o inp fuel st set ≠ .diverge)
    ∧ (∀ (st s : State ω) utts rest, st.cache.data = [] → 0 < st.cache.cachesize →
        utts ≠ [] → fillLoop P o inp st utts = .done (s, rest) →
        rest.length < utts.length)
    ∧ (∀ st : State ω, 0 < st.cache.bunchsize →
        drainLoop P o st.cache.data.length st ≠ .diverge
          ∧ ∀ s1, drainLoop P o st.cache.data.length st = .done s1 → s1.cache.data = []) := by
  obtain ⟨cache, hcfg, hpos, hbs, hdata⟩ := configureCache_of_le o.cachesize o.bunchsize hb hc
  refine ⟨?_, ⟨cache, hcfg, hpos, hbs, hdata⟩, ?_, ?_, ?_⟩
  · rcases main_shape P o inp net fuel with ⟨f, layers, hm⟩ | ⟨found, cache1, _, hcfg1, hm⟩
    · rw [hm]
      exact fun h => by cases h
    · rw [hcfg] at hcfg1
      cases hcfg1
      rw [hm]
      have hs := setsLoop_ne_diverge P o inp fuel hshuf inp.set2utt
        (initState o net found.1 cache) hdata hpos (by show 0 < cache.bunchsize; rw [hbs]; exact hb)
        hfuel
      revert hs
      cases setsLoop P o inp fuel (initState o net found.1 cache) inp.set2utt with
      | diverge => exact fun hs => absurd rfl hs
      | fatal f s => exact fun _ h => by cases h
      | done s =>
        intro _
        simp only
        split
        · exact fun h => by cases h
        · exact fun h => by cases h
  · intro st set he hcap hbunch hf
    exact processSet_ne_diverge P o inp fuel st set hshuf he hcap hbunch hf
  · intro st s utts rest he hcap hne hfill
    have hfull : st.cache.Full = false := by
      simp only [Cache.Full, he, List.length_nil, decide_eq_false_iff_not]
      push_cast
      omega
    exact fillLoop_done_shorter P o inp utts st s rest hfull hne hfill
  · intro st hbunch
    exact ⟨drainLoop_ne_diverge P o _ st hbunch (le_refl _),
      fun s1 h => (drainLoop_done_flow P o _ st s1 h).choose_spec.2.2.2⟩

/-- Claim C26 on the examples: with bunches of 4 and a cache of 8 the run over the
set `A` does not go on for ever; it ends normally. -/
theorem main_terminates_witness :
    main exCollab exOptions exInputsA () 3 ≠ .diverge
      ∧ ∃ st, main exCollab exOptions exInputsA () 3 = .done st :=
  ⟨(main_terminates exCollab exOptions exInputsA () 3 (by decide) (by decide)
      (fun _ l => List.reverse_perm l) (by decide)).1, _, rfl⟩

/-! ## A capacity of less than one bunch -/

theorem configureCache_of_lt (cachesize bunchsize : Int) (hc0 : 0 ≤ cachesize)
    (hcb : cachesize < bunchsize) :
    configureCache cachesize bunchsize
      = .ok { cachesize := 0, bunchsize := bunchsize, data := [], randomized := false } := by
  have hb : 0 < bunchsize := by omega
  have hr := roundCachesize_pos cachesize bunchsize hb hc0
  have hm : cachesize % bunchsize = cachesize := Int.emod_eq_of_lt hc0 hcb
  have hnb : ¬ bunchsize ≤ 0 := by omega
  rw [hm, sub_self] at hr
  simp [configureCache, hr, Cache.Init, hnb]

theorem randomizeStep_empty {ω : Type} (P : Collab ω) (o : Options)
    (hrand : ∀ r d, ((P.Randomize r d).1).Perm d) (st : State ω)
    (hempty : st.cache.data = []) : (randomizeStep P o st).cache.data = [] := by
  unfold randomizeStep
  split
  · simp only [Cache.Randomize]
    exact List.Perm.eq_nil ((hrand st.rng st.cache.data).trans (List.Perm.of_eq hempty))
  · exact hempty

theorem fillLoop_of_full {ω : Type} (P : Collab ω) (o : Options) (inp : Inputs)
    (st : State ω) (utts : List String) (hfull : st.cache.Full = true) :
    fillLoop P o inp st utts = .done (st, utts) := by
  cases utts with
  | nil => rfl
  | cons utt rest => simp [fillLoop, hfull]

theorem uttLoop_pass_of_zero {ω : Type} (P : Collab ω) (o : Options) (inp : Inputs)
    (hrand : ∀ r d, ((P.Randomize r d).1).Perm d) (fuel : Nat) (st : State ω)
    (utt : String) (rest : List String)
    (hcap : st.cache.cachesize = 0) (hempty : st.cache.data = []) :
    uttLoop P o inp (fuel + 1) st (utt :: rest)
      = uttLoop P o inp fuel (randomizeStep P o st) (utt :: rest) := by
  have hfull : st.cache.Full = true := by simp [Cache.Full, hcap, hempty]
  have hr := randomizeStep_empty P o hrand st hempty
  conv_lhs => unfold uttLoop
  rw [fillLoop_of_full P o inp st (utt :: rest) hfull]
  simp only
  rw [drainLoop_of_empty P o _ _ hr]

theorem uttLoop_diverge_of_zero {ω : Type} (P : Collab ω) (o : Options) (inp : Inputs)
    (hrand : ∀ r d, ((P.Randomize r d).1).Perm d) (fuel : Nat) (st : State ω)
    (utt : String) (rest : List String)
    (hcap : st.cache.cachesize = 0) (hempty : st.cache.data = []) :
    uttLoop P o inp fuel st (utt :: rest) = .diverge := by
  induction fuel generalizing st with
  | zero => rfl
  | succ fuel ih =>
    rw [uttLoop_pass_of_zero P o inp hrand fuel st utt rest hcap hempty]
    exact ih _ ((randomizeStep_sizes P o st).1.trans hcap)
      (randomizeStep_empty P o hrand st hempty)

/-- Claim C27: with a capacity that is not negative and less than the bunch size,
the cache is configured with the rounded capacity 0 and is full while it is
empty. From a state with such a cache, one pass of the loop over the utterances
of a set that has an utterance left fills nothing, randomizes an empty cache and
drains nothing: the list of the utterances left is the same after the pass, the
cache is still empty with capacity 0 (and the whole state is the same if the
cache is not randomized), so the loop does not end, whatever the fuel; and the
processing of a set with a code and at least one utterance does not end. -/
theorem zero_capacity_never_completes {ω : Type} (P : Collab ω) (o : Options) (inp : Inputs)
    (fuel : Nat) (hc0 : 0 ≤ o.cachesize) (hcb : o.cachesize < o.bunchsize)
    (hshuf : ∀ r l, ((P.random_shuffle r l).1).Perm l)
    (hrand : ∀ r d, ((P.Randomize r d).1).Perm d) :
    (∃ cache, configureCache o.cachesize o.bunchsize = .ok cache ∧ cache.cachesize = 0
      ∧ cache.data = [] ∧ cache.Full = true ∧ cache.Empty = true)
    ∧ (∀ (st : State ω) utt rest, st.cache.cachesize = 0 → st.cache.data = [] →
        fillLoop P o inp st (utt :: rest) = .done (st, utt :: rest)
        ∧ drainLoop P o (randomizeStep P o st).cache.data.length (randomizeStep P o st)
            = .done (randomizeStep P o st)
        ∧ (randomizeStep P o st).cache.data = []
        ∧ (randomizeStep P o st).cache.cachesize = 0
        ∧ ((!o.crossvalidate && o.randomize) = false → randomizeStep P o st = st)
        ∧ uttLoop P o inp (fuel + 1) st (utt :: rest)
            = uttLoop P o inp fuel (randomizeStep P o st) (utt :: rest)
        ∧ ∀ n, uttLoop P o inp n st (utt :: rest) = .diverge)
    ∧ (∀ (st : State ω) set, st.cache.cachesize = 0 → st.cache.data = [] →
        inp.code_vec set.1 ≠ none → set.2 ≠ [] →
        processSet P o inp fuel st set = .diverge) := by
  refine ⟨⟨_, configureCache_of_lt o.cachesize o.bunchsize hc0 hcb, rfl, rfl, rfl, rfl⟩,
    fun st utt rest hcap hempty => ?_, fun st set hcap hempty hcode hne => ?_⟩
  · have hfull : st.cache.Full = true := by simp [Cache.Full, hcap, hempty]
    have hr := randomizeStep_empty P o hrand st hempty
    refine ⟨fillLoop_of_full P o inp st _ hfull, drainLoop_of_empty P o _ _ hr, hr,
      (randomizeStep_sizes P o st).1.trans hcap, fun hoff => ?_,
      uttLoop_pass_of_zero P o inp hrand fuel st utt rest hcap hempty,
      fun n => uttLoop_diverge_of_zero P o inp hrand n st utt rest hcap hempty⟩
    simp [randomizeStep, hoff]
  · have hperm : ((if o.shuffle then P.random_shuffle st.rng set.2
        else (set.2, st.rng)).1).Perm set.2 := by
      split
      · exact hshuf _ _
      · exact List.Perm.refl _
    unfold processSet
    cases hc : inp.code_vec set.1 with
    | none => exact absurd hc hcode
    | some code =>
      simp only
      generalize (if o.shuffle then P.random_shuffle st.rng set.2 else (set.2, st.rng))
        = uttlst at hperm
      cases hl : uttlst.1 with
      | nil =>
        rw [hl] at hperm
        exact absurd hperm.symm.eq_nil hne
      | cons utt rest =>
        have hd := uttLoop_diverge_of_zero P o inp hrand fuel
          ({ st with num_set := st.num_set + 1,
                     layers_codeat := (setCodeLoop code 0 st.layers_codeat).1,
                     rng := uttlst.2,
                     log := st.log ++ (setCodeLoop code 0 st.layers_codeat).2 } : State ω)
          utt rest hcap hempty
        rw [hd]

/-- Claim C27 on the examples: with a cache of 3 frames and bunches of 4 the
capacity is rounded to 0, and the run over the set `A` is still in its first set
when the fuel, here 50 passes, is used up. -/
theorem zero_capacity_never_completes_witness :
    (∃ cache, configureCache exOptionsSmall.cachesize exOptionsSmall.bunchsize = .ok cache
      ∧ cache.cachesize = 0 ∧ cache.data = [] ∧ cache.Full = true ∧ cache.Empty = true)
    ∧ main exCollab exOptionsSmall exInputsA () 50 = .diverge :=
  ⟨(zero_capacity_never_completes exCollab exOptionsSmall exInputsA 50 (by decide)
      (by decide) (fun _ l => List.reverse_perm l) (fun _ d => List.reverse_perm d)).1,
    rfl⟩

/-! ## A network without `<codeat>` layers -/

theorem findCodeAT_of_no_codeat (o : Options) (cs : List Component) (d : Int)
    (acc : List CodeAT) (h : codeDims cs = []) : findCodeAT o cs d acc = .ok (acc, d) := by
  induction cs with
  | nil => rfl
  | cons c cs ih =>
    cases c with
    | kOther => exact ih h
    | kCodeAT l => simp [codeDims] at h

theorem codeVecDiff_error_iff (layers : List CodeAT) :
    codeVecDiff layers = .error .indexOutOfRange ↔ layers = [] := by
  cases layers with
  | nil => simp [codeVecDiff]
  | cons l ls => simp [codeVecDiff]

theorem trainBunch_of_no_layer {ω : Type} (P : Collab ω) (o : Options) (st : State ω)
    (htrain : o.crossvalidate = false) (hl : st.layers_codeat = []) :
    ∃ s1, trainBunch P o st = .fatal .indexOutOfRange s1 := by
  simp [trainBunch, htrain, hl, setCodeDiff, codeVecDiff]

theorem drainLoop_of_no_layer {ω : Type} (P : Collab ω) (o : Options) (n : Nat)
    (st : State ω) (htrain : o.crossvalidate = false) (hl : st.layers_codeat = [])
    (hne : st.cache.data ≠ []) (hn : st.cache.data.length ≤ n) :
    ∃ s1, drainLoop P o n st = .fatal .indexOutOfRange s1 := by
  have he : st.cache.Empty = false := by
    cases hd : st.cache.data with
    | nil => exact absurd hd hne
    | cons x xs => simp [Cache.Empty, hd]
  cases n with
  | zero =>
    exact absurd (List.length_eq_zero.mp (Nat.le_zero.mp hn)) hne
  | succ n =>
    obtain ⟨s1, h1⟩ := trainBunch_of_no_layer P o st htrain hl
    exact ⟨s1, by simp [drainLoop, he, h1]⟩

theorem uttLoop_of_no_layer {ω : Type} (P : Collab ω) (o : Options) (inp : Inputs)
    (hrand : ∀ r d, ((P.Randomize r d).1).Perm d)
    (htrain : o.crossvalidate = false)
    (fuel : Nat) (st : State ω) (utts : List String)
    (hfeat : ∀ u ∈ utts, inp.alignments u ≠ none → inp.features u ≠ none)
    (hl : st.layers_codeat = []) (hempty : st.cache.data = [])
    (hcap : 0 < st.cache.cachesize) (hfuel : utts.length ≤ fuel) :
    (∃ s1, uttLoop P o inp fuel st utts = .fatal .indexOutOfRange s1)
      ∨ (∃ s1, uttLoop P o inp fuel st utts = .done s1 ∧ s1.layers_codeat = []
          ∧ utts.flatMap (acceptedEntries P o inp) = []) := by
  induction fuel generalizing st utts with
  | zero =>
    have : utts = [] := List.length_eq_zero.mp (Nat.le_zero.mp hfuel)
    subst this
    exact Or.inr ⟨st, rfl, hl, rfl⟩
  | succ fuel ih =>
    cases utts with
    | nil => exact Or.inr ⟨st, rfl, hl, rfl⟩
    | cons utt rest =>
      have hfull : st.cache.Full = false := by
        simp only [Cache.Full, hempty, List.length_nil, decide_eq_false_iff_not]
        push_cast
        omega
      obtain ⟨s, consumed, rest1, hf, hsplit, hcnt, hcons⟩ :=
        fillLoop_spec P o inp (utt :: rest) st hfeat
      obtain ⟨consumed2, _, hsplit2, _, _, _, hdata, _⟩ :=
        fillLoop_done_flow P o inp (utt :: rest) st s rest1 hf
      have hceq : consumed2 = consumed :=
        List.append_cancel_right (hsplit2.symm.trans hsplit)
      rw [hceq, hempty, List.nil_append] at hdata
      have hls : s.layers_codeat = [] := by
        have := hcnt.2.2.2.2
        rw [hl] at this
        exact List.length_eq_zero.mp this
      have hlr : (randomizeStep P o s).layers_codeat = [] := by
        rw [randomizeStep_layers]
        exact hls
      have hcne := hcons hfull (by simp)
      have hlen : rest1.length ≤ fuel := by
        have : (utt :: rest).length = consumed.length + rest1.length := by
          rw [hsplit, List.length_append]
        have hpos : 0 < consumed.length := List.length_pos.mpr hcne
        simp only [List.length_cons] at this hfuel
        omega
      unfold uttLoop
      rw [hf]
      simp only
      by_cases hd : s.cache.data = []
      · have hr := randomizeStep_empty P o hrand s hd
        rw [drainLoop_of_empty P o _ _ hr]
        simp only
        have hcapr : 0 < (randomizeStep P o s).cache.cachesize := by
          rw [(randomizeStep_sizes P o s).1, hcnt.2.2.1]
          exact hcap
        rcases ih (randomizeStep P o s) rest1
            (fun u hu => hfeat u (by rw [hsplit]; exact List.mem_append_right _ hu))
            hlr hr hcapr hlen with h | ⟨s1, h1, h2, h3⟩
        · exact Or.inl h
        · refine Or.inr ⟨s1, h1, h2, ?_⟩
          rw [hsplit, List.flatMap_append, h3, ← hdata, hd]
          rfl
      · have hrne : (randomizeStep P o s).cache.data ≠ [] := by
          intro he
          obtain ⟨_, _, _, _, hp⟩ := randomizeStep_flow P o hrand s
          rw [he] at hp
          exact hd hp.symm.eq_nil
        obtain ⟨s1, h1⟩ := drainLoop_of_no_layer P o _ (randomizeStep P o s) htrain hlr hrne
          (le_refl _)
        rw [h1]
        exact Or.inl ⟨s1, rfl⟩

/-- Claim C28: the aggregation of the code gradients indexes `layers_codeat[0]`
and divides by the number of `<codeat>` layers, and the write of the code
indexes `layers_codeat[0]`; the aggregation is out of range exactly when there is
no `<codeat>` layer, and with a layer the divisor is not zero. A network without
`<codeat>` layers passes the scan of the startup. For such a network, in
training mode, every bunch drained ends in the out-of-range access, and the
processing of a set whose code is to be written, or which has a frame that is
accepted, ends in it (given a code for the set, features for its labelled
utterances, an empty cache of positive capacity and fuel for every utterance). -/
theorem zero_layers_out_of_range {ω : Type} (P : Collab ω) (o : Options) (inp : Inputs)
    (fuel : Nat) (htrain : o.crossvalidate = false)
    (hshuf : ∀ r l, ((P.random_shuffle r l).1).Perm l)
    (hrand : ∀ r d, ((P.Randomize r d).1).Perm d) :
    (∀ layers, (codeVecDiff layers = .error .indexOutOfRange ↔ layers = [])
      ∧ (layers ≠ [] → (layers.length : ℚ) ≠ 0 ∧ ∃ g, codeVecDiff layers = .ok g))
    ∧ (∀ nnet, codeDims nnet = [] → findCodeAT o nnet 0 [] = .ok ([], 0))
    ∧ (∀ st : State ω, st.layers_codeat = [] →
        ∃ s1, trainBunch P o st = .fatal .indexOutOfRange s1)
    ∧ (∀ (st : State ω) set, st.layers_codeat = [] → st.cache.data = [] →
        0 < st.cache.cachesize → inp.code_vec set.1 ≠ none →
        (∀ u ∈ set.2, inp.alignments u ≠ none → inp.features u ≠ none) →
        set.2.length ≤ fuel →
        (o.update_code_vec = true ∨ ∃ u ∈ set.2, acceptedEntries P o inp u ≠ []) →
        ∃ s1, processSet P o inp fuel st set = .fatal .indexOutOfRange s1) := by
  refine ⟨fun layers => ⟨codeVecDiff_error_iff layers, fun hne => ?_⟩,
    fun nnet h => findCodeAT_of_no_codeat o nnet 0 [] h,
    fun st hl => trainBunch_of_no_layer P o st htrain hl,
    fun st set hl hempty hcap hcode hfeat hfuel hreach => ?_⟩
  · refine ⟨?_, ?_⟩
    · have : 0 < layers.length := List.length_pos.mpr hne
      exact_mod_cast (Nat.pos_iff_ne_zero.mp this)
    · cases layers with
      | nil => exact absurd rfl hne
      | cons l ls => exact ⟨_, rfl⟩
  · have hperm : ((if o.shuffle then P.random_shuffle st.rng set.2
        else (set.2, st.rng)).1).Perm set.2 := by
      split
      · exact hshuf _ _
      · exact List.Perm.refl _
    unfold processSet
    cases hc : inp.code_vec set.1 with
    | none => exact absurd hc hcode
    | some code =>
      simp only
      generalize (if o.shuffle then P.random_shuffle st.rng set.2 else (set.2, st.rng))
        = uttlst at hperm
      have hl0 : (setCodeLoop code 0 st.layers_codeat).1 = [] := by
        rw [hl]
        rfl
      rcases uttLoop_of_no_layer P o inp hrand htrain fuel
          ({ st with num_set := st.num_set + 1,
                     layers_codeat := (setCodeLoop code 0 st.layers_codeat).1,
                     rng := uttlst.2,
                     log := st.log ++ (setCodeLoop code 0 st.layers_codeat).2 } : State ω)
          uttlst.1 (fun u hu => hfeat u (hperm.mem_iff.mp hu)) hl0 hempty hcap
          (by rw [hperm.length_eq]; exact hfuel) with ⟨s1, h1⟩ | ⟨s1, h1, h2, h3⟩
      · rw [h1]
        exact ⟨s1, rfl⟩
      · rw [h1]
        simp only
        rcases hreach with hu | ⟨u, hu, hacc⟩
        · simp only [htrain, hu, Bool.not_false, Bool.and_self, if_true, h2]
          exact ⟨s1, rfl⟩
        · exfalso
          have hmem : u ∈ uttlst.1 := hperm.mem_iff.mpr hu
          have := List.flatMap_eq_nil_iff.mp h3 u hmem
          exact hacc this

/-- Claim C28 on the examples: the network `exNnetPlain` has no `<codeat>` layer
and passes the startup; the training run over the set `A` takes the first bunch
and ends in the out-of-range access. -/
theorem zero_layers_out_of_range_witness :
    findCodeAT exOptions exNnetPlain 0 [] = .ok ([], 0)
      ∧ (∃ st, main exCollab exOptions exInputsPlain () 3 = .fatal .indexOutOfRange st
          ∧ bunchRows st.log = [4])
      ∧ ∃ s1, processSet exCollab exOptions exInputsPlain 3
          (initState exOptions () [] exCache) ("A", ["u1", "u2", "u3"])
            = .fatal .indexOutOfRange s1 :=
  have h := zero_layers_out_of_range exCollab exOptions exInputsPlain 3 rfl
    (fun _ l => List.reverse_perm l) (fun _ d => List.reverse_perm d)
  ⟨h.2.1 exNnetPlain rfl, ⟨_, rfl, rfl⟩,
    h.2.2.2 (initState exOptions () [] exCache) ("A", ["u1", "u2", "u3"]) rfl rfl
      (by decide) (by decide) (by decide) (by decide) (Or.inl rfl)⟩

/-! ## The code written for a set without frames -/

theorem processSet_idle_layers {ω : Type} (P : Collab ω) (o : Options) (inp : Inputs)
    (fuel : Nat) (st : State ω) (set : String × List String) (code : Vec)
    (hshuf : ∀ r l, ((P.random_shuffle r l).1).Perm l)
    (hrand : ∀ r d, ((P.Randomize r d).1).Perm d)
    (hempty : st.cache.data = [])
    (hcode : inp.code_vec set.1 = some code)
    (hv : ∀ u ∈ set.2, validUtt o inp u = false) :
    (processSet P o inp fuel st set).Holds (fun s1 =>
      s1.layers_codeat = st.layers_codeat.map (fun l => (l.SetCode code).ZeroCodeCorr)
        ∧ ∃ evs, s1.log = st.log ++ (setCodeLoop code 0 st.layers_codeat).2 ++ evs
          ∧ ∀ e ∈ evs, ∀ c g, e ≠ .updateCode c g) := by
  have hperm : ((if o.shuffle then P.random_shuffle st.rng set.2 else (set.2, st.rng)).1).Perm
      set.2 := by
    split
    · exact hshuf _ _
    · exact List.Perm.refl _
  unfold processSet
  rw [hcode]
  simp only
  generalize (if o.shuffle then P.random_shuffle st.rng set.2 else (set.2, st.rng)) = uttlst
    at hperm
  have hu := uttLoop_idle P o inp hrand
    ({ st with num_set := st.num_set + 1,
               layers_codeat := (setCodeLoop code 0 st.layers_codeat).1,
               rng := uttlst.2,
               log := st.log ++ (setCodeLoop code 0 st.layers_codeat).2 } : State ω) fuel
    ({ st with num_set := st.num_set + 1,
               layers_codeat := (setCodeLoop code 0 st.layers_codeat).1,
               rng := uttlst.2,
               log := st.log ++ (setCodeLoop code 0 st.layers_codeat).2 } : State ω)
    uttlst.1 (fun u hu => hv u (hperm.mem_iff.mp hu))
    ⟨hempty, rfl, rfl, [], by simp, by simp⟩
  revert hu
  cases uttLoop P o inp fuel _ uttlst.1 with
  | diverge => exact fun _ => trivial
  | fatal f s2 =>
    rintro ⟨_, _, hl, evs, hlog, hev⟩
    refine ⟨hl.trans (setCodeLoop_layers code 0 st.layers_codeat), evs, hlog, ?_⟩
    intro e he
    rcases hev e he with ⟨u, rfl⟩ | rfl <;> simp
  | done s2 =>
    rintro ⟨_, _, hl, evs, hlog, hev⟩
    have hl2 := hl.trans (setCodeLoop_layers code 0 st.layers_codeat)
    have hev2 : ∀ e ∈ evs, ∀ c g, e ≠ .updateCode c g := by
      intro e he
      rcases hev e he with ⟨u, rfl⟩ | rfl <;> simp
    simp only
    split
    · split
      · exact ⟨hl2, evs, hlog, hev2⟩
      · rename_i l0 ls _
        refine ⟨hl2, evs ++ [.writeCode set.1 l0.GetCode],
          by simp only [hlog, List.append_assoc], ?_⟩
        intro e he
        rcases List.mem_append.mp he with he | he
        · exact hev2 e he
        · simp only [List.mem_singleton] at he
          subst he
          simp
    · exact ⟨hl2, evs, hlog, hev2⟩

/-- Claim C29: in training mode with `update_code_vec` set, a set none of whose
utterances passes the checks of the fill step (an empty list included) is
processed to its end, and the record appended to the code writer under the key of
the set holds the code that was read for the set: no `UpdateCode` call was made,
and `GetCode` on the first `<codeat>` layer returns what `SetCode` stored. The
set has a code, its labelled utterances have features, there is a `<codeat>`
layer, and the cache is empty with positive capacity and bunch size. -/
theorem processSet_writes_loaded_code {ω : Type} (P : Collab ω) (o : Options)
    (inp : Inputs) (fuel : Nat) (st : State ω) (set : String × List String) (code : Vec)
    (htrain : o.crossvalidate = false) (hucv : o.update_code_vec = true)
    (hcode : inp.code_vec set.1 = some code)
    (hv : ∀ u ∈ set.2, validUtt o inp u = false)
    (hshuf : ∀ r l, ((P.random_shuffle r l).1).Perm l)
    (hrand : ∀ r d, ((P.Randomize r d).1).Perm d)
    (hempty : st.cache.data = [])
    (hfeat : ∀ u ∈ set.2, inp.alignments u ≠ none → inp.features u ≠ none)
    (hlayers : st.layers_codeat ≠ [])
    (hcap : 0 < st.cache.cachesize) (hbunch : 0 < st.cache.bunchsize)
    (hfuel : set.2.length ≤ fuel) :
    ∃ s1, processSet P o inp fuel st set = .done s1
      ∧ s1.code_vec_writer = st.code_vec_writer ++ [(set.1, code)]
      ∧ (∀ l ∈ s1.layers_codeat, l.GetCode = code)
      ∧ ∃ evs, s1.log = st.log ++ evs ++ [.writeCode set.1 code]
        ∧ ∀ e ∈ evs, (∀ c g, e ≠ .updateCode c g) ∧ ∀ k v, e ≠ .writeCode k v := by
  obtain ⟨s1, hs⟩ := processSet_done_exists P o inp fuel st set hshuf hempty
    (by rw [hcode]; simp) hfeat (Or.inr hlayers) hcap hbunch hfuel
  have hidle := processSet_idle_layers P o inp fuel st set code hshuf hrand hempty hcode hv
  rw [hs] at hidle
  obtain ⟨hmap, evs2, hlog2, hev2⟩ := hidle
  have hget : ∀ l ∈ s1.layers_codeat, l.GetCode = code := by
    intro l hl
    rw [hmap] at hl
    obtain ⟨l', _, rfl⟩ := List.mem_map.mp hl
    rfl
  obtain ⟨evs, hin, _, hrest⟩ := (processSet_shape P o inp fuel st set code hcode).1 s1 hs
  simp only [htrain, hucv, Bool.not_false, Bool.and_self, if_true] at hrest
  obtain ⟨l0, ls, hl, hw, hlog⟩ := hrest
  have h0 : l0.GetCode = code := hget l0 (by rw [hl]; exact List.mem_cons_self _ _)
  rw [h0] at hw hlog
  have hlen : evs2 = evs ++ [.writeCode set.1 code] := by
    have := hlog2.symm.trans hlog
    simp only [List.append_assoc] at this
    exact List.append_cancel_left (List.append_cancel_left this)
  refine ⟨s1, hs, hw, hget, (setCodeLoop code 0 st.layers_codeat).2 ++ evs,
    by rw [hlog]; simp only [List.append_assoc], ?_⟩
  intro e he
  rcases List.mem_append.mp he with he | he
  · rcases setCodeLoop_events code 0 _ e he with ⟨i, rfl⟩ | ⟨i, rfl⟩ <;> simp
  · refine ⟨hev2 e (by rw [hlen]; exact List.mem_append_left _ he), ?_⟩
    intro k v hkv
    subst hkv
    have := hin _ he
    simp [Event.inLoop] at this

/-- Claim C29 on the examples: with `max_frames` 5 the set with the utterances
`u6` and `u7`, both skipped, is processed to its end, and the record written
under `A` is the code `[1, 2]` that was read for `A`. -/
theorem processSet_writes_loaded_code_witness :
    ∃ s1, processSet exCollab exOptionsFive exInputsSkip 2 exState ("A", ["u6", "u7"])
        = .done s1
      ∧ s1.code_vec_writer = [("A", [1, 2])] :=
  (processSet_writes_loaded_code exCollab exOptionsFive exInputsSkip 2 exState
    ("A", ["u6", "u7"]) [1, 2] rfl rfl rfl (by decide) (fun _ l => List.reverse_perm l)
    (fun _ d => List.reverse_perm d) rfl (by decide) (by decide) (by decide) (by decide)
    (by decide)).imp fun _ h => ⟨h.1, h.2.1⟩

/-! ## Isolation of the sets in the cache -/

theorem fillLoop_holds_mem {ω : Type} (P : Collab ω) (o : Options) (inp : Inputs)
    (I : State ω → Prop) (U : List String)
    (hfill : ∀ st utt, utt ∈ U → I st → (fillStep P o inp st utt).Holds I)
    (st : State ω) (utts : List String) (hsub : ∀ u ∈ utts, u ∈ U) (h : I st) :
    (fillLoop P o inp st utts).Holds (fun s => I s.1 ∧ ∀ u ∈ s.2, u ∈ U) := by
  induction utts generalizing st with
  | nil => exact ⟨h, hsub⟩
  | cons utt rest ih =>
    unfold fillLoop
    split
    · exact ⟨h, hsub⟩
    · have hs := hfill st utt (hsub utt (List.mem_cons_self _ _)) h
      cases hr : fillStep P o inp st utt with
      | done st1 =>
        rw [hr] at hs
        exact ih st1 (fun u hu => hsub u (List.mem_cons_of_mem _ hu)) hs
      | fatal f st1 => rw [hr] at hs; exact ⟨hs, hsub⟩
      | diverge => trivial

theorem uttLoop_holds_mem {ω : Type} (P : Collab ω) (o : Options) (inp : Inputs)
    (I : State ω → Prop) (U : List String)
    (hfill : ∀ st utt, utt ∈ U → I st → (fillStep P o inp st utt).Holds I)
    (hrand : ∀ st, I st → I (randomizeStep P o st))
    (hbunch : ∀ st, I st → (trainBunch P o st).Holds I)
    (fuel : Nat) (st : State ω) (utts : List String) (hsub : ∀ u ∈ utts, u ∈ U)
    (h : I st) : (uttLoop P o inp fuel st utts).Holds I := by
  induction fuel generalizing st utts with
  | zero =>
    cases utts with
    | nil => exact h
    | cons utt rest => trivial
  | succ fuel ih =>
    cases utts with
    | nil => exact h
    | cons utt rest =>
      unfold uttLoop
      have hf := fillLoop_holds_mem P o inp I U hfill st (utt :: rest) hsub h
      cases hr : fillLoop P o inp st (utt :: rest) with
      | done s =>
        rw [hr] at hf
        have hd := drainLoop_holds P o I hbunch (randomizeStep P o s.1).cache.data.length
          (randomizeStep P o s.1) (hrand _ hf.1)
        simp only
        cases hr2 : drainLoop P o (randomizeStep P o s.1).cache.data.length
            (randomizeStep P o s.1) with
        | done st3 => rw [hr2] at hd; exact ih st3 s.2 hf.2 hd
        | fatal f st3 => rw [hr2] at hd; exact hd
        | diverge => trivial
      | fatal f s => rw [hr] at hf; exact hf.1
      | diverge => trivial

theorem FromSet.extend {ω : Type} {P : Collab ω} {o : Options} {inp : Inputs}
    {U : List String} {log0 : List Event} {s s1 : State ω} (new : List Event)
    (h : FromSet P o inp U log0 s) (hlog : s1.log = s.log ++ new)
    (hnew : ∀ b, Event.getBunch b ∈ new → ∀ x ∈ b, x ∈ s.cache.data)
    (hdata : ∀ x ∈ s1.cache.data,
      x ∈ s.cache.data ∨ ∃ u ∈ U, x ∈ acceptedEntries P o inp u) :
    FromSet P o inp U log0 s1 := by
  obtain ⟨evs, h1, h2, h3⟩ := h
  refine ⟨evs ++ new, by rw [hlog, h1, List.append_assoc], ?_, ?_⟩
  · intro b hb x hx
    rcases List.mem_append.mp hb with hb | hb
    · exact h2 b hb x hx
    · exact h3 x (hnew b hb x hx)
  · intro x hx
    rcases hdata x hx with hx | hx
    · exact h3 x hx
    · exact hx

theorem FromSet_fillStep {ω : Type} (P : Collab ω) (o : Options) (inp : Inputs)
    (U : List String) (log0 : List Event) (s : State ω) (utt : String) (hu : utt ∈ U)
    (h : FromSet P o inp U log0 s) :
    (fillStep P o inp s utt).Holds (FromSet P o inp U log0) := by
  cases hr : fillStep P o inp s utt with
  | diverge => trivial
  | done s1 =>
    obtain ⟨evs, ⟨f1, _⟩, _, hg, hd⟩ := fillStep_done_flow P o inp s s1 utt hr
    refine h.extend evs f1 (fun b hb => absurd hb (hg b)) ?_
    intro x hx
    rw [hd] at hx
    rcases List.mem_append.mp hx with hx | hx
    · exact Or.inl hx
    · exact Or.inr ⟨utt, hu, hx⟩
  | fatal f s1 =>
    rcases fillStep_cases P o inp s utt with h1 | h1 | h1 | h1 | ⟨a, m, _, _, _, h1⟩
    · rw [h1.2] at hr; cases hr
    · rw [h1.2.2] at hr
      cases hr
      exact h
    · rw [h1.2] at hr; cases hr
    · rw [h1.2.2] at hr
      cases hr
      exact h.extend [.readFeatures utt] rfl (by simp) (fun x hx => Or.inl hx)
    · rw [h1] at hr; cases hr

theorem FromSet_randomizeStep {ω : Type} (P : Collab ω) (o : Options) (inp : Inputs)
    (hrand : ∀ r d, ((P.Randomize r d).1).Perm d)
    (U : List String) (log0 : List Event) (s : State ω)
    (h : FromSet P o inp U log0 s) : FromSet P o inp U log0 (randomizeStep P o s) := by
  obtain ⟨evs, ⟨f1, _⟩, _, hg, hp⟩ := randomizeStep_flow P o hrand s
  exact h.extend evs f1 (fun b hb => absurd hb (hg b)) (fun x hx => Or.inl (hp.mem_iff.mp hx))

theorem FromSet_trainBunch {ω : Type} (P : Collab ω) (o : Options) (inp : Inputs)
    (U : List String) (log0 : List Event) (s : State ω)
    (h : FromSet P o inp U log0 s) :
    (trainBunch P o s).Holds (FromSet P o inp U log0) := by
  have htake : ∀ x ∈ s.cache.data.take s.cache.bunchsize.toNat, x ∈ s.cache.data :=
    fun x hx => List.mem_of_mem_take hx
  have hdrop : ∀ x ∈ s.cache.data.drop s.cache.bunchsize.toNat,
      x ∈ s.cache.data ∨ ∃ u ∈ U, x ∈ acceptedEntries P o inp u :=
    fun x hx => Or.inl (List.mem_of_mem_drop hx)
  unfold trainBunch
  simp only
  split
  · refine h.extend [.getBunch s.cache.GetBunch.1, .propagate] rfl ?_ hdrop
    intro b hb x hx
    simp only [List.mem_cons, Event.getBunch.injEq, reduceCtorEq, List.not_mem_nil,
      or_false] at hb
    subst hb
    exact htake x hx
  · split
    · refine h.extend [.getBunch s.cache.GetBunch.1, .propagate, .backpropagate] rfl ?_ hdrop
      intro b hb x hx
      simp only [List.mem_cons, Event.getBunch.injEq, reduceCtorEq, List.not_mem_nil,
        or_false] at hb
      subst hb
      exact htake x hx
    · rename_i g _
      refine h.extend _ (List.append_assoc _ _ _) ?_ hdrop
      intro b hb x hx
      rcases List.mem_append.mp hb with hb | hb
      · simp only [List.mem_cons, Event.getBunch.injEq, reduceCtorEq, List.not_mem_nil,
          or_false] at hb
        subst hb
        exact htake x hx
      · exact absurd hb (updateCodeLoop_no_bunch P.UpdateCode g 0 _ b).1

theorem processSet_fromSet {ω : Type} (P : Collab ω) (o : Options) (inp : Inputs)
    (fuel : Nat) (st : State ω) (set : String × List String)
    (hshuf : ∀ r l, ((P.random_shuffle r l).1).Perm l)
    (hrand : ∀ r d, ((P.Randomize r d).1).Perm d)
    (hempty : st.cache.data = []) :
    (processSet P o inp fuel st set).Holds (FromSet P o inp set.2 st.log) := by
  have hperm : ((if o.shuffle then P.random_shuffle st.rng set.2 else (set.2, st.rng)).1).Perm
      set.2 := by
    split
    · exact hshuf _ _
    · exact List.Perm.refl _
  unfold processSet
  cases hcode : inp.code_vec set.1 with
  | none => exact ⟨[], by simp, by simp, by simp [hempty]⟩
  | some code =>
    simp only
    generalize (if o.shuffle then P.random_shuffle st.rng set.2 else (set.2, st.rng)) = uttlst
      at hperm
    have hstart : FromSet P o inp set.2 st.log
        ({ st with num_set := st.num_set + 1,
                   layers_codeat := (setCodeLoop code 0 st.layers_codeat).1,
                   rng := uttlst.2,
                   log := st.log ++ (setCodeLoop code 0 st.layers_codeat).2 } : State ω) := by
      refine ⟨_, rfl, ?_, ?_⟩
      · intro b hb
        rcases setCodeLoop_events code 0 _ _ hb with ⟨i, hi⟩ | ⟨i, hi⟩ <;> cases hi
      · intro x hx
        simp only [hempty] at hx
        cases hx
    have hu := uttLoop_holds_mem P o inp (FromSet P o inp set.2 st.log) set.2
      (fun s utt hu hs => FromSet_fillStep P o inp set.2 st.log s utt hu hs)
      (fun s hs => FromSet_randomizeStep P o inp hrand set.2 st.log s hs)
      (fun s hs => FromSet_trainBunch P o inp set.2 st.log s hs) fuel _ uttlst.1
      (fun u hu => hperm.mem_iff.mp hu) hstart
    revert hu
    cases uttLoop P o inp fuel _ uttlst.1 with
    | diverge => exact fun _ => trivial
    | fatal f s2 => exact fun hu => hu
    | done s2 =>
      intro hu
      simp only
      split
      · split
        · exact hu
        · rename_i l0 ls _
          exact hu.extend [.writeCode set.1 l0.GetCode] rfl (by simp) (fun x hx => Or.inl hx)
      · exact hu

theorem setsLoop_done_cache {ω : Type} (P : Collab ω) (o : Options) (inp : Inputs)
    (fuel : Nat) (sets : List (String × List String)) (st s1 : State ω)
    (hempty : st.cache.data = []) (h : setsLoop P o inp fuel st sets = .done s1) :
    s1.cache.data = [] := by
  induction sets generalizing st with
  | nil =>
    simp only [setsLoop] at h
    cases h
    exact hempty
  | cons set sets ih =>
    unfold setsLoop at h
    cases hp : processSet P o inp fuel st set with
    | done s =>
      rw [hp] at h
      exact ih s (processSet_done_cache P o inp fuel st s set hempty hp).1 h
    | fatal f s => rw [hp] at h; cases h
    | diverge => rw [hp] at h; cases h

theorem configureCache_empty (cachesize bunchsize : Int) (cache : Cache)
    (h : configureCache cachesize bunchsize = .ok cache) : cache.data = [] := by
  unfold configureCache at h
  cases hr : roundCachesize cachesize bunchsize with
  | error f => rw [hr] at h; cases h
  | ok rounded =>
    rw [hr] at h
    simp only [Cache.Init] at h
    split at h
    · cases h
    · cases h
      rfl

/-- Claim C22: the cache that the startup configures is empty; every set that the
run reaches is entered with an empty cache; the processing of a set, entered with
an empty cache, ends with an empty cache when it ends normally, as does every
drain loop; and in every state in which the processing of a set ends, normally or
by a fatal error, every entry of every bunch taken since the set was entered, and
every entry still in the cache, is a frame accepted for an utterance of that set.
The shuffles are rearrangements. -/
theorem cache_isolated {ω : Type} (P : Collab ω) (o : Options) (inp : Inputs) (net : ω)
    (fuel : Nat) (hshuf : ∀ r l, ((P.random_shuffle r l).1).Perm l)
    (hrand : ∀ r d, ((P.Randomize r d).1).Perm d) :
    (∀ cache, configureCache o.cachesize o.bunchsize = .ok cache → cache.data = [])
    ∧ (∀ layers cache pre s, cache.data = [] →
        setsLoop P o inp fuel (initState o net layers cache) pre = .done s →
        s.cache.data = [])
    ∧ (∀ (st : State ω) set, st.cache.data = [] →
        (processSet P o inp fuel st set).Holds (fun s1 =>
          ∃ evs, s1.log = st.log ++ evs
            ∧ (∀ b, Event.getBunch b ∈ evs → ∀ x ∈ b,
                ∃ u ∈ set.2, x ∈ acceptedEntries P o inp u)
            ∧ ∀ x ∈ s1.cache.data, ∃ u ∈ set.2, x ∈ acceptedEntries P o inp u))
    ∧ (∀ (st s1 : State ω) set, st.cache.data = [] →
        processSet P o inp fuel st set = .done s1 → s1.cache.data = [])
    ∧ (∀ n (st s1 : State ω), drainLoop P o n st = .done s1 → s1.cache.data = []) :=
  ⟨fun cache h => configureCache_empty _ _ cache h,
    fun layers cache pre s he h =>
      setsLoop_done_cache P o inp fuel pre (initState o net layers cache) s he h,
    fun st set he => processSet_fromSet P o inp fuel st set hshuf hrand he,
    fun st s1 set he h => (processSet_done_cache P o inp fuel st s1 set he h).1,
    fun n st s1 h => (drainLoop_done_flow P o n st s1 h).choose_spec.2.2.2⟩

/-- Claim C22 on the examples: the set `A` is processed from `exState` to its end,
the cache is empty again, and every entry of every bunch taken is a frame
accepted for `u1`, `u2` or `u3`. -/
theorem cache_isolated_witness :
    ∃ s1, processSet exCollab exOptions exInputs 3 exState ("A", ["u1", "u2", "u3"])
        = .done s1
      ∧ s1.cache.data = []
      ∧ ∃ evs, s1.log = exState.log ++ evs
        ∧ ∀ b, Event.getBunch b ∈ evs → ∀ x ∈ b,
            ∃ u ∈ ["u1", "u2", "u3"], x ∈ acceptedEntries exCollab exOptions exInputs u := by
  have h := cache_isolated exCollab exOptions exInputs () 3 (fun _ l => List.reverse_perm l)
    (fun _ d => List.reverse_perm d)
  have hd : ∃ s1, processSet exCollab exOptions exInputs 3 exState ("A", ["u1", "u2", "u3"])
      = .done s1 := ⟨_, rfl⟩
  obtain ⟨s1, hs⟩ := hd
  have h3 := h.2.2.1 exState ("A", ["u1", "u2", "u3"]) rfl
  rw [hs] at h3
  obtain ⟨evs, hlog, hb, _⟩ := h3
  exact ⟨s1, hs, h.2.2.2.1 exState s1 _ rfl hs, evs, hlog, hb⟩

/-! ## One code update per bunch -/

theorem updateCalls_append (c : Nat) (l1 l2 : List Event) :
    updateCalls c (l1 ++ l2) = updateCalls c l1 + updateCalls c l2 := by
  induction l1 with
  | nil => simp [updateCalls]
  | cons e es ih => cases e <;> simp [updateCalls, ih, Nat.add_assoc]

theorem updateCalls_range (c : Nat) (g : Vec) (k m : Nat) :
    updateCalls c ((List.range' k m).map (fun i => Event.updateCode i g))
      = if k ≤ c ∧ c < k + m then 1 else 0 := by
  induction m generalizing k with
  | zero =>
    have : ¬ (k ≤ c ∧ c < k) := by omega
    simp [updateCalls, this]
  | succ m ih =>
    rw [List.range'_succ, List.map_cons]
    simp only [updateCalls, ih]
    by_cases h1 : k = c
    · have h2 : ¬ (k + 1 ≤ c ∧ c < k + 1 + m) := by omega
      have h3 : k ≤ c ∧ c < k + (m + 1) := by omega
      simp [h1, h2, h3]
    · by_cases h2 : k + 1 ≤ c ∧ c < k + 1 + m
      · have h3 : k ≤ c ∧ c < k + (m + 1) := by omega
        simp [h1, h2, h3]
      · have h3 : ¬ (k ≤ c ∧ c < k + (m + 1)) := by omega
        simp [h1, h2, h3]

theorem UpdatedPerBunch.more {ω : Type} {n : Nat} {log0 : List Event} {s s1 : State ω}
    (new : List Event) (h : UpdatedPerBunch n log0 s)
    (hl : s1.layers_codeat.length = s.layers_codeat.length)
    (hlog : s1.log = s.log ++ new)
    (hnew : ∀ c < n, updateCalls c new = (bunchRows new).length) :
    UpdatedPerBunch n log0 s1 := by
  obtain ⟨h0, evs, h1, h2⟩ := h
  refine ⟨hl.trans h0, evs ++ new, by rw [hlog, h1, List.append_assoc], ?_⟩
  intro c hc
  rw [updateCalls_append, bunchRows_append, List.length_append, h2 c hc, hnew c hc]

theorem UpdatedPerBunch_fillStep {ω : Type} (P : Collab ω) (o : Options) (inp : Inputs)
    (n : Nat) (log0 : List Event) (s : State ω) (utt : String)
    (h : UpdatedPerBunch n log0 s) :
    (fillStep P o inp s utt).Holds (UpdatedPerBunch n log0) := by
  rcases fillStep_cases P o inp s utt with h1 | h1 | h1 | h1 | ⟨a, m, _, _, _, h1⟩
  · rw [h1.2]
    exact h.more [] rfl (by simp) (by simp [updateCalls, bunchRows])
  · rw [h1.2.2]
    exact h
  · rw [h1.2]
    exact h.more [.readFeatures utt] rfl rfl (by simp [updateCalls, bunchRows])
  · rw [h1.2.2]
    exact h.more [.readFeatures utt] rfl rfl (by simp [updateCalls, bunchRows])
  · rw [h1]
    exact h.more _ rfl rfl (by simp [updateCalls, bunchRows])

theorem UpdatedPerBunch_randomizeStep {ω : Type} (P : Collab ω) (o : Options)
    (n : Nat) (log0 : List Event) (s : State ω) (h : UpdatedPerBunch n log0 s) :
    UpdatedPerBunch n log0 (randomizeStep P o s) := by
  unfold randomizeStep
  split
  · exact h.more [.randomizeCache] rfl rfl (by simp [updateCalls, bunchRows])
  · exact h

theorem UpdatedPerBunch_trainBunch {ω : Type} (P : Collab ω) (o : Options)
    (htrain : o.crossvalidate = false)
    (n : Nat) (log0 : List Event) (s : State ω) (h : UpdatedPerBunch n log0 s) :
    (trainBunch P o s).Holds (UpdatedPerBunch n log0) := by
  unfold trainBunch
  simp only [htrain, Bool.false_eq_true, if_false]
  split
  · rename_i f herr
    have hnil : setCodeDiff (P.Backpropagate
        (P.Propagate s.net s.layers_codeat s.cache.GetBunch.1) s.layers_codeat
        s.cache.GetBunch.1).2 0 s.layers_codeat = [] := by
      cases hl : setCodeDiff (P.Backpropagate
          (P.Propagate s.net s.layers_codeat s.cache.GetBunch.1) s.layers_codeat
          s.cache.GetBunch.1).2 0 s.layers_codeat with
      | nil => rfl
      | cons l ls => rw [hl] at herr; simp [codeVecDiff] at herr
    have hn : n = 0 := by
      have := setCodeDiff_length (P.Backpropagate
        (P.Propagate s.net s.layers_codeat s.cache.GetBunch.1) s.layers_codeat
        s.cache.GetBunch.1).2 0 s.layers_codeat
      rw [hnil] at this
      rw [← h.1]
      exact this.symm
    refine h.more [.getBunch s.cache.GetBunch.1, .propagate, .backpropagate]
      (setCodeDiff_length _ _ _) rfl ?_
    intro c hc
    omega
  · rename_i g _
    refine h.more _ ?_ (List.append_assoc _ _ _) ?_
    · show (updateCodeLoop P.UpdateCode g 0 _).1.length = s.layers_codeat.length
      rw [updateCodeLoop_layers, List.length_map, setCodeDiff_length]
    · intro c hc
      rw [updateCalls_append, bunchRows_append, updateCodeLoop_events, updateCalls_range,
        setCodeDiff_length, h.1]
      have hc2 : 0 ≤ c ∧ c < 0 + n := by omega
      have hb : bunchRows ((List.range' 0 n).map (fun i => Event.updateCode i g)) = [] :=
        (takenFrames_eq_nil _ (by simp)).2
      simp [updateCalls, bunchRows, hc2, hb, hc]

theorem processSet_updatedPerBunch {ω : Type} (P : Collab ω) (o : Options) (inp : Inputs)
    (fuel : Nat) (st : State ω) (set : String × List String)
    (htrain : o.crossvalidate = false) :
    (processSet P o inp fuel st set).Holds
      (UpdatedPerBunch st.layers_codeat.length st.log) := by
  unfold processSet
  cases hcode : inp.code_vec set.1 with
  | none => exact ⟨rfl, [], by simp, by simp [updateCalls, bunchRows]⟩
  | some code =>
    simp only
    generalize (if o.shuffle then P.random_shuffle st.rng set.2 else (set.2, st.rng)) = uttlst
    have hstart : UpdatedPerBunch st.layers_codeat.length st.log
        ({ st with num_set := st.num_set + 1,
                   layers_codeat := (setCodeLoop code 0 st.layers_codeat).1,
                   rng := uttlst.2,
                   log := st.log ++ (setCodeLoop code 0 st.layers_codeat).2 } : State ω) := by
      refine ⟨setCodeLoop_length code 0 st.layers_codeat, _, rfl, ?_⟩
      intro c _
      rw [setCodeLoop_calls]
      generalize List.range' 0 st.layers_codeat.length = r
      induction r with
      | nil => rfl
      | cons i r ih => simpa [List.flatMap_cons, updateCalls, bunchRows] using ih
    have hu := uttLoop_holds P o inp (UpdatedPerBunch st.layers_codeat.length st.log)
      (fun s utt hs => UpdatedPerBunch_fillStep P o inp _ st.log s utt hs)
      (fun s hs => UpdatedPerBunch_randomizeStep P o _ st.log s hs)
      (fun s hs => UpdatedPerBunch_trainBunch P o htrain _ st.log s hs) fuel _ uttlst.1
      hstart
    revert hu
    cases uttLoop P o inp fuel _ uttlst.1 with
    | diverge => exact fun _ => trivial
    | fatal f s2 => exact fun hu => hu
    | done s2 =>
      intro hu
      simp only
      split
      · split
        · exact hu
        · rename_i l0 ls _
          exact hu.more [.writeCode set.1 l0.GetCode] rfl rfl
            (by simp [updateCalls, bunchRows])
      · exact hu

/-- Claim C23: in training mode, one bunch with at least one `<codeat>` layer is
the call of `GetBunch`, the forward pass, the backward pass and then one
`UpdateCode` call on each layer in turn, all with the aggregate of the code
gradients that the layers hold after that backward pass; the next bunch is taken
only after these calls. In every state in which the processing of a set ends,
normally or by a fatal error, the number of `<codeat>` layers is what it was and
each layer has had as many `UpdateCode` calls since the set was entered as
bunches were taken. -/
theorem updateCode_once_per_bunch {ω : Type} (P : Collab ω) (o : Options) (inp : Inputs)
    (fuel : Nat) (htrain : o.crossvalidate = false) :
    (∀ st : State ω, st.layers_codeat ≠ [] →
      ∃ g s1, codeVecDiff (setCodeDiff (bunchCodeDiffs P st) 0 st.layers_codeat) = .ok g
        ∧ trainBunch P o st = .done s1
        ∧ s1.log = st.log ++ [.getBunch st.cache.GetBunch.1, .propagate, .backpropagate]
            ++ (List.range st.layers_codeat.length).map (fun c => Event.updateCode c g))
    ∧ (∀ (st : State ω) set,
        (processSet P o inp fuel st set).Holds (fun s1 =>
          s1.layers_codeat.length = st.layers_codeat.length
            ∧ ∃ evs, s1.log = st.log ++ evs
              ∧ ∀ c < st.layers_codeat.length,
                  updateCalls c evs = (bunchRows evs).length)) := by
  refine ⟨fun st hne => ?_, fun st set => processSet_updatedPerBunch P o inp fuel st set htrain⟩
  cases hg : codeVecDiff (setCodeDiff (bunchCodeDiffs P st) 0 st.layers_codeat) with
  | error f =>
    exfalso
    cases hl : st.layers_codeat with
    | nil => exact hne hl
    | cons l ls =>
      rw [hl] at hg
      simp [setCodeDiff, codeVecDiff] at hg
  | ok g =>
    have hg2 := hg
    unfold bunchCodeDiffs at hg2
    have ht : ∃ s1, trainBunch P o st = .done s1
        ∧ s1.log = st.log ++ [.getBunch st.cache.GetBunch.1, .propagate, .backpropagate]
            ++ (List.range st.layers_codeat.length).map (fun c => Event.updateCode c g) := by
      simp only [trainBunch, htrain, Bool.false_eq_true, if_false, hg2]
      refine ⟨_, rfl, ?_⟩
      simp only
      rw [updateCodeLoop_events, setCodeDiff_length, List.range_eq_range']
    obtain ⟨s1, hs1, hlog⟩ := ht
    exact ⟨g, s1, rfl, hs1, hlog⟩

/-- Claim C23 on the examples: the bunch taken from `exStateBunch` is followed by
one `UpdateCode` call on each of the two layers, with the same vector; and while
the set `A` is processed two bunches are taken and each layer has two
`UpdateCode` calls. -/
theorem updateCode_once_per_bunch_witness :
    (∃ g s1, trainBunch exCollab exOptions exStateBunch = .done s1
      ∧ s1.log = [.getBunch [([1], 0), ([2], 1)], .propagate, .backpropagate,
          .updateCode 0 g, .updateCode 1 g])
    ∧ ∃ s1, processSet exCollab exOptions exInputs 3 exState ("A", ["u1", "u2", "u3"])
        = .done s1
      ∧ (bunchRows s1.log).length = 2 ∧ updateCalls 0 s1.log = 2
      ∧ updateCalls 1 s1.log = 2 :=
  ⟨(((updateCode_once_per_bunch exCollab exOptions exInputs 3 rfl).1 exStateBunch
      (by decide)).imp fun _ h => h.imp fun _ h => ⟨h.2.1, h.2.2⟩),
    _, rfl, rfl, rfl, rfl⟩

/-! ## The Gaussian-Bernoulli RBM -/

theorem dot_div_left (a s b : Vec) :
    dot (List.zipWith (fun x d => x / d) a s) b
      = dot a (List.zipWith (fun x d => x / d) b s) := by
  unfold dot
  induction a generalizing s b with
  | nil => simp
  | cons x xs ih =>
    cases s with
    | nil => cases b <;> simp
    | cons d ds =>
      cases b with
      | nil => simp
      | cons y ys =>
        simp only [List.zipWith_cons_cons, List.sum_cons, ih]
        ring

theorem AddMatMat_div (alpha beta : ℚ) (input W out : Mat) (s : Vec) :
    AddMatMat alpha (DivColsVec input s) .kNoTrans W .kTrans beta out
      = AddMatMat alpha input .kNoTrans (DivColsVec W s) .kTrans beta out := by
  simp only [AddMatMat, DivColsVec, List.zipWith_map_right, dot_div_left]

/-- Claim C30: for every `GRbm` whose `fstd_` has no zero entry, every input and
every output buffer, the output of `PropagateFnc` before the sigmoid, `hid_bias +
(in ./ fstd) * vis_hid^T`, is the output of the affine layer that `WriteAsNnet`
writes, `hid_bias + in * (vis_hid ./ fstd)^T`, and the output of `PropagateFnc` is
that of the two written layers. Arithmetic is exact. -/
theorem WriteAsNnet_agrees_with_PropagateFnc (sigmoid : ℚ → ℚ) (g : GRbm)
    (input out : Mat) (_hstd : ∀ s ∈ g.fstd, s ≠ 0) :
    (g.PropagateAffine input out).2
        = AddMatMat 1 input .kNoTrans (DivColsVec g.vis_hid g.fstd) .kTrans 1
            (AddVecToRows 1 g.hid_bias 0 out)
      ∧ (∃ lin sig, g.WriteAsNnet = [lin, sig]
          ∧ lin.Propagate sigmoid input out = (g.PropagateAffine input out).2)
      ∧ writtenForward sigmoid out g.WriteAsNnet input
        = (g.PropagateFnc sigmoid input out).2 := by
  have h : (g.PropagateAffine input out).2
      = AddMatMat 1 input .kNoTrans (DivColsVec g.vis_hid g.fstd) .kTrans 1
          (AddVecToRows 1 g.hid_bias 0 out) := AddMatMat_div 1 1 input g.vis_hid _ g.fstd
  refine ⟨h, ⟨_, _, rfl, h.symm⟩, ?_⟩
  simp only [GRbm.WriteAsNnet, writtenForward, WrittenComponent.Propagate, GRbm.PropagateFnc,
    h]

/-- Claim C30 on the examples: for `exGRbm` (standard deviation 2, weight 3, bias
1) and the input row `[4]`, both ways give `1 + (4 / 2) * 3 = 1 + 4 * (3 / 2) = 7`
before the sigmoid. -/
theorem WriteAsNnet_agrees_with_PropagateFnc_witness :
    (exGRbm.PropagateAffine [[4]] [[0]]).2 = [[7]]
      ∧ writtenForward (fun x => x) [[0]] exGRbm.WriteAsNnet [[4]]
        = (exGRbm.PropagateFnc (fun x => x) [[4]] [[0]]).2 :=
  ⟨by decide!,
    (WriteAsNnet_agrees_with_PropagateFnc (fun x => x) exGRbm [[4]] [[0]]
      (by decide!)).2.2⟩

/-- Claim C24 fails on the code: in `GRbm::RbmUpdate` the visible data are
multiplied by `fstd_` (lines 172 and 175), not divided as the comments of those
lines say and as `PropagateFnc` does. Whenever the update is made, `data_` holds
the positive data with each column multiplied by `fstd_`. For `exGRbm` (standard
deviation 2) on its first bunch, with positive data `[[1]]`, negative data `[[3]]`
and hidden probabilities 1/2, the statistics are 2 and 6 where the division gives
1/2 and 3/2, and the weight correction is `-10003/5000` (`-2` without the
sparsity term) where the division gives `-10003/20000` (`-1/2`). -/
theorem RbmUpdate_multiplies_by_fstd :
    (∀ exp (g : GRbm) pos_vis pos_hid neg_vis neg_hid avg_hid_probs first_bunch r,
        g.RbmUpdate exp pos_vis pos_hid neg_vis neg_hid avg_hid_probs first_bunch = some r →
        r.1.data = MulColsVec pos_vis g.fstd)
      ∧ (exGRbm.RbmUpdate (fun x => 1 + x) [[1]] [[1 / 2]] [[3]] [[1 / 2]] [] true).map
          (fun r => (r.1.data, r.1.vis_hid_corr)) = some ([[2]], [[-10003 / 5000]])
      ∧ (GRbm.RbmUpdate (fun x => 1 + x) { exGRbm with apply_sparsity := false }
            [[1]] [[1 / 2]] [[3]] [[1 / 2]] [] true).map
          (fun r => (r.1.data, r.1.vis_hid_corr)) = some ([[2]], [[-2]])
      ∧ MulColsVec [[1]] exGRbm.fstd = [[2]] ∧ MulColsVec [[3]] exGRbm.fstd = [[6]]
      ∧ DivColsVec [[1]] exGRbm.fstd = [[1 / 2]] ∧ DivColsVec [[3]] exGRbm.fstd = [[3 / 2]]
      ∧ (exGRbm.PropagateAffine [[1]] [[0]]).1.data = [[1 / 2]] := by
  refine ⟨?_, by decide!, by decide!, by decide!, by decide!, by decide!, by decide!,
    by decide!⟩
  intro exp g pos_vis pos_hid neg_vis neg_hid avg_hid_probs first_bunch r h
  unfold GRbm.RbmUpdate at h
  split at h
  · cases h
    rfl
  · cases h

end CodeatTrain
